import Mathlib

/-!
# URL-Normalizer: a shallow embedding of `main_STEPHEN_ADEWALE.go`

Go strings are modelled as lists of characters (`Str`); strings that are not valid
UTF-8 are not represented.  Every string that the URL grammar accepts is pure ASCII, so
byte indexing in the Go source and character indexing here agree on every string that
`normalize` slices.  A run-time panic of the Go code (index or slice out of range) is
the value `none`.  Go maps are used by the source only through their key sets, which
are modelled as duplicate-free lists.
-/

namespace URLNormalizer

/-- A Go string, as the list of its characters. -/
abbrev Str := List Char

/-! ## Character classes of `urlRegex` -/

/-- The class `[a-z]`. -/
def isLower (c : Char) : Bool := decide (97 ≤ c.toNat) && decide (c.toNat ≤ 122)

/-- The class `[A-Z]`. -/
def isUpper (c : Char) : Bool := decide (65 ≤ c.toNat) && decide (c.toNat ≤ 90)

/-- The class `[a-zA-Z]` (the scheme). -/
def isLetter (c : Char) : Bool := isLower c || isUpper c

/-- The class `[0-9]` (the port). -/
def isDigit (c : Char) : Bool := decide (48 ≤ c.toNat) && decide (c.toNat ≤ 57)

/-- The class `[a-zA-Z0-9]` (the last domain label). -/
def isAlnum (c : Char) : Bool := isLetter c || isDigit c

/-- The class `[a-zA-Z0-9-]` (a domain label before a dot). -/
def isLabelChar (c : Char) : Bool := isAlnum c || c == '-'

/-- A character that can occur inside the domain capture: a label character or the dot. -/
def isDomainChar (c : Char) : Bool := isLabelChar c || c == '.'

/-- The class `[a-zA-Z0-9%/^*()$@!_.-]` (the path after its first slash). -/
def isPathChar (c : Char) : Bool :=
  isAlnum c || ['%', '/', '^', '*', '(', ')', '$', '@', '!', '_', '.', '-'].elem c

/-- The class `[a-zA-Z0-9^*()$@!_%=&.-]` (the query). -/
def isQueryChar (c : Char) : Bool :=
  isAlnum c || ['^', '*', '(', ')', '$', '@', '!', '_', '%', '=', '&', '.', '-'].elem c

/-- The class `[a-zA-Z0-9^*()$@!_%&]` (the fragment after `#`). -/
def isFragChar (c : Char) : Bool :=
  isAlnum c || ['^', '*', '(', ')', '$', '@', '!', '_', '%', '&'].elem c

/-! ## The string functions of the Go library that the source calls -/

/-- Lower-case mapping of one rune, as `unicode.ToLower` restricted to what can matter
here: the ASCII letters, and the two non-ASCII runes whose lower case is an ASCII letter
(U+212A KELVIN SIGN and U+0130).  Every other rune outside ASCII maps to a rune outside
ASCII, which no class of the grammar accepts; it is left as it is. -/
def lowerRune (c : Char) : Char :=
  if isUpper c then Char.ofNat (c.toNat + 32)
  else if c.toNat = 0x212A then 'k'
  else if c.toNat = 0x130 then 'i'
  else c

/-- Upper-case mapping of one ASCII character (`strings.ToUpper` on the two bytes that
follow a `%`). -/
def upperRune (c : Char) : Char :=
  if isLower c then Char.ofNat (c.toNat - 32) else c

/-- Go `strings.ToLower`. -/
def toLower (s : Str) : Str := s.map lowerRune

/-- Go `strings.ToUpper`. -/
def toUpper (s : Str) : Str := s.map upperRune

/-- Go `strings.TrimLeft(s, cutset)`: drops the leading characters that are in the
cutset. -/
def trimLeft (cutset : List Char) (s : Str) : Str := s.dropWhile (fun c => cutset.elem c)

/-- Go `strings.TrimRight(s, cutset)`: drops the trailing characters that are in the
cutset. -/
def trimRight (cutset : List Char) (s : Str) : Str :=
  s.rdropWhile (fun c => cutset.elem c)

/-- Go `strings.Split(s, sep)` for a one-character separator. -/
def split (sep : Char) : Str → List Str
  | [] => [[]]
  | c :: cs =>
    if c = sep then [] :: split sep cs
    else (c :: (split sep cs).headD []) :: (split sep cs).tail

/-- Go `strings.Join(xs, sep)` for a one-character separator. -/
def join (sep : Char) : List Str → Str
  | [] => []
  | [x] => x
  | x :: y :: ys => x ++ sep :: join sep (y :: ys)

/-- Go `strings.LastIndex(s, sep)` for a one-character separator; `none` is `-1`. -/
def lastIndex (sep : Char) : Str → Option Nat
  | [] => none
  | c :: cs =>
    match lastIndex sep cs with
    | some k => some (k + 1)
    | none => if c = sep then some 0 else none

/-- Go `strings.Replace(s, old, new, 1)` for a non-empty `old`: the first occurrence of
`old` in `s` is replaced. -/
def replaceFirst (old new : Str) : Str → Str
  | [] => []
  | c :: cs =>
    if (c :: cs).take old.length = old then new ++ (c :: cs).drop old.length
    else c :: replaceFirst old new cs

/-- Byte-wise lexicographic order on strings, the order of `sort.Strings`. -/
def strLe : Str → Str → Bool
  | [], _ => true
  | _ :: _, [] => false
  | a :: as, b :: bs =>
    if a.toNat < b.toNat then true
    else if b.toNat < a.toNat then false
    else strLe as bs

/-- Go `sort.Strings`: the list in increasing byte-wise order. -/
def sortStrings (xs : List Str) : List Str :=
  xs.insertionSort (fun a b => strLe a b = true)

/-! ## `urlRegex` -/

/-- The result of matching `urlRegex`: for each capture group, whether it took part in
the match and what it captured, without the delimiter the group starts with (the colon of
the port, the first slash of the path, the hash of the fragment). -/
structure Parsed where
  /-- Group 1, `([a-zA-Z]+)`. -/
  scheme : Option Str
  /-- Group 2, the domain. -/
  domain : Str
  /-- Group 3 without its colon. -/
  port : Option Str
  /-- Group 4 without its first slash. -/
  path : Option Str
  /-- Group 5. -/
  query : Option Str
  /-- Group 6 without its hash. -/
  fragment : Option Str
deriving DecidableEq, Repr

/-- The optional group `(?:([a-zA-Z]+)://)?` at the start of the string: the scheme and
the rest of the string. -/
def takeScheme (s : Str) : Option Str × Str :=
  if s.takeWhile isLetter ≠ [] ∧ (s.dropWhile isLetter).take 3 = [':', '/', '/'] then
    (some (s.takeWhile isLetter), (s.dropWhile isLetter).drop 3)
  else (none, s)

/-- Whether the whole string matches `(?:[a-zA-Z0-9-]+\.)+[a-zA-Z0-9]{2,}`: split at the
dots there are at least two labels, every label but the last is a non-empty run of
`[a-zA-Z0-9-]`, the last label is a run of at least two `[a-zA-Z0-9]`. -/
def matchDomain (d : Str) : Bool :=
  decide (2 ≤ (split '.' d).length) &&
  (split '.' d).dropLast.all (fun l => !l.isEmpty && l.all isLabelChar) &&
  ((split '.' d).getLastD []).all isAlnum &&
  decide (2 ≤ ((split '.' d).getLastD []).length)

/-- The optional group `(:[0-9]+)?`. -/
def takePort (s : Str) : Option Str × Str :=
  match s with
  | ':' :: t =>
    if t.takeWhile isDigit ≠ [] then (some (t.takeWhile isDigit), t.dropWhile isDigit)
    else (none, s)
  | _ => (none, s)

/-- The optional group `(/[a-zA-Z0-9%/^*()$@!_.-]*)?`. -/
def takePath (s : Str) : Option Str × Str :=
  match s with
  | '/' :: t => (some (t.takeWhile isPathChar), t.dropWhile isPathChar)
  | _ => (none, s)

/-- The optional group `(?:\?([a-zA-Z0-9^*()$@!_%=&.-]*))?`. -/
def takeQuery (s : Str) : Option Str × Str :=
  match s with
  | '?' :: t => (some (t.takeWhile isQueryChar), t.dropWhile isQueryChar)
  | _ => (none, s)

/-- The optional group `(#[a-zA-Z0-9^*()$@!_%&]+)?`. -/
def takeFragment (s : Str) : Option Str × Str :=
  match s with
  | '#' :: t =>
    if t.takeWhile isFragChar ≠ [] then (some (t.takeWhile isFragChar), t.dropWhile isFragChar)
    else (none, s)
  | _ => (none, s)

/-- The match of `urlRegex` against the whole string (the pattern is anchored at both
ends).  Every group is followed by a character outside its class or by the end of the
string, so each greedy run is the only way to match and the groups are scanned one after
the other.  The language and the captures are stated declaratively in `urlRegex_iff` and
`matchDomain_iff`. -/
def urlRegex (s : Str) : Option Parsed :=
  let a := takeScheme s
  let d := a.2.takeWhile isDomainChar
  let b := takePort (a.2.dropWhile isDomainChar)
  let c := takePath b.2
  let q := takeQuery c.2
  let f := takeFragment q.2
  if matchDomain d && f.2.isEmpty then some ⟨a.1, d, b.1, c.1, q.1, f.1⟩ else none

/-- Go `urlRegex.MatchString`. -/
def MatchString (s : Str) : Bool := (urlRegex s).isSome

/-- The capture of a group with its leading delimiter, or the empty string when the
group took no part in the match. -/
def capture (delim : Str) : Option Str → Str
  | none => []
  | some x => delim ++ x

/-- Go `urlRegex.FindStringSubmatch`: `none` is the nil slice of a failed match,
otherwise the whole match followed by the six captures. -/
def FindStringSubmatch (s : Str) : Option (List Str) :=
  (urlRegex s).map fun p =>
    [s, capture [] p.scheme, p.domain, capture [':'] p.port, capture ['/'] p.path,
     capture [] p.query, capture ['#'] p.fragment]

/-! ## `normalize` -/

/-- The table `reservedCharacters`, keyed by the two lower-case hex digits. -/
def reservedTable : List (Str × Char) :=
  [(['2', '0'], ' '), (['2', '1'], '!'), (['2', '2'], '"'), (['2', '3'], '#'),
   (['2', '4'], '$'), (['2', '5'], '%'), (['2', '6'], '&'), (['2', '7'], '\''),
   (['2', '8'], '('), (['2', '9'], ')'), (['2', 'a'], '*'), (['2', 'b'], '+'),
   (['2', 'c'], ','), (['2', 'd'], '-'), (['2', 'e'], '.'), (['2', 'f'], '/'),
   (['3', 'a'], ':'), (['3', 'b'], ';'), (['3', 'c'], '<'), (['3', 'd'], '='),
   (['3', 'e'], '>'), (['3', 'f'], '?'), (['4', '0'], '@'), (['5', 'b'], '['),
   (['5', 'c'], '\\'), (['5', 'd'], ']'), (['5', 'e'], '^'), (['5', 'f'], '_'),
   (['6', '0'], '`'), (['7', 'b'], '\x7b'), (['7', 'c'], '|'), (['7', 'd'], '\x7d'),
   (['7', 'e'], '~')]

/-- The lookup `reservedCharacters[key]`. -/
def reservedCharacters (key : Str) : Option Char := reservedTable.lookup key

/-- The loop over the path segments (`files`): `.` is skipped, `..` cuts the string
built so far at its last slash (a panic when it has none), any other segment is appended
after a slash. -/
def walkFiles : List Str → Str → Option Str
  | [], result => some result
  | file :: files, result =>
    if file = ['.'] then walkFiles files result
    else if file = ['.', '.'] then
      match lastIndex '/' result with
      | none => none
      | some k => walkFiles files (result.take k)
    else walkFiles files (result ++ '/' :: file)

/-- The percent-encoding loop `for i := 0; i < len(partResult); i++` from index `i`,
with a bound on the number of iterations: a decodable triple is replaced by its character
and the same index is looked at again, the two characters after any other `%` are
replaced by their upper case. -/
def percentLoop : Nat → Nat → Str → Str
  | 0, _, partResult => partResult
  | fuel + 1, i, partResult =>
    if i < partResult.length then
      if partResult.getD i ' ' = '%' ∧ i + 2 < partResult.length then
        match reservedCharacters ((partResult.drop (i + 1)).take 2) with
        | some val =>
          percentLoop fuel i (replaceFirst ((partResult.drop i).take 3) [val] partResult)
        | none =>
          percentLoop fuel (i + 1)
            (replaceFirst ((partResult.drop (i + 1)).take 2)
              (toUpper ((partResult.drop (i + 1)).take 2)) partResult)
      else percentLoop fuel (i + 1) partResult
    else partResult

/-- The port that is written: the capture without its colon, or nothing when it is the
default port of the scheme. -/
def normPort (protocol port : Str) : Str :=
  if port ≠ [] then
    if (port.drop 1 = ['8', '0'] ∧ protocol = ['h', 't', 't', 'p']) ∨
       (port.drop 1 = ['4', '4', '3'] ∧ protocol = ['h', 't', 't', 'p', 's']) then []
    else port.drop 1
  else []

/-- The string built before the path is looked at: scheme, domain, port. -/
def authority (protocol domain port : Str) : Str :=
  (if protocol ≠ [] then protocol ++ [':', '/', '/'] else []) ++ domain ++
  (if port ≠ [] then ':' :: port else [])

/-- The block `if directories != ""` of `normalize`: the segments after the first (empty)
one are walked over the string built so far. -/
def walkPath (directories start : Str) : Option Str :=
  if directories ≠ [] then walkFiles (split '/' directories).tail start else some start

/-- The block `if queries != ""` of `normalize`: the parameters are sorted and written
after a question mark. -/
def withQuery (withPath queries : Str) : Str :=
  if queries ≠ [] then withPath ++ '?' :: join '&' (sortStrings (split '&' queries))
  else withPath

/-- The end of `normalize`: the part of `result` from index `start` on (a panic when the
string is shorter) goes through the percent-encoding loop and is put back after the first
`start` characters.  The loop is given as many iterations as the part has characters,
which is enough for it to reach its exit (`percentLoop_fuel_stable`). -/
def finish (start : Nat) (result : Str) : Option Str :=
  if result.length < start then none
  else some (result.take start ++
    percentLoop (result.drop start).length 0 (result.drop start))

/-- The body of `normalize` after the line `parts := urlRegex.FindStringSubmatch(url)`;
`none` is a panic. -/
def normalizeParts (parts : List Str) : Option Str :=
  let protocol := parts.getD 1 []
  let domain := trimLeft ['w', 'w', 'w', '.'] (parts.getD 2 [])
  let port := normPort protocol (parts.getD 3 [])
  let directories := parts.getD 4 []
  let queries := parts.getD 5 []
  let start := authority protocol domain port
  match walkPath directories start with
  | none => none
  | some withPath => finish start.length (withQuery withPath queries)

/-- The function `normalize`; `none` is a panic (indexing the nil slice of a failed match,
or one of the panics of the body). -/
def normalize (url : Str) : Option Str :=
  match FindStringSubmatch (trimRight ['?', '/'] (toLower url)) with
  | none => none
  | some parts => normalizeParts parts

/-! ## `CountUniqueUrls` -/

/-- The loop of `CountUniqueUrls` over the remaining URLs, with the keys of the map
`unique` as a duplicate-free list. -/
def countLoop : List Str → List Str → Option (List Str)
  | [], unique => some unique
  | url :: urls, unique =>
    if !MatchString url then countLoop urls unique
    else
      match normalize url with
      | none => none
      | some n => countLoop urls (if n ∈ unique then unique else n :: unique)

/-- The function `CountUniqueUrls`; `none` is a panic. -/
def CountUniqueUrls (urls : List Str) : Option Nat :=
  (countLoop urls []).map List.length

/-! ## `CountUniqueUrlsPerTopLevelDomain`

The Go maps `tldList` and `tlds` are kept as lists of keys with their values, one entry
per key, in the order in which the keys were first written. -/

/-- The key that the first loop computes for one URL: the domain capture of the
lower-cased URL goes through `normalize`, the result is split at the dots and its last
two labels are joined again; `none` is a panic (indexing the nil slice of a failed match,
a panic of `normalize`, or a slice start below zero when there are fewer than two
labels). -/
def tldKey (url : Str) : Option Str :=
  match FindStringSubmatch (toLower url) with
  | none => none
  | some parts =>
    match normalize (parts.getD 2 []) with
    | none => none
    | some normalized =>
      if (split '.' normalized).length < 2 then none
      else some (join '.' ((split '.' normalized).drop ((split '.' normalized).length - 2)))

/-- The statement `tldList[tld] = append(tldList[tld], url)`. -/
def appendBucket (tld url : Str) : List (Str × List Str) → List (Str × List Str)
  | [] => [(tld, [url])]
  | (k, us) :: rest =>
    if k = tld then (k, us ++ [url]) :: rest else (k, us) :: appendBucket tld url rest

/-- The first loop of `CountUniqueUrlsPerTopLevelDomain` over the remaining URLs; `none`
is a panic. -/
def groupLoop : List Str → List (Str × List Str) → Option (List (Str × List Str))
  | [], tldList => some tldList
  | url :: urls, tldList =>
    if url ≠ [] then
      match tldKey url with
      | none => none
      | some tld => groupLoop urls (appendBucket tld url tldList)
    else groupLoop urls tldList

/-- The second loop of `CountUniqueUrlsPerTopLevelDomain`: every bucket is counted with
`CountUniqueUrls`; `none` is a panic. -/
def countBuckets : List (Str × List Str) → Option (List (Str × Nat))
  | [] => some []
  | (tld, normalized) :: rest =>
    match CountUniqueUrls normalized with
    | none => none
    | some n => (countBuckets rest).map (fun tlds => (tld, n) :: tlds)

/-- The function `CountUniqueUrlsPerTopLevelDomain`; `none` is a panic. -/
def CountUniqueUrlsPerTopLevelDomain (urls : List Str) : Option (List (Str × Nat)) :=
  (groupLoop urls []).bind countBuckets

/-! ## The text of a URL with given parts

The claims speak of "the same URL with its port removed", "with `www.` in front of its
domain", and so on; `render` writes a URL from its parts, and `urlRegex` is its inverse
on well-formed parts (`urlRegex_render`, `render_of_urlRegex`). -/

/-- The text of the optional scheme group. -/
def schemeText : Option Str → Str
  | none => []
  | some s => s ++ [':', '/', '/']

/-- The URL text with the given parts. -/
def render (p : Parsed) : Str :=
  schemeText p.scheme ++ (p.domain ++ (capture [':'] p.port ++ (capture ['/'] p.path ++
    (capture ['?'] p.query ++ capture ['#'] p.fragment))))

/-- Parts as the grammar allows them: every group is drawn from its character class and
has the length its quantifier asks for. -/
structure WellFormed (p : Parsed) : Prop where
  /-- The scheme is `[a-zA-Z]+`. -/
  scheme : ∀ s, p.scheme = some s → s ≠ [] ∧ ∀ c ∈ s, isLetter c = true
  /-- The domain has no character other than label characters and dots. -/
  domainChars : ∀ c ∈ p.domain, isDomainChar c = true
  /-- The domain matches its pattern. -/
  domain : matchDomain p.domain = true
  /-- The port is `[0-9]+`. -/
  port : ∀ d, p.port = some d → d ≠ [] ∧ ∀ c ∈ d, isDigit c = true
  /-- The path after its slash is drawn from the path class. -/
  path : ∀ t, p.path = some t → ∀ c ∈ t, isPathChar c = true
  /-- The query is drawn from the query class. -/
  query : ∀ q, p.query = some q → ∀ c ∈ q, isQueryChar c = true
  /-- The fragment after its hash is a non-empty run of the fragment class. -/
  fragment : ∀ f, p.fragment = some f → f ≠ [] ∧ ∀ c ∈ f, isFragChar c = true

/-- The parts with every group in lower case. -/
def lowerParsed (p : Parsed) : Parsed :=
  ⟨p.scheme.map toLower, toLower p.domain, p.port.map toLower, p.path.map toLower,
   p.query.map toLower, p.fragment.map toLower⟩

/-- The path group of a URL that ends with its path, after the trailing slashes are
trimmed: the group is absent when nothing is left of it. -/
def trimPath (t : Str) : Option Str :=
  match trimRight ['?', '/'] ('/' :: t) with
  | [] => none
  | _ :: r => some r

/-- The parts of the URL text with its trailing `?` and `/` trimmed: nothing changes when
a fragment or a non-empty query ends the text, otherwise the empty query goes and the
path loses its trailing slashes. -/
def trimParsed (p : Parsed) : Parsed :=
  if p.fragment.isSome then p
  else if p.query.getD [] ≠ [] then p
  else { p with query := none, path := p.path.bind trimPath }

/-- The slice that `FindStringSubmatch` returns for a match with the given parts. -/
def partsOf (whole : Str) (p : Parsed) : List Str :=
  [whole, capture [] p.scheme, p.domain, capture [':'] p.port, capture ['/'] p.path,
   capture [] p.query, capture ['#'] p.fragment]

/-- A string whose first character, if any, fails `p`: a run of `p` stops there. -/
def Stops (p : Char → Bool) (s : Str) : Prop := ∀ c, s.head? = some c → p c = false

/-- A string that is empty or starts with one of the given characters. -/
def HeadIn (ds : List Char) (s : Str) : Prop := ∀ c, s.head? = some c → c ∈ ds

/-- A string of ASCII characters. -/
def IsASCII (s : Str) : Prop := ∀ c ∈ s, c.toNat < 128

/-- The canonical string that the body of `normalize` builds from a match with the given
parts. -/
def canonical (q : Parsed) : Option Str := normalizeParts (partsOf (render q) q)

/-- The string that `normalize` has built when it reaches the path: scheme, domain
without its leading `w` and `.` characters, and the port unless it is the default one. -/
def startOf (q : Parsed) : Str :=
  authority (capture [] q.scheme) (trimLeft ['w', 'w', 'w', '.'] q.domain)
    (normPort (capture [] q.scheme) (capture [':'] q.port))

/-- Path segments as the claims on dot-segments take them: at least one segment, every
segment a non-empty run of path characters other than the slash. -/
def GoodSegments (segs : List Str) : Prop :=
  segs ≠ [] ∧ ∀ x ∈ segs, x ≠ [] ∧ ∀ c ∈ x, isPathChar c = true ∧ c ≠ '/'

/-- No decodable triple starts at an index below `i`, letter case apart: wherever the
lower case of `s` has a `%` followed by two characters there, the two characters are not a
key of `reservedCharacters`. -/
def NoTripleBelow (i : Nat) (s : Str) : Prop :=
  ∀ k, k < i → ∀ a b rest, (toLower s).drop k = '%' :: a :: b :: rest →
    reservedCharacters [a, b] = none

/-- Every character of `s` from index `j` on is its own lower case. -/
def LowerFrom (j : Nat) (s : Str) : Prop := ∀ c ∈ s.drop j, lowerRune c = c

/-- The value of `partResult` when the percent-encoding loop starts, for a match with the
given parts: the string built from the path and the query, without its first
`reservedCharsCheckStartIndex` characters (empty when the path walk panics). -/
def partBefore (q : Parsed) : Str :=
  match walkPath (capture ['/'] q.path) (startOf q) with
  | none => []
  | some withPath => (withQuery withPath (capture [] q.query)).drop (startOf q).length

/-- Index `k` is one of the two places after a `%` of `P` that sits at an index below `i`
and has two characters after it. -/
@[reducible] def afterPercent (P : Str) (i k : Nat) : Prop :=
  (1 ≤ k ∧ k - 1 < i ∧ P.getD (k - 1) ' ' = '%' ∧ k + 1 < P.length) ∨
  (2 ≤ k ∧ k - 2 < i ∧ P.getD (k - 2) ' ' = '%' ∧ k < P.length)

/-- The parts of the canonical string of a match that has no fragment, no dot segment and
no `%`: the domain without its leading `w` and `.` characters, the port unless it is the
default one, the path as it is, the query with its parameters sorted. -/
def canonParts (q : Parsed) : Parsed :=
  ⟨q.scheme, trimLeft ['w', 'w', 'w', '.'] q.domain,
   if normPort (capture [] q.scheme) (capture [':'] q.port) = [] then none
   else some (normPort (capture [] q.scheme) (capture [':'] q.port)),
   q.path,
   if q.query.getD [] ≠ [] then
     some (join '&' (sortStrings (split '&' (q.query.getD []))))
   else none,
   none⟩

/-- The string `result` of `normalize` when the percent-encoding loop starts, for a match
with the given parts: scheme, domain and port, then the path after the walk over its
segments, then the sorted query; `none` is a panic of the walk. -/
def built (q : Parsed) : Option Str :=
  (walkPath (capture ['/'] q.path) (startOf q)).map
    (fun withPath => withQuery withPath (capture [] q.query))

/-- The percent-encoding loop with every replacement made at the index the loop looks
at, as the specification words it ("decode it in place", "normalize their case to
uppercase, leaving the triplet encoded"): at a `%` with two characters after it, a
decodable triplet becomes its character and is looked at again, otherwise the `%` is kept
and the two characters after it are put in upper case; any other character is kept.
`percentLoop` differs from it only where `strings.Replace` finds the two characters
earlier in the string.  The bound `fuel` is on the number of steps. -/
def inPlacePass : Nat → Str → Str
  | 0, s => s
  | _ + 1, [] => []
  | fuel + 1, c :: t =>
    if c = '%' ∧ 2 ≤ t.length then
      match reservedCharacters (t.take 2) with
      | some val => inPlacePass fuel (val :: t.drop 2)
      | none => '%' :: inPlacePass fuel (toUpper (t.take 2) ++ t.drop 2)
    else c :: inPlacePass fuel t

/-- The in-place pass with as many steps as the string has characters, which is enough
for it to reach the end (`inPlacePass_fuel`). -/
def inPlace (s : Str) : Str := inPlacePass s.length s

/-- The letter case that the percent pass leaves: every character of the string is its
own lower case, except the two characters after a `%` that has two characters after it,
which are the upper case of their lower case (no lower-case letters).  The number `n`
counts how many of the next characters still follow such a `%`. -/
def caseForm : Nat → Str → Bool
  | _, [] => true
  | n, c :: t =>
    (if n = 0 then lowerRune c == c else upperRune (lowerRune c) == c) &&
    caseForm (if c = '%' ∧ 2 ≤ t.length then 2 else n - 1) t

/-! ## Theorems -/

/-! ### Runs of a character class -/

theorem takeWhile_append_stops (p : Char → Bool) (a b : Str) (ha : ∀ c ∈ a, p c = true)
    (hb : Stops p b) : (a ++ b).takeWhile p = a := by
  induction a with
  | nil =>
    cases b with
    | nil => rfl
    | cons c t => simp [List.takeWhile, hb c rfl]
  | cons x xs ih =>
    rw [List.cons_append, List.takeWhile_cons_of_pos (ha x (List.mem_cons_self _ _)),
      ih (fun c hc => ha c (List.mem_cons_of_mem _ hc))]

theorem dropWhile_append_stops (p : Char → Bool) (a b : Str) (ha : ∀ c ∈ a, p c = true)
    (hb : Stops p b) : (a ++ b).dropWhile p = b := by
  induction a with
  | nil =>
    cases b with
    | nil => rfl
    | cons c t => simp [List.dropWhile, hb c rfl]
  | cons x xs ih =>
    rw [List.cons_append, List.dropWhile_cons_of_pos (ha x (List.mem_cons_self _ _)),
      ih (fun c hc => ha c (List.mem_cons_of_mem _ hc))]

theorem stops_dropWhile (p : Char → Bool) (s : Str) : Stops p (s.dropWhile p) := by
  intro c hc
  induction s with
  | nil => simp at hc
  | cons x xs ih =>
    by_cases hx : p x = true
    · rw [List.dropWhile_cons_of_pos hx] at hc
      exact ih hc
    · rw [List.dropWhile_cons_of_neg hx] at hc
      simp only [List.head?_cons, Option.some.injEq] at hc
      subst hc
      simpa using hx

theorem stops_nil (p : Char → Bool) : Stops p [] := by
  intro c hc
  simp at hc

theorem stops_cons (p : Char → Bool) (c : Char) (t : Str) (h : p c = false) :
    Stops p (c :: t) := by
  intro x hx
  simp only [List.head?_cons, Option.some.injEq] at hx
  subst hx
  exact h

theorem headIn_nil (ds : List Char) : HeadIn ds [] := by
  intro c hc
  simp at hc

theorem headIn_mono {ds es : List Char} {s : Str} (h : HeadIn ds s) (hsub : ∀ c ∈ ds, c ∈ es) :
    HeadIn es s := fun c hc => hsub c (h c hc)

theorem headIn_capture_append (d : Char) (ds : List Char) (o : Option Str) (t : Str)
    (ht : HeadIn ds t) : HeadIn (d :: ds) (capture [d] o ++ t) := by
  cases o with
  | none =>
    intro c hc
    exact List.mem_cons_of_mem _ (ht c (by simpa [capture] using hc))
  | some x =>
    intro c hc
    simp only [capture, List.singleton_append, List.cons_append, List.head?_cons,
      Option.some.injEq] at hc
    subst hc
    exact List.mem_cons_self _ _

theorem stops_of_headIn {p : Char → Bool} {ds : List Char} {s : Str} (h : HeadIn ds s)
    (hp : ∀ c ∈ ds, p c = false) : Stops p s := fun c hc => hp c (h c hc)

/-! ### The optional groups, on a rendered text -/

theorem takeFragment_capture (f : Option Str)
    (hf : ∀ x, f = some x → x ≠ [] ∧ ∀ c ∈ x, isFragChar c = true) :
    takeFragment (capture ['#'] f) = (f, []) := by
  cases f with
  | none => rfl
  | some x =>
    obtain ⟨hne, hx⟩ := hf x rfl
    have h1 : x.takeWhile isFragChar = x := by
      simpa using takeWhile_append_stops isFragChar x [] hx (stops_nil _)
    have h2 : x.dropWhile isFragChar = [] := by
      simpa using dropWhile_append_stops isFragChar x [] hx (stops_nil _)
    simp [capture, takeFragment, h1, h2, hne]

theorem takeQuery_capture (q : Option Str) (t : Str)
    (hq : ∀ x, q = some x → ∀ c ∈ x, isQueryChar c = true) (ht : HeadIn ['#'] t) :
    takeQuery (capture ['?'] q ++ t) = (q, t) := by
  cases q with
  | none =>
    cases t with
    | nil => rfl
    | cons c r =>
      have hc : c = '#' := by simpa using ht c rfl
      subst hc
      rfl
  | some x =>
    have hs : Stops isQueryChar t := stops_of_headIn ht (by decide)
    simp [capture, takeQuery, takeWhile_append_stops _ x t (hq x rfl) hs,
      dropWhile_append_stops _ x t (hq x rfl) hs]

theorem takePath_capture (q : Option Str) (t : Str)
    (hq : ∀ x, q = some x → ∀ c ∈ x, isPathChar c = true) (ht : HeadIn ['?', '#'] t) :
    takePath (capture ['/'] q ++ t) = (q, t) := by
  cases q with
  | none =>
    cases t with
    | nil => rfl
    | cons c r =>
      have hc : c = '?' ∨ c = '#' := by simpa using ht c rfl
      rcases hc with hc | hc <;> subst hc <;> rfl
  | some x =>
    have hs : Stops isPathChar t := stops_of_headIn ht (by decide)
    simp [capture, takePath, takeWhile_append_stops _ x t (hq x rfl) hs,
      dropWhile_append_stops _ x t (hq x rfl) hs]

theorem takePort_capture (q : Option Str) (t : Str)
    (hq : ∀ x, q = some x → x ≠ [] ∧ ∀ c ∈ x, isDigit c = true)
    (ht : HeadIn ['/', '?', '#'] t) :
    takePort (capture [':'] q ++ t) = (q, t) := by
  cases q with
  | none =>
    cases t with
    | nil => rfl
    | cons c r =>
      have hc : c = '/' ∨ c = '?' ∨ c = '#' := by simpa using ht c rfl
      rcases hc with hc | hc | hc <;> subst hc <;> rfl
  | some x =>
    obtain ⟨hne, hx⟩ := hq x rfl
    have hs : Stops isDigit t := stops_of_headIn ht (by decide)
    simp [capture, takePort, takeWhile_append_stops _ x t hx hs,
      dropWhile_append_stops _ x t hx hs, hne]

theorem split_ne_nil (sep : Char) (s : Str) : split sep s ≠ [] := by
  cases s with
  | nil => simp [split]
  | cons c cs =>
    unfold split
    split <;> simp

theorem split_of_not_mem (sep : Char) (s : Str) (h : sep ∉ s) : split sep s = [s] := by
  induction s with
  | nil => rfl
  | cons c cs ih =>
    have hc : c ≠ sep := fun e => h (e ▸ List.mem_cons_self _ _)
    have hcs : sep ∉ cs := fun e => h (List.mem_cons_of_mem _ e)
    simp [split, hc, ih hcs]

theorem dot_mem_of_matchDomain (d : Str) (h : matchDomain d = true) : '.' ∈ d := by
  by_contra hd
  have := split_of_not_mem '.' d hd
  simp [matchDomain, this] at h

theorem head_dropWhile_append (p : Char → Bool) (d t : Str) (h : ∃ c ∈ d, p c = false) :
    ∃ c ∈ d, ((d ++ t).dropWhile p).head? = some c := by
  induction d with
  | nil => simp at h
  | cons x xs ih =>
    by_cases hx : p x = true
    · obtain ⟨c, hc, hpc⟩ := h
      have hc' : c ∈ xs := by
        rcases List.mem_cons.1 hc with e | e
        · subst e
          rw [hx] at hpc
          cases hpc
        · exact e
      obtain ⟨y, hy, hy'⟩ := ih ⟨c, hc', hpc⟩
      refine ⟨y, List.mem_cons_of_mem _ hy, ?_⟩
      rw [List.cons_append, List.dropWhile_cons_of_pos hx]
      exact hy'
    · refine ⟨x, List.mem_cons_self _ _, ?_⟩
      rw [List.cons_append, List.dropWhile_cons_of_neg hx]
      rfl

theorem takeScheme_render (o : Option Str) (d t : Str)
    (ho : ∀ s, o = some s → s ≠ [] ∧ ∀ c ∈ s, isLetter c = true)
    (hd : ∀ c ∈ d, isDomainChar c = true) (hdot : '.' ∈ d) :
    takeScheme (schemeText o ++ (d ++ t)) = (o, d ++ t) := by
  cases o with
  | none =>
    obtain ⟨c, hc, hhead⟩ := head_dropWhile_append isLetter d t ⟨'.', hdot, by decide⟩
    have hne : ((d ++ t).dropWhile isLetter).take 3 ≠ [':', '/', '/'] := by
      intro e
      have h0 : ((d ++ t).dropWhile isLetter).head? = some ':' := by
        have := congrArg List.head? e
        simpa [List.head?_take] using this
      rw [hhead] at h0
      have hcc : c = ':' := by simpa using h0
      subst hcc
      have := hd _ hc
      revert this
      decide
    simp [schemeText, takeScheme, hne]
  | some s =>
    obtain ⟨hne, hs⟩ := ho s rfl
    have hstop : Stops isLetter (':' :: '/' :: '/' :: (d ++ t)) := stops_cons _ _ _ (by decide)
    have h1 := takeWhile_append_stops isLetter s _ hs hstop
    have h2 := dropWhile_append_stops isLetter s _ hs hstop
    have e : schemeText (some s) ++ (d ++ t) = s ++ ':' :: '/' :: '/' :: (d ++ t) := by
      simp [schemeText]
    rw [e]
    simp [takeScheme, h1, h2, hne]

/-- Matching the text of well-formed parts gives back the parts. -/
theorem urlRegex_render (p : Parsed) (h : WellFormed p) : urlRegex (render p) = some p := by
  have h4 : HeadIn ['#'] (capture ['#'] p.fragment ++ []) :=
    headIn_capture_append '#' [] p.fragment [] (headIn_nil _)
  rw [List.append_nil] at h4
  have h3 := headIn_capture_append '?' _ p.query _ h4
  have h2 := headIn_capture_append '/' _ p.path _ h3
  have h1 := headIn_capture_append ':' _ p.port _ h2
  have e0 := takeScheme_render p.scheme p.domain
    (capture [':'] p.port ++ (capture ['/'] p.path ++
      (capture ['?'] p.query ++ capture ['#'] p.fragment)))
    h.scheme h.domainChars (dot_mem_of_matchDomain _ h.domain)
  have hs1 : Stops isDomainChar (capture [':'] p.port ++ (capture ['/'] p.path ++
      (capture ['?'] p.query ++ capture ['#'] p.fragment))) :=
    stops_of_headIn h1 (by decide)
  have e1 := takeWhile_append_stops isDomainChar p.domain _ h.domainChars hs1
  have e1' := dropWhile_append_stops isDomainChar p.domain _ h.domainChars hs1
  have e2 := takePort_capture p.port _ h.port h2
  have e3 := takePath_capture p.path _ h.path h3
  have e4 := takeQuery_capture p.query _ h.query h4
  have e5 := takeFragment_capture p.fragment h.fragment
  simp only [urlRegex, render, e0, e1, e1', e2, e3, e4, e5, h.domain]
  simp

/-! ### The optional groups, on any text -/

theorem takeScheme_spec (s : Str) :
    s = schemeText (takeScheme s).1 ++ (takeScheme s).2 ∧
    ∀ x, (takeScheme s).1 = some x → x ≠ [] ∧ ∀ c ∈ x, isLetter c = true := by
  unfold takeScheme
  split
  · rename_i h
    refine ⟨?_, ?_⟩
    · simp only [schemeText]
      rw [← h.2, List.append_assoc, List.take_append_drop, List.takeWhile_append_dropWhile]
    · intro x hx
      simp only [Option.some.injEq] at hx
      subst hx
      exact ⟨h.1, fun c hc => List.mem_takeWhile_imp hc⟩
  · exact ⟨by simp [schemeText], fun x hx => by simp at hx⟩

theorem takePort_spec (s : Str) :
    s = capture [':'] (takePort s).1 ++ (takePort s).2 ∧
    ∀ x, (takePort s).1 = some x → x ≠ [] ∧ ∀ c ∈ x, isDigit c = true := by
  unfold takePort
  split
  · split
    · rename_i h
      refine ⟨by simp [capture, List.takeWhile_append_dropWhile], ?_⟩
      intro x hx
      simp only [Option.some.injEq] at hx
      subst hx
      exact ⟨h, fun c hc => List.mem_takeWhile_imp hc⟩
    · exact ⟨by simp [capture], fun x hx => by simp at hx⟩
  · exact ⟨by simp [capture], fun x hx => by simp at hx⟩

theorem takePath_spec (s : Str) :
    s = capture ['/'] (takePath s).1 ++ (takePath s).2 ∧
    ∀ x, (takePath s).1 = some x → ∀ c ∈ x, isPathChar c = true := by
  unfold takePath
  split
  · refine ⟨by simp [capture, List.takeWhile_append_dropWhile], ?_⟩
    intro x hx
    simp only [Option.some.injEq] at hx
    subst hx
    exact fun c hc => List.mem_takeWhile_imp hc
  · exact ⟨by simp [capture], fun x hx => by simp at hx⟩

theorem takeQuery_spec (s : Str) :
    s = capture ['?'] (takeQuery s).1 ++ (takeQuery s).2 ∧
    ∀ x, (takeQuery s).1 = some x → ∀ c ∈ x, isQueryChar c = true := by
  unfold takeQuery
  split
  · refine ⟨by simp [capture, List.takeWhile_append_dropWhile], ?_⟩
    intro x hx
    simp only [Option.some.injEq] at hx
    subst hx
    exact fun c hc => List.mem_takeWhile_imp hc
  · exact ⟨by simp [capture], fun x hx => by simp at hx⟩

theorem takeFragment_spec (s : Str) :
    s = capture ['#'] (takeFragment s).1 ++ (takeFragment s).2 ∧
    ∀ x, (takeFragment s).1 = some x → x ≠ [] ∧ ∀ c ∈ x, isFragChar c = true := by
  unfold takeFragment
  split
  · split
    · rename_i h
      refine ⟨by simp [capture, List.takeWhile_append_dropWhile], ?_⟩
      intro x hx
      simp only [Option.some.injEq] at hx
      subst hx
      exact ⟨h, fun c hc => List.mem_takeWhile_imp hc⟩
    · exact ⟨by simp [capture], fun x hx => by simp at hx⟩
  · exact ⟨by simp [capture], fun x hx => by simp at hx⟩

/-- A matched text is the text of its parts, and the parts are well formed. -/
theorem render_of_urlRegex (s : Str) (p : Parsed) (h : urlRegex s = some p) :
    s = render p ∧ WellFormed p := by
  unfold urlRegex at h
  simp only at h
  split at h
  · rename_i hc
    simp only [Bool.and_eq_true, List.isEmpty_iff] at hc
    simp only [Option.some.injEq] at h
    subst h
    obtain ⟨hdom, hend⟩ := hc
    have s0 := takeScheme_spec s
    have s2 := takePort_spec ((takeScheme s).2.dropWhile isDomainChar)
    have s3 := takePath_spec (takePort ((takeScheme s).2.dropWhile isDomainChar)).2
    have s4 := takeQuery_spec (takePath (takePort ((takeScheme s).2.dropWhile isDomainChar)).2).2
    have s5 := takeFragment_spec
      (takeQuery (takePath (takePort ((takeScheme s).2.dropWhile isDomainChar)).2).2).2
    refine ⟨?_, ⟨s0.2, fun c hc => List.mem_takeWhile_imp hc, hdom, s2.2, s3.2, s4.2, s5.2⟩⟩
    simp only [render]
    rw [hend, List.append_nil] at s5
    rw [← s5.1, ← s4.1, ← s3.1, ← s2.1, List.takeWhile_append_dropWhile]
    exact s0.1
  · cases h

/-! ### Lower case and the character classes -/

theorem ascii_cases (P : Char → Prop) (h : ∀ n, n < 128 → P (Char.ofNat n)) (c : Char)
    (hc : c.toNat < 128) : P c := by
  have := h c.toNat hc
  rwa [Char.ofNat_toNat] at this

set_option maxRecDepth 100000 in
theorem lowerRune_classes (c : Char) (hc : c.toNat < 128) :
    isLetter (lowerRune c) = isLetter c ∧ isDigit (lowerRune c) = isDigit c ∧
    isAlnum (lowerRune c) = isAlnum c ∧ isLabelChar (lowerRune c) = isLabelChar c ∧
    isDomainChar (lowerRune c) = isDomainChar c ∧ isPathChar (lowerRune c) = isPathChar c ∧
    isQueryChar (lowerRune c) = isQueryChar c ∧ isFragChar (lowerRune c) = isFragChar c := by
  refine ascii_cases (fun c => isLetter (lowerRune c) = isLetter c ∧
    isDigit (lowerRune c) = isDigit c ∧
    isAlnum (lowerRune c) = isAlnum c ∧ isLabelChar (lowerRune c) = isLabelChar c ∧
    isDomainChar (lowerRune c) = isDomainChar c ∧ isPathChar (lowerRune c) = isPathChar c ∧
    isQueryChar (lowerRune c) = isQueryChar c ∧ isFragChar (lowerRune c) = isFragChar c) ?_ c hc
  decide

set_option maxRecDepth 100000 in
theorem lowerRune_delims (c : Char) (hc : c.toNat < 128) :
    (lowerRune c = ':' ↔ c = ':') ∧ (lowerRune c = '/' ↔ c = '/') ∧
    (lowerRune c = '?' ↔ c = '?') ∧ (lowerRune c = '#' ↔ c = '#') ∧
    (lowerRune c = '.' ↔ c = '.') ∧ (lowerRune c = '&' ↔ c = '&') ∧
    (lowerRune c = '%' ↔ c = '%') := by
  refine ascii_cases (fun c => (lowerRune c = ':' ↔ c = ':') ∧ (lowerRune c = '/' ↔ c = '/') ∧
    (lowerRune c = '?' ↔ c = '?') ∧ (lowerRune c = '#' ↔ c = '#') ∧
    (lowerRune c = '.' ↔ c = '.') ∧ (lowerRune c = '&' ↔ c = '&') ∧
    (lowerRune c = '%' ↔ c = '%')) ?_ c hc
  decide

set_option maxRecDepth 100000 in
theorem lowerRune_ascii (c : Char) (hc : c.toNat < 128) :
    (lowerRune c).toNat < 128 ∧ lowerRune (lowerRune c) = lowerRune c := by
  refine ascii_cases (fun c => (lowerRune c).toNat < 128 ∧
    lowerRune (lowerRune c) = lowerRune c) ?_ c hc
  decide

set_option maxRecDepth 100000 in
theorem ascii_of_classes (c : Char) :
    (isDomainChar c = true → c.toNat < 128) ∧ (isPathChar c = true → c.toNat < 128) ∧
    (isQueryChar c = true → c.toNat < 128) ∧ (isFragChar c = true → c.toNat < 128) ∧
    (isLetter c = true → c.toNat < 128) ∧ (isDigit c = true → c.toNat < 128) := by
  by_cases hc : c.toNat < 128
  · simp [hc]
  · have h1 : isLower c = false := by simp [isLower]; omega
    have h2 : isUpper c = false := by simp [isUpper]; omega
    have h3 : isDigit c = false := by simp [isDigit]; omega
    have hne : ∀ d : Char, d.toNat < 128 → (c == d) = false := by
      intro d hd
      simp only [beq_eq_false_iff_ne, ne_eq]
      intro e
      exact hc (e ▸ hd)
    simp [isDomainChar, isLabelChar, isPathChar, isQueryChar, isFragChar, isAlnum, isLetter,
      h1, h2, h3, List.elem, hne]

/-! ### Lower case and the groups -/

theorem takeWhile_map_of (f : Char → Char) (p : Char → Bool) (s : Str)
    (h : ∀ c ∈ s, p (f c) = p c) : (s.map f).takeWhile p = (s.takeWhile p).map f := by
  induction s with
  | nil => rfl
  | cons x xs ih =>
    have hx := h x (List.mem_cons_self _ _)
    have ih' := ih (fun c hc => h c (List.mem_cons_of_mem _ hc))
    by_cases hp : p x = true
    · rw [List.map_cons, List.takeWhile_cons_of_pos (hx.trans hp),
        List.takeWhile_cons_of_pos hp, ih', List.map_cons]
    · have hp' : ¬ p (f x) = true := by rw [hx]; exact hp
      rw [List.map_cons, List.takeWhile_cons_of_neg hp', List.takeWhile_cons_of_neg hp]
      rfl

theorem dropWhile_map_of (f : Char → Char) (p : Char → Bool) (s : Str)
    (h : ∀ c ∈ s, p (f c) = p c) : (s.map f).dropWhile p = (s.dropWhile p).map f := by
  induction s with
  | nil => rfl
  | cons x xs ih =>
    have hx := h x (List.mem_cons_self _ _)
    have ih' := ih (fun c hc => h c (List.mem_cons_of_mem _ hc))
    by_cases hp : p x = true
    · rw [List.map_cons, List.dropWhile_cons_of_pos (hx.trans hp),
        List.dropWhile_cons_of_pos hp, ih']
    · have hp' : ¬ p (f x) = true := by rw [hx]; exact hp
      rw [List.map_cons, List.dropWhile_cons_of_neg hp', List.dropWhile_cons_of_neg hp]
      rfl

theorem isASCII_cons {c : Char} {s : Str} (h : IsASCII (c :: s)) : c.toNat < 128 ∧ IsASCII s :=
  ⟨h c (List.mem_cons_self _ _), fun x hx => h x (List.mem_cons_of_mem _ hx)⟩

theorem isASCII_append {a b : Str} : IsASCII (a ++ b) ↔ IsASCII a ∧ IsASCII b := by
  simp only [IsASCII, List.mem_append]
  constructor
  · intro h
    exact ⟨fun c hc => h c (Or.inl hc), fun c hc => h c (Or.inr hc)⟩
  · rintro ⟨h1, h2⟩ c (hc | hc)
    · exact h1 c hc
    · exact h2 c hc

theorem isASCII_takeWhile {p : Char → Bool} {s : Str} (h : IsASCII s) :
    IsASCII (s.takeWhile p) := fun c hc => h c ((List.takeWhile_sublist p).subset hc)

theorem isASCII_dropWhile {p : Char → Bool} {s : Str} (h : IsASCII s) :
    IsASCII (s.dropWhile p) := fun c hc => h c ((List.dropWhile_sublist p).subset hc)

theorem isASCII_drop {n : Nat} {s : Str} (h : IsASCII s) : IsASCII (s.drop n) :=
  fun c hc => h c ((List.drop_sublist n s).subset hc)

theorem isASCII_toLower {s : Str} (h : IsASCII s) : IsASCII (toLower s) := by
  intro c hc
  obtain ⟨x, hx, rfl⟩ := List.mem_map.1 hc
  exact (lowerRune_ascii x (h x hx)).1

theorem toLower_toLower {s : Str} (h : IsASCII s) : toLower (toLower s) = toLower s := by
  induction s with
  | nil => rfl
  | cons x xs ih =>
    simp only [toLower, List.map_cons, List.map_map] at ih ⊢
    rw [(lowerRune_ascii x (h x (List.mem_cons_self _ _))).2]
    congr 1
    exact ih (isASCII_cons h).2

theorem toLower_eq_scheme_sep (l : Str) (h : IsASCII l) :
    toLower l = [':', '/', '/'] ↔ l = [':', '/', '/'] := by
  constructor
  · intro e
    have hlen : l.length = 3 := by
      have := congrArg List.length e
      simpa [toLower] using this
    obtain ⟨a, b, c, rfl⟩ := List.length_eq_three.1 hlen
    · simp only [toLower, List.map_cons, List.map_nil, List.cons.injEq, and_true] at e
      have ha := (lowerRune_delims a (h a (by simp))).1.1 e.1
      have hb := (lowerRune_delims b (h b (by simp))).2.1.1 e.2.1
      have hc := (lowerRune_delims c (h c (by simp))).2.1.1 e.2.2
      rw [ha, hb, hc]
  · intro e
    subst e
    rfl

theorem takeScheme_toLower (s : Str) (h : IsASCII s) :
    takeScheme (toLower s) = ((takeScheme s).1.map toLower, toLower (takeScheme s).2) := by
  have hcls : ∀ c ∈ s, isLetter (lowerRune c) = isLetter c :=
    fun c hc => (lowerRune_classes c (h c hc)).1
  have e1 := takeWhile_map_of lowerRune isLetter s hcls
  have e2 := dropWhile_map_of lowerRune isLetter s hcls
  have e3 : ((s.dropWhile isLetter).map lowerRune).take 3 = [':', '/', '/'] ↔
      (s.dropWhile isLetter).take 3 = [':', '/', '/'] := by
    rw [← List.map_take]
    exact toLower_eq_scheme_sep _ (fun c hc => h c
      ((List.dropWhile_sublist _).subset ((List.take_sublist _ _).subset hc)))
  unfold takeScheme
  simp only [toLower] at e1 e2 ⊢
  rw [e1, e2]
  by_cases hc : s.takeWhile isLetter ≠ [] ∧ (s.dropWhile isLetter).take 3 = [':', '/', '/']
  · have hc' : (s.takeWhile isLetter).map lowerRune ≠ [] ∧
        ((s.dropWhile isLetter).map lowerRune).take 3 = [':', '/', '/'] :=
      ⟨by simpa using hc.1, e3.2 hc.2⟩
    rw [if_pos hc, if_pos hc']
    simp [List.map_drop, toLower]
  · have hc' : ¬ ((s.takeWhile isLetter).map lowerRune ≠ [] ∧
        ((s.dropWhile isLetter).map lowerRune).take 3 = [':', '/', '/']) := by
      intro hh
      exact hc ⟨by simpa using hh.1, e3.1 hh.2⟩
    rw [if_neg hc, if_neg hc']
    simp [toLower]

theorem takePort_cons_ne (c : Char) (t : Str) (h : c ≠ ':') : takePort (c :: t) = (none, c :: t) := by
  unfold takePort
  split
  · rename_i e
    simp only [List.cons.injEq] at e
    exact absurd e.1 h
  · rfl

theorem takePath_cons_ne (c : Char) (t : Str) (h : c ≠ '/') : takePath (c :: t) = (none, c :: t) := by
  unfold takePath
  split
  · rename_i e
    simp only [List.cons.injEq] at e
    exact absurd e.1 h
  · rfl

theorem takeQuery_cons_ne (c : Char) (t : Str) (h : c ≠ '?') :
    takeQuery (c :: t) = (none, c :: t) := by
  unfold takeQuery
  split
  · rename_i e
    simp only [List.cons.injEq] at e
    exact absurd e.1 h
  · rfl

theorem takeFragment_cons_ne (c : Char) (t : Str) (h : c ≠ '#') :
    takeFragment (c :: t) = (none, c :: t) := by
  unfold takeFragment
  split
  · rename_i e
    simp only [List.cons.injEq] at e
    exact absurd e.1 h
  · rfl

theorem takePort_toLower (s : Str) (h : IsASCII s) :
    takePort (toLower s) = ((takePort s).1.map toLower, toLower (takePort s).2) := by
  cases s with
  | nil => rfl
  | cons c t =>
    obtain ⟨hc, ht⟩ := isASCII_cons h
    by_cases e : c = ':'
    · subst e
      have hcls : ∀ c ∈ t, isDigit (lowerRune c) = isDigit c :=
        fun c hc => (lowerRune_classes c (ht c hc)).2.1
      have e1 := takeWhile_map_of lowerRune isDigit t hcls
      have e2 := dropWhile_map_of lowerRune isDigit t hcls
      have e0 : toLower (':' :: t) = ':' :: t.map lowerRune := rfl
      rw [e0]
      simp only [takePort, e1, e2]
      by_cases hn : t.takeWhile isDigit = []
      · have hl : lowerRune ':' = ':' := by decide
        simp [hn, toLower, hl]
      · simp [hn, toLower]
    · have e' : lowerRune c ≠ ':' := fun x => e ((lowerRune_delims c hc).1.1 x)
      have e0 : toLower (c :: t) = lowerRune c :: toLower t := rfl
      rw [e0, takePort_cons_ne _ _ e', takePort_cons_ne _ _ e]
      rfl

theorem takePath_toLower (s : Str) (h : IsASCII s) :
    takePath (toLower s) = ((takePath s).1.map toLower, toLower (takePath s).2) := by
  cases s with
  | nil => rfl
  | cons c t =>
    obtain ⟨hc, ht⟩ := isASCII_cons h
    by_cases e : c = '/'
    · subst e
      have hcls : ∀ c ∈ t, isPathChar (lowerRune c) = isPathChar c :=
        fun c hc => (lowerRune_classes c (ht c hc)).2.2.2.2.2.1
      have e1 := takeWhile_map_of lowerRune isPathChar t hcls
      have e2 := dropWhile_map_of lowerRune isPathChar t hcls
      have e0 : toLower ('/' :: t) = '/' :: t.map lowerRune := rfl
      rw [e0]
      simp [takePath, e1, e2, toLower]
    · have e' : lowerRune c ≠ '/' := fun x => e ((lowerRune_delims c hc).2.1.1 x)
      have e0 : toLower (c :: t) = lowerRune c :: toLower t := rfl
      rw [e0, takePath_cons_ne _ _ e', takePath_cons_ne _ _ e]
      rfl

theorem takeQuery_toLower (s : Str) (h : IsASCII s) :
    takeQuery (toLower s) = ((takeQuery s).1.map toLower, toLower (takeQuery s).2) := by
  cases s with
  | nil => rfl
  | cons c t =>
    obtain ⟨hc, ht⟩ := isASCII_cons h
    by_cases e : c = '?'
    · subst e
      have hcls : ∀ c ∈ t, isQueryChar (lowerRune c) = isQueryChar c :=
        fun c hc => (lowerRune_classes c (ht c hc)).2.2.2.2.2.2.1
      have e1 := takeWhile_map_of lowerRune isQueryChar t hcls
      have e2 := dropWhile_map_of lowerRune isQueryChar t hcls
      have e0 : toLower ('?' :: t) = '?' :: t.map lowerRune := rfl
      rw [e0]
      simp [takeQuery, e1, e2, toLower]
    · have e' : lowerRune c ≠ '?' := fun x => e ((lowerRune_delims c hc).2.2.1.1 x)
      have e0 : toLower (c :: t) = lowerRune c :: toLower t := rfl
      rw [e0, takeQuery_cons_ne _ _ e', takeQuery_cons_ne _ _ e]
      rfl

theorem takeFragment_toLower (s : Str) (h : IsASCII s) :
    takeFragment (toLower s) = ((takeFragment s).1.map toLower, toLower (takeFragment s).2) := by
  cases s with
  | nil => rfl
  | cons c t =>
    obtain ⟨hc, ht⟩ := isASCII_cons h
    by_cases e : c = '#'
    · subst e
      have hcls : ∀ c ∈ t, isFragChar (lowerRune c) = isFragChar c :=
        fun c hc => (lowerRune_classes c (ht c hc)).2.2.2.2.2.2.2
      have e1 := takeWhile_map_of lowerRune isFragChar t hcls
      have e2 := dropWhile_map_of lowerRune isFragChar t hcls
      have e0 : toLower ('#' :: t) = '#' :: t.map lowerRune := rfl
      rw [e0]
      simp only [takeFragment, e1, e2]
      by_cases hn : t.takeWhile isFragChar = []
      · have hl : lowerRune '#' = '#' := by decide
        simp [hn, toLower, hl]
      · simp [hn, toLower]
    · have e' : lowerRune c ≠ '#' := fun x => e ((lowerRune_delims c hc).2.2.2.1.1 x)
      have e0 : toLower (c :: t) = lowerRune c :: toLower t := rfl
      rw [e0, takeFragment_cons_ne _ _ e', takeFragment_cons_ne _ _ e]
      rfl

theorem split_map_of (f : Char → Char) (sep : Char) (s : Str)
    (h : ∀ c ∈ s, f c = sep ↔ c = sep) : split sep (s.map f) = (split sep s).map (List.map f) := by
  induction s with
  | nil => rfl
  | cons x xs ih =>
    have ih' := ih (fun c hc => h c (List.mem_cons_of_mem _ hc))
    have hx := h x (List.mem_cons_self _ _)
    by_cases e : x = sep
    · have e' : f x = sep := hx.2 e
      simp only [List.map_cons, split, e, e', if_true, ih']
      simp [← e, e']
    · have e' : ¬ f x = sep := fun y => e (hx.1 y)
      simp only [List.map_cons, split, e, e', if_false, ih']
      cases hsp : split sep xs with
      | nil => exact absurd hsp (split_ne_nil _ _)
      | cons a b => simp

theorem all_map_of {α : Type} (f : α → α) (p : α → Bool) (l : List α)
    (h : ∀ c ∈ l, p (f c) = p c) : (l.map f).all p = l.all p := by
  induction l with
  | nil => rfl
  | cons x xs ih =>
    simp only [List.map_cons, List.all_cons, h x (List.mem_cons_self _ _),
      ih (fun c hc => h c (List.mem_cons_of_mem _ hc))]

theorem getLastD_map {α : Type} (g : α → α) (l : List α) (a : α) :
    (l.map g).getLastD (g a) = g (l.getLastD a) := by
  induction l generalizing a with
  | nil => rfl
  | cons x xs ih =>
    cases xs with
    | nil => rfl
    | cons y ys =>
      have := ih x
      simpa [List.getLastD] using this

theorem mem_of_mem_split (sep : Char) (s : Str) : ∀ l ∈ split sep s, ∀ c ∈ l, c ∈ s := by
  induction s with
  | nil =>
    intro l hl c hc
    simp only [split, List.mem_singleton] at hl
    subst hl
    exact hc
  | cons x xs ih =>
    intro l hl c hc
    unfold split at hl
    split at hl
    · rcases List.mem_cons.1 hl with e | e
      · subst e
        cases hc
      · exact List.mem_cons_of_mem _ (ih l e c hc)
    · cases hsp : split sep xs with
      | nil => exact absurd hsp (split_ne_nil _ _)
      | cons a b =>
        rw [hsp] at hl ih
        simp only [List.headD_cons, List.tail_cons, List.mem_cons] at hl
        rcases hl with e | e
        · subst e
          rcases List.mem_cons.1 hc with e2 | e2
          · subst e2
            exact List.mem_cons_self _ _
          · exact List.mem_cons_of_mem _ (ih a (List.mem_cons_self _ _) c e2)
        · exact List.mem_cons_of_mem _ (ih l (List.mem_cons_of_mem _ e) c hc)

theorem matchDomain_toLower (d : Str) (h : IsASCII d) : matchDomain (toLower d) = matchDomain d := by
  have hs : split '.' (d.map lowerRune) = (split '.' d).map (List.map lowerRune) :=
    split_map_of lowerRune '.' d (fun c hc => (lowerRune_delims c (h c hc)).2.2.2.2.1)
  have hmem : ∀ l ∈ split '.' d, IsASCII l := fun l hl c hc => h c (mem_of_mem_split _ _ l hl c hc)
  have h1 : ((split '.' d).map (List.map lowerRune)).dropLast.all
        (fun l => !l.isEmpty && l.all isLabelChar) =
      (split '.' d).dropLast.all (fun l => !l.isEmpty && l.all isLabelChar) := by
    rw [← List.map_dropLast]
    apply all_map_of
    intro l hl
    have hl' : l ∈ split '.' d := List.mem_of_mem_dropLast hl
    rw [all_map_of lowerRune isLabelChar l
      (fun c hc => (lowerRune_classes c (hmem l hl' c hc)).2.2.2.1)]
    cases l <;> rfl
  have h2 : ((split '.' d).map (List.map lowerRune)).getLastD [] =
      ((split '.' d).getLastD []).map lowerRune :=
    getLastD_map (List.map lowerRune) (split '.' d) []
  have hlast : IsASCII ((split '.' d).getLastD []) := by
    cases hsp : split '.' d with
    | nil => exact absurd hsp (split_ne_nil _ _)
    | cons a b =>
      apply hmem
      rw [hsp, List.getLastD_cons]
      cases b with
      | nil => simp
      | cons y ys => simp [List.getLastD, List.getLast_mem]
  have h3 : (((split '.' d).getLastD []).map lowerRune).all isAlnum =
      ((split '.' d).getLastD []).all isAlnum :=
    all_map_of lowerRune isAlnum _ (fun c hc => (lowerRune_classes c (hlast c hc)).2.2.1)
  unfold matchDomain toLower
  rw [hs, h2, h1, h3]
  simp

/-- Matching commutes with lower-casing on ASCII text: the match of the lower-cased text
is the lower-cased match. -/
theorem urlRegex_toLower (s : Str) (h : IsASCII s) :
    urlRegex (toLower s) = (urlRegex s).map lowerParsed := by
  have a0 := takeScheme_toLower s h
  have hs2 : IsASCII (takeScheme s).2 := by
    unfold takeScheme
    split
    · exact isASCII_drop (isASCII_dropWhile h)
    · exact h
  have hcls : ∀ c ∈ (takeScheme s).2, isDomainChar (lowerRune c) = isDomainChar c :=
    fun c hc => (lowerRune_classes c (hs2 c hc)).2.2.2.2.1
  have e1 := takeWhile_map_of lowerRune isDomainChar _ hcls
  have e2 := dropWhile_map_of lowerRune isDomainChar _ hcls
  have hb : IsASCII ((takeScheme s).2.dropWhile isDomainChar) := isASCII_dropWhile hs2
  have a1 := takePort_toLower _ hb
  have hc : IsASCII (takePort ((takeScheme s).2.dropWhile isDomainChar)).2 := by
    have := (takePort_spec ((takeScheme s).2.dropWhile isDomainChar)).1
    rw [this] at hb
    exact (isASCII_append.1 hb).2
  have a2 := takePath_toLower _ hc
  have hq : IsASCII (takePath (takePort ((takeScheme s).2.dropWhile isDomainChar)).2).2 := by
    have := (takePath_spec (takePort ((takeScheme s).2.dropWhile isDomainChar)).2).1
    rw [this] at hc
    exact (isASCII_append.1 hc).2
  have a3 := takeQuery_toLower _ hq
  have hf : IsASCII
      (takeQuery (takePath (takePort ((takeScheme s).2.dropWhile isDomainChar)).2).2).2 := by
    have := (takeQuery_spec (takePath (takePort ((takeScheme s).2.dropWhile isDomainChar)).2).2).1
    rw [this] at hq
    exact (isASCII_append.1 hq).2
  have a4 := takeFragment_toLower _ hf
  have hd := matchDomain_toLower ((takeScheme s).2.takeWhile isDomainChar) (isASCII_takeWhile hs2)
  simp only [toLower] at a0 a1 a2 a3 a4 e1 e2 hd
  simp only [urlRegex, toLower, a0, e1, e2, a1, a2, a3, a4, hd]
  split
  · rename_i hcond
    simp only [Bool.and_eq_true, List.isEmpty_iff, List.map_eq_nil_iff] at hcond
    simp [hcond.1, hcond.2, lowerParsed, toLower]
  · rename_i hcond
    simp only [Bool.and_eq_true, List.isEmpty_iff, List.map_eq_nil_iff] at hcond
    have : ¬ (matchDomain ((takeScheme s).2.takeWhile isDomainChar) = true ∧
      (takeFragment (takeQuery (takePath (takePort
        ((takeScheme s).2.dropWhile isDomainChar)).2).2).2).2 = []) := hcond
    simp only [not_and] at this
    by_cases hm : matchDomain ((takeScheme s).2.takeWhile isDomainChar) = true
    · simp [hm, this hm]
    · simp [hm]

/-! ### Trimming the end of a rendered text -/

theorem rdropWhile_append (p : Char → Bool) (a b : Str) :
    (a ++ b).rdropWhile p = if b.rdropWhile p = [] then a.rdropWhile p else a ++ b.rdropWhile p := by
  induction b using List.reverseRecOn with
  | nil => simp
  | append_singleton b x ih =>
    rw [← List.append_assoc, List.rdropWhile_concat, List.rdropWhile_concat]
    by_cases hx : p x = true
    · simp only [hx, if_true]
      exact ih
    · simp [hx]

theorem rdropWhile_eq_self_of_all (p : Char → Bool) (s : Str) (h : ∀ c ∈ s, p c = false) :
    s.rdropWhile p = s := by
  rw [List.rdropWhile_eq_self_iff]
  intro hl
  have := h _ (List.getLast_mem hl)
  simp [this]

theorem rdropWhile_append_keep (p : Char → Bool) (a b : Str) (hb : b ≠ [])
    (h : ∀ c ∈ b, p c = false) : (a ++ b).rdropWhile p = a ++ b := by
  rw [rdropWhile_append, rdropWhile_eq_self_of_all p b h, if_neg hb]

theorem mem_rdropWhile (p : Char → Bool) (s : Str) : ∀ c ∈ s.rdropWhile p, c ∈ s :=
  fun _ hc => (List.rdropWhile_prefix p s).subset hc

theorem capture_trimPath (o : Option Str) :
    capture ['/'] (o.bind trimPath) = trimRight ['?', '/'] (capture ['/'] o) := by
  cases o with
  | none => rfl
  | some t =>
    have e : capture ['/'] (some t) = '/' :: t := rfl
    have e2 : (some t).bind trimPath = trimPath t := rfl
    rw [e2, e]
    unfold trimPath
    cases hr : trimRight ['?', '/'] ('/' :: t) with
    | nil => rfl
    | cons x r =>
      have hpre : (x :: r) <+: ('/' :: t) := by
        rw [← hr]
        exact List.rdropWhile_prefix _ _
      obtain ⟨k, hk⟩ := hpre
      simp only [List.cons_append, List.cons.injEq] at hk
      simp [capture, hk.1]

theorem trimPath_chars (t r : Str) (h : trimPath t = some r) : ∀ c ∈ r, c ∈ t := by
  unfold trimPath at h
  split at h
  · cases h
  · rename_i x r' hr
    simp only [Option.some.injEq] at h
    subst h
    have hpre : (x :: r') <+: ('/' :: t) := by
      rw [← hr]
      exact List.rdropWhile_prefix _ _
    obtain ⟨k, hk⟩ := hpre
    simp only [List.cons_append, List.cons.injEq] at hk
    intro c hc
    rw [← hk.2]
    exact List.mem_append_left _ hc

theorem not_cut_of_class (c : Char)
    (h : isDomainChar c = true ∨ isDigit c = true ∨ isQueryChar c = true ∨ isFragChar c = true ∨
      c = '#') : ['?', '/'].elem c = false := by
  by_cases e1 : c = '?'
  · subst e1
    revert h
    decide
  · by_cases e2 : c = '/'
    · subst e2
      revert h
      decide
    · simp [e1, e2]

theorem capture_none (d : Str) : capture d none = [] := rfl

theorem capture_some (d x : Str) : capture d (some x) = d ++ x := rfl

theorem domain_ne_nil_of_wf {p : Parsed} (h : WellFormed p) : p.domain ≠ [] := by
  intro e
  have := dot_mem_of_matchDomain _ h.domain
  rw [e] at this
  cases this

theorem trimRight_authority (p : Parsed) (h : WellFormed p) :
    trimRight ['?', '/'] (schemeText p.scheme ++ (p.domain ++ capture [':'] p.port)) =
      schemeText p.scheme ++ (p.domain ++ capture [':'] p.port) := by
  unfold trimRight
  cases hp : p.port with
  | none =>
    simp only [capture, List.append_nil]
    exact rdropWhile_append_keep _ _ _ (domain_ne_nil_of_wf h)
      (fun c hc => not_cut_of_class c (Or.inl (h.domainChars c hc)))
  | some x =>
    obtain ⟨hne, hx⟩ := h.port x hp
    have e : schemeText p.scheme ++ (p.domain ++ capture [':'] (some x)) =
        (schemeText p.scheme ++ (p.domain ++ [':'])) ++ x := by
      simp [capture]
    rw [e]
    exact rdropWhile_append_keep _ _ _ hne
      (fun c hc => not_cut_of_class c (Or.inr (Or.inl (hx c hc))))

theorem render_eq_authority (p : Parsed) :
    render p = (schemeText p.scheme ++ (p.domain ++ capture [':'] p.port)) ++
      (capture ['/'] p.path ++ (capture ['?'] p.query ++ capture ['#'] p.fragment)) := by
  simp [render]

/-- Trimming the trailing `?` and `/` of the text of well-formed parts gives the text of
the trimmed parts, which are well formed. -/
theorem trimRight_render (p : Parsed) (h : WellFormed p) :
    trimRight ['?', '/'] (render p) = render (trimParsed p) ∧ WellFormed (trimParsed p) := by
  unfold trimParsed
  cases hf : p.fragment with
  | some f =>
    simp only [Option.isSome_some, if_true]
    refine ⟨?_, h⟩
    obtain ⟨hne, hfc⟩ := h.fragment f hf
    have e : render p = (schemeText p.scheme ++ (p.domain ++ (capture [':'] p.port ++
        (capture ['/'] p.path ++ capture ['?'] p.query)))) ++ '#' :: f := by
      simp [render, hf, capture]
    rw [e]
    exact rdropWhile_append_keep _ _ _ (by simp)
      (fun c hc => by
        rcases List.mem_cons.1 hc with e | e
        · exact not_cut_of_class c (Or.inr (Or.inr (Or.inr (Or.inr e))))
        · exact not_cut_of_class c (Or.inr (Or.inr (Or.inr (Or.inl (hfc c e))))))
  | none =>
    simp only [Option.isSome_none, Bool.false_eq_true, if_false]
    by_cases hq : p.query.getD [] ≠ []
    · rw [if_pos hq]
      refine ⟨?_, h⟩
      cases hq' : p.query with
      | none => simp [hq'] at hq
      | some q =>
        have hqne : q ≠ [] := by simpa [hq'] using hq
        have e : render p = (schemeText p.scheme ++ (p.domain ++ (capture [':'] p.port ++
            (capture ['/'] p.path ++ ['?'])))) ++ q := by
          simp [render, hf, hq', capture]
        rw [e]
        exact rdropWhile_append_keep _ _ _ hqne
          (fun c hc => not_cut_of_class c (Or.inr (Or.inr (Or.inl (h.query q hq' c hc)))))
    · rw [if_neg hq]
      constructor
      · have hQ : (capture ['?'] p.query ++ capture ['#'] p.fragment).rdropWhile
            (fun c => ['?', '/'].elem c) = [] := by
          rw [List.rdropWhile_eq_nil_iff]
          intro c hc
          cases hq' : p.query with
          | none => simp [hq', hf, capture] at hc
          | some q =>
            have hqe : q = [] := by simpa [hq'] using hq
            subst hqe
            have : c = '?' := by simpa [hq', hf, capture] using hc
            subst this
            rfl
        have hA := trimRight_authority p h
        unfold trimRight at hA ⊢
        rw [render_eq_authority, rdropWhile_append, rdropWhile_append, hQ, if_pos rfl,
          render_eq_authority]
        have hP := capture_trimPath p.path
        unfold trimRight at hP
        simp only [capture_none, List.append_nil]
        rw [hP]
        split
        · rename_i hnil
          rw [hnil, hA, List.append_nil]
        · rfl
      · exact
          { scheme := h.scheme
            domainChars := h.domainChars
            domain := h.domain
            port := h.port
            path := by
              intro t ht c hc
              simp only at ht
              cases hp : p.path with
              | none => simp [hp] at ht
              | some t0 =>
                rw [hp] at ht
                exact h.path t0 hp c (trimPath_chars t0 t ht c hc)
            query := by
              intro q hq'
              simp at hq'
            fragment := by
              intro f hf'
              simp at hf' }

/-! ### `normalize` on an accepted URL -/

theorem isASCII_render (p : Parsed) (h : WellFormed p) : IsASCII (render p) := by
  have hd : ∀ c : Char, c ∈ [':', '/', '?', '#'] → c.toNat < 128 := by decide
  intro c hc
  simp only [render, List.mem_append] at hc
  rcases hc with hc | hc | hc | hc | hc | hc
  · cases hs : p.scheme with
    | none => simp [hs, schemeText] at hc
    | some s =>
      simp only [hs, schemeText, List.mem_append] at hc
      rcases hc with hc | hc
      · exact (ascii_of_classes c).2.2.2.2.1 ((h.scheme s hs).2 c hc)
      · exact hd c (by rcases List.mem_cons.1 hc with e | e
                       · simp [e]
                       · have : c = '/' := by simpa using e
                         simp [this])
  · exact (ascii_of_classes c).1 (h.domainChars c hc)
  · cases hs : p.port with
    | none => simp [hs, capture] at hc
    | some s =>
      simp only [hs, capture, List.mem_append] at hc
      rcases hc with hc | hc
      · exact hd c (by have : c = ':' := by simpa using hc
                       simp [this])
      · exact (ascii_of_classes c).2.2.2.2.2 ((h.port s hs).2 c hc)
  · cases hs : p.path with
    | none => simp [hs, capture] at hc
    | some s =>
      simp only [hs, capture, List.mem_append] at hc
      rcases hc with hc | hc
      · exact hd c (by have : c = '/' := by simpa using hc
                       simp [this])
      · exact (ascii_of_classes c).2.1 (h.path s hs c hc)
  · cases hs : p.query with
    | none => simp [hs, capture] at hc
    | some s =>
      simp only [hs, capture, List.mem_append] at hc
      rcases hc with hc | hc
      · exact hd c (by have : c = '?' := by simpa using hc
                       simp [this])
      · exact (ascii_of_classes c).2.2.1 (h.query s hs c hc)
  · cases hs : p.fragment with
    | none => simp [hs, capture] at hc
    | some s =>
      simp only [hs, capture, List.mem_append] at hc
      rcases hc with hc | hc
      · exact hd c (by have : c = '#' := by simpa using hc
                       simp [this])
      · exact (ascii_of_classes c).2.2.2.1 ((h.fragment s hs).2 c hc)

theorem isASCII_of_urlRegex (u : Str) (p : Parsed) (h : urlRegex u = some p) : IsASCII u := by
  obtain ⟨e, hw⟩ := render_of_urlRegex u p h
  rw [e]
  exact isASCII_render p hw

theorem wellFormed_lowerParsed (u : Str) (p : Parsed) (h : urlRegex u = some p) :
    toLower u = render (lowerParsed p) ∧ WellFormed (lowerParsed p) := by
  have := urlRegex_toLower u (isASCII_of_urlRegex u p h)
  rw [h] at this
  exact render_of_urlRegex _ _ this

theorem normalizeParts_whole (w w' : Str) (q : Parsed) :
    normalizeParts (partsOf w q) = normalizeParts (partsOf w' q) := rfl

/-- On an accepted URL, `normalize` is the canonical string of the lower-cased, trimmed
parts: the second match in `normalize` succeeds with exactly these parts. -/
theorem normalize_of_urlRegex (u : Str) (p : Parsed) (h : urlRegex u = some p) :
    normalize u = canonical (trimParsed (lowerParsed p)) ∧
    WellFormed (trimParsed (lowerParsed p)) ∧
    urlRegex (trimRight ['?', '/'] (toLower u)) = some (trimParsed (lowerParsed p)) := by
  obtain ⟨e1, w1⟩ := wellFormed_lowerParsed u p h
  obtain ⟨e2, w2⟩ := trimRight_render _ w1
  have e3 := urlRegex_render _ w2
  have e4 : urlRegex (trimRight ['?', '/'] (toLower u)) = some (trimParsed (lowerParsed p)) := by
    rw [e1, e2, e3]
  refine ⟨?_, w2, e4⟩
  unfold normalize FindStringSubmatch
  rw [e4]
  rfl

/-! ### `CountUniqueUrls` -/

theorem countLoop_spec (urls : List Str) :
    ∀ acc : List Str, acc.Nodup →
      (∀ u ∈ urls, MatchString u = true → (normalize u).isSome = true) →
      ∃ r, countLoop urls acc = some r ∧ r.Nodup ∧
        ∀ x, x ∈ r ↔ x ∈ acc ∨ x ∈ (urls.filter MatchString).filterMap normalize := by
  induction urls with
  | nil =>
    intro acc hacc _
    exact ⟨acc, rfl, hacc, by simp⟩
  | cons u us ih =>
    intro acc hacc h
    have hus : ∀ v ∈ us, MatchString v = true → (normalize v).isSome = true :=
      fun v hv => h v (List.mem_cons_of_mem _ hv)
    by_cases hm : MatchString u = true
    · have hn := h u (List.mem_cons_self _ _) hm
      obtain ⟨n, hn'⟩ := Option.isSome_iff_exists.1 hn
      by_cases hmem : n ∈ acc
      · obtain ⟨r, hr, hnd, hx⟩ := ih acc hacc hus
        refine ⟨r, by simp [countLoop, hm, hn', hmem, hr], hnd, ?_⟩
        intro x
        rw [hx x]
        simp only [List.filter_cons, hm, if_true, List.filterMap_cons, hn', List.mem_cons]
        constructor
        · rintro (h1 | h1)
          · exact Or.inl h1
          · exact Or.inr (Or.inr h1)
        · rintro (h1 | h1 | h1)
          · exact Or.inl h1
          · exact Or.inl (h1 ▸ hmem)
          · exact Or.inr h1
      · obtain ⟨r, hr, hnd, hx⟩ := ih (n :: acc) (List.nodup_cons.2 ⟨hmem, hacc⟩) hus
        refine ⟨r, by simp [countLoop, hm, hn', hmem, hr], hnd, ?_⟩
        intro x
        rw [hx x]
        simp only [List.filter_cons, hm, if_true, List.filterMap_cons, hn', List.mem_cons]
        tauto
    · obtain ⟨r, hr, hnd, hx⟩ := ih acc hacc hus
      refine ⟨r, by simp [countLoop, hm, hr], hnd, ?_⟩
      intro x
      rw [hx x]
      simp [List.filter_cons, hm]

theorem countLoop_skip (xs ys : List Str) (r : Str) (h : MatchString r = false) :
    ∀ acc, countLoop (xs ++ r :: ys) acc = countLoop (xs ++ ys) acc := by
  induction xs with
  | nil =>
    intro acc
    simp [countLoop, h]
  | cons x xs ih =>
    intro acc
    simp only [List.cons_append, countLoop]
    split
    · exact ih acc
    · split
      · rfl
      · exact ih _

/-- C1: when `normalize` returns on every accepted entry, `CountUniqueUrls` is the number
of distinct strings `normalize u` over the accepted entries `u`; an entry that the grammar
rejects never changes the result; the empty list gives 0. -/
theorem countUniqueUrls_counts_distinct (urls : List Str)
    (h : ∀ u ∈ urls, MatchString u = true → (normalize u).isSome = true) :
    CountUniqueUrls urls =
      some ((urls.filter MatchString).filterMap normalize).toFinset.card ∧
    (∀ (xs ys : List Str) (r : Str), MatchString r = false →
      CountUniqueUrls (xs ++ r :: ys) = CountUniqueUrls (xs ++ ys)) ∧
    CountUniqueUrls [] = some 0 := by
  refine ⟨?_, ?_, rfl⟩
  · obtain ⟨r, hr, hnd, hx⟩ := countLoop_spec urls [] List.nodup_nil h
    unfold CountUniqueUrls
    rw [hr, Option.map_some', ← List.toFinset_card_of_nodup hnd]
    congr 2
    ext x
    simp [hx x]
  · intro xs ys r hrej
    unfold CountUniqueUrls
    rw [countLoop_skip xs ys r hrej]

/-- Witness of C1 on the list of the repository test "test invalid urls". -/
theorem countUniqueUrls_counts_distinct_witness :
    CountUniqueUrls ["https://example.com".toList, "invalid-url".toList,
        "ftp://ftp.example.com".toList] =
      some (((["https://example.com".toList, "invalid-url".toList,
        "ftp://ftp.example.com".toList].filter MatchString).filterMap normalize).toFinset.card) ∧
    (∀ (xs ys : List Str) (r : Str), MatchString r = false →
      CountUniqueUrls (xs ++ r :: ys) = CountUniqueUrls (xs ++ ys)) ∧
    CountUniqueUrls [] = some 0 :=
  countUniqueUrls_counts_distinct _ (by decide)

theorem matchString_of_urlRegex {u : Str} {p : Parsed} (h : urlRegex u = some p) :
    MatchString u = true := by
  simp [MatchString, h]

theorem matchString_render (p : Parsed) (h : WellFormed p) : MatchString (render p) = true :=
  matchString_of_urlRegex (urlRegex_render p h)

theorem count_pair_same (u v : Str) (hu : MatchString u = true) (hv : MatchString v = true)
    (hn : normalize v = normalize u) :
    CountUniqueUrls [u, v] = CountUniqueUrls [u] ∧
    ∀ c, normalize u = some c → CountUniqueUrls [u, v] = some 1 := by
  cases hc : normalize u with
  | none => simp [CountUniqueUrls, countLoop, hu, hc]
  | some c =>
    rw [hc] at hn
    simp [CountUniqueUrls, countLoop, hu, hv, hc, hn]

/-- C2 (the code departs from the claim): the accepted URL `example.com/..` makes
`normalize` panic, because `strings.LastIndex` finds no slash and the slice `res[:-1]` is
out of range; so does `https://example.com/..`, where the string is cut inside the scheme
and the final slice at the length of the authority is out of range.  `CountUniqueUrls`
panics with them. -/
theorem normalize_panics_on_leading_dotdot :
    MatchString "example.com/..".toList = true ∧
    normalize "example.com/..".toList = none ∧
    CountUniqueUrls ["example.com/..".toList] = none ∧
    MatchString "https://example.com/..".toList = true ∧
    normalize "https://example.com/..".toList = none ∧
    CountUniqueUrls ["https://example.com/..".toList] = none := by
  decide

/-! ### C10: `www.` in front of the domain -/

theorem split_append_sep (sep : Char) (a b : Str) (ha : sep ∉ a) :
    split sep (a ++ sep :: b) = a :: split sep b := by
  induction a with
  | nil => simp [split]
  | cons x xs ih =>
    have hx : x ≠ sep := fun e => ha (e ▸ List.mem_cons_self _ _)
    have hxs : sep ∉ xs := fun e => ha (List.mem_cons_of_mem _ e)
    simp [split, hx, ih hxs]

theorem matchDomain_www (d : Str) (h : matchDomain d = true) :
    matchDomain (['w', 'w', 'w', '.'] ++ d) = true := by
  have e : split '.' (['w', 'w', 'w', '.'] ++ d) = ['w', 'w', 'w'] :: split '.' d :=
    split_append_sep '.' ['w', 'w', 'w'] d (by decide)
  unfold matchDomain at h ⊢
  rw [e]
  cases hs : split '.' d with
  | nil => exact absurd hs (split_ne_nil _ _)
  | cons a b =>
    rw [hs] at h
    simp only [Bool.and_eq_true, decide_eq_true_eq] at h ⊢
    obtain ⟨⟨⟨h1, h2⟩, h3⟩, h4⟩ := h
    refine ⟨⟨⟨by simp, ?_⟩, ?_⟩, ?_⟩
    · rw [List.dropLast_cons₂, List.all_cons, h2]
      decide
    · simpa [List.getLastD] using h3
    · simpa [List.getLastD] using h4

theorem wellFormed_www (p : Parsed) (h : WellFormed p) :
    WellFormed { p with domain := ['w', 'w', 'w', '.'] ++ p.domain } :=
  { scheme := h.scheme
    domainChars := by
      intro c hc
      rcases List.mem_append.1 hc with e | e
      · have hall : ∀ x ∈ ['w', 'w', 'w', '.'], isDomainChar x = true := by decide
        exact hall c e
      · exact h.domainChars c e
    domain := matchDomain_www _ h.domain
    port := h.port
    path := h.path
    query := h.query
    fragment := h.fragment }

theorem trimParsed_domain (q : Parsed) (d : Str) :
    trimParsed { q with domain := d } = { trimParsed q with domain := d } := by
  unfold trimParsed
  simp only
  split
  · rfl
  · split <;> rfl

theorem canonical_eq (q : Parsed) :
    canonical q = (walkPath (capture ['/'] q.path) (startOf q)).bind
      (fun withPath => finish (startOf q).length (withQuery withPath (capture [] q.query))) := by
  unfold canonical normalizeParts partsOf startOf
  simp only [List.getD_cons_zero, List.getD_cons_succ]
  cases walkPath (capture ['/'] q.path) (authority (capture [] q.scheme)
    (trimLeft ['w', 'w', 'w', '.'] q.domain)
    (normPort (capture [] q.scheme) (capture [':'] q.port))) <;> rfl

theorem canonical_congr_domain (q : Parsed) (d : Str)
    (h : trimLeft ['w', 'w', 'w', '.'] d = trimLeft ['w', 'w', 'w', '.'] q.domain) :
    canonical { q with domain := d } = canonical q := by
  rw [canonical_eq, canonical_eq]
  have e : startOf { q with domain := d } = startOf q := by
    unfold startOf
    simp only
    rw [h]
  rw [e]

/-- Putting `www.` in front of the domain changes nothing: for every accepted URL, the
URL with `www.` put in front of its domain is accepted and has the same result of
`normalize` (a panic on both, or the same string), so that `CountUniqueUrls` of the two is
that of one (and is 1 when `normalize` returns). -/
theorem www_stripped (u : Str) (p : Parsed) (h : urlRegex u = some p) :
    MatchString (render { p with domain := ['w', 'w', 'w', '.'] ++ p.domain }) = true ∧
    normalize (render { p with domain := ['w', 'w', 'w', '.'] ++ p.domain }) = normalize u ∧
    CountUniqueUrls [u, render { p with domain := ['w', 'w', 'w', '.'] ++ p.domain }] =
      CountUniqueUrls [u] ∧
    ∀ c, normalize u = some c →
      CountUniqueUrls [u, render { p with domain := ['w', 'w', 'w', '.'] ++ p.domain }] =
        some 1 := by
  obtain ⟨_, hw⟩ := render_of_urlRegex u p h
  have hw' := wellFormed_www p hw
  have hm' := matchString_render _ hw'
  have hn : normalize (render { p with domain := ['w', 'w', 'w', '.'] ++ p.domain }) =
      normalize u := by
    rw [(normalize_of_urlRegex _ _ (urlRegex_render _ hw')).1, (normalize_of_urlRegex u p h).1]
    have e : lowerParsed { p with domain := ['w', 'w', 'w', '.'] ++ p.domain } =
        { lowerParsed p with domain := ['w', 'w', 'w', '.'] ++ (lowerParsed p).domain } := by
      simp only [lowerParsed, toLower, List.map_append]
      rfl
    rw [e, trimParsed_domain]
    apply canonical_congr_domain
    have e2 : (trimParsed (lowerParsed p)).domain = (lowerParsed p).domain := by
      unfold trimParsed
      split
      · rfl
      · split <;> rfl
    rw [e2]
    rfl
  have hc := count_pair_same u _ (matchString_of_urlRegex h) hm' hn
  exact ⟨hm', hn, hc.1, hc.2⟩

/-- The statement `www_stripped` on `https://google.com` and `https://www.google.com`. -/
theorem www_stripped_witness :
    MatchString "https://www.google.com".toList = true ∧
    normalize "https://www.google.com".toList = normalize "https://google.com".toList ∧
    CountUniqueUrls ["https://google.com".toList, "https://www.google.com".toList] =
      CountUniqueUrls ["https://google.com".toList] ∧
    ∀ c, normalize "https://google.com".toList = some c →
      CountUniqueUrls ["https://google.com".toList, "https://www.google.com".toList] =
        some 1 :=
  www_stripped "https://google.com".toList
    ⟨some "https".toList, "google.com".toList, none, none, none, none⟩ (by decide)

/-! ### The order of `sort.Strings` -/

theorem char_eq_of_toNat_eq {a b : Char} (h : a.toNat = b.toNat) : a = b := by
  have := congrArg Char.ofNat h
  rwa [Char.ofNat_toNat, Char.ofNat_toNat] at this

theorem strLe_total (a b : Str) : strLe a b = true ∨ strLe b a = true := by
  induction a generalizing b with
  | nil => exact Or.inl rfl
  | cons x xs ih =>
    cases b with
    | nil => exact Or.inr rfl
    | cons y ys =>
      unfold strLe
      by_cases h1 : x.toNat < y.toNat
      · simp [h1]
      · by_cases h2 : y.toNat < x.toNat
        · simp [h2]
        · simp only [h1, h2, if_false]
          exact ih ys

theorem strLe_antisymm (a b : Str) (h1 : strLe a b = true) (h2 : strLe b a = true) : a = b := by
  induction a generalizing b with
  | nil =>
    cases b with
    | nil => rfl
    | cons y ys => simp [strLe] at h2
  | cons x xs ih =>
    cases b with
    | nil => simp [strLe] at h1
    | cons y ys =>
      unfold strLe at h1 h2
      by_cases c1 : x.toNat < y.toNat
      · have c2 : ¬ y.toNat < x.toNat := by omega
        simp [c1, c2] at h2
      · by_cases c2 : y.toNat < x.toNat
        · simp [c1, c2] at h1
        · simp only [c1, c2, if_false] at h1 h2
          have e : x = y := char_eq_of_toNat_eq (by omega)
          rw [e, ih ys h1 h2]

theorem strLe_trans (a b c : Str) (h1 : strLe a b = true) (h2 : strLe b c = true) :
    strLe a c = true := by
  induction a generalizing b c with
  | nil => rfl
  | cons x xs ih =>
    cases b with
    | nil => simp [strLe] at h1
    | cons y ys =>
      cases c with
      | nil => simp [strLe] at h2
      | cons z zs =>
        unfold strLe at h1 h2 ⊢
        by_cases c1 : x.toNat < y.toNat
        · by_cases c2 : y.toNat < z.toNat
          · have : x.toNat < z.toNat := by omega
            simp [this]
          · by_cases c3 : z.toNat < y.toNat
            · simp [c2, c3] at h2
            · have : x.toNat < z.toNat := by omega
              simp [this]
        · by_cases c1' : y.toNat < x.toNat
          · simp [c1, c1'] at h1
          · simp only [c1, c1', if_false] at h1
            by_cases c2 : y.toNat < z.toNat
            · have : x.toNat < z.toNat := by omega
              simp [this]
            · by_cases c3 : z.toNat < y.toNat
              · simp [c2, c3] at h2
              · simp only [c2, c3, if_false] at h2
                have e1 : ¬ x.toNat < z.toNat := by omega
                have e2 : ¬ z.toNat < x.toNat := by omega
                simp only [e1, e2, if_false]
                exact ih ys zs h1 h2

/-- The order in which `sort.Strings` leaves a slice depends only on the strings in it. -/
theorem sortStrings_perm (xs ys : List Str) (h : xs.Perm ys) : sortStrings xs = sortStrings ys := by
  haveI : IsTotal Str (fun a b => strLe a b = true) := ⟨strLe_total⟩
  haveI : IsTrans Str (fun a b => strLe a b = true) := ⟨strLe_trans⟩
  haveI : IsAntisymm Str (fun a b => strLe a b = true) := ⟨strLe_antisymm⟩
  unfold sortStrings
  apply List.eq_of_perm_of_sorted (r := fun a b => strLe a b = true)
  · exact (List.perm_insertionSort _ xs).trans (h.trans (List.perm_insertionSort _ ys).symm)
  · exact List.sorted_insertionSort _ xs
  · exact List.sorted_insertionSort _ ys

/-! ### C3: the order of the query parameters -/

theorem split_eq_singleton_nil (sep : Char) (s : Str) (h : split sep s = [[]]) : s = [] := by
  cases s with
  | nil => rfl
  | cons c cs =>
    unfold split at h
    split at h
    · simp only [List.cons.injEq, true_and] at h
      exact absurd h (split_ne_nil _ _)
    · simp at h

theorem mem_split_or_sep (sep : Char) (s : Str) :
    ∀ c ∈ s, c = sep ∨ ∃ l ∈ split sep s, c ∈ l := by
  induction s with
  | nil => intro c hc; cases hc
  | cons x xs ih =>
    intro c hc
    cases hsp : split sep xs with
    | nil => exact absurd hsp (split_ne_nil _ _)
    | cons a b =>
      rw [hsp] at ih
      by_cases hx : x = sep
      · rcases List.mem_cons.1 hc with e | e
        · exact Or.inl (e.trans hx)
        · rcases ih c e with h1 | ⟨l, hl, hcl⟩
          · exact Or.inl h1
          · exact Or.inr ⟨l, by simp [split, hx, hsp]; exact Or.inr (by simpa using hl), hcl⟩
      · rcases List.mem_cons.1 hc with e | e
        · exact Or.inr ⟨x :: a, by simp [split, hx, hsp], by simp [e]⟩
        · rcases ih c e with h1 | ⟨l, hl, hcl⟩
          · exact Or.inl h1
          · rcases List.mem_cons.1 hl with e2 | e2
            · exact Or.inr ⟨x :: a, by simp [split, hx, hsp], by simp [← e2, hcl]⟩
            · exact Or.inr ⟨l, by simp [split, hx, hsp, e2], hcl⟩

theorem canonical_congr_query (Q : Parsed) (x y : Str) (hQ : Q.query = some x)
    (hne : x ≠ []) (hne' : y ≠ [])
    (h : (split '&' x).Perm (split '&' y)) :
    canonical { Q with query := some y } = canonical Q := by
  rw [canonical_eq, canonical_eq]
  have e : startOf { Q with query := some y } = startOf Q := rfl
  rw [e]
  simp only [hQ]
  have e2 : ∀ w, withQuery w (capture [] (some y)) = withQuery w (capture [] (some x)) := by
    intro w
    simp only [withQuery, capture, List.nil_append]
    rw [if_pos hne, if_pos hne', sortStrings_perm _ _ h]
  simp only [e2]

theorem trimParsed_of_query_ne (Q : Parsed) (x : Str) (hQ : Q.query = some x) (hne : x ≠ []) :
    trimParsed Q = Q := by
  unfold trimParsed
  split
  · rfl
  · rw [if_pos (by simpa [hQ] using hne)]

theorem toLower_eq_nil {s : Str} : toLower s = [] ↔ s = [] := by
  simp [toLower]

/-- The order of the parameters changes nothing: for every accepted URL with a query, the
URL whose query has the same `&`-separated parameters in another order is accepted and has
the same result of `normalize` (a panic on both, or the same string), so that
`CountUniqueUrls` of the two is that of one (and is 1 when `normalize` returns). -/
theorem query_order_invariance (u : Str) (p : Parsed) (q q' : Str)
    (h : urlRegex u = some p) (hq : p.query = some q)
    (hperm : (split '&' q).Perm (split '&' q')) :
    MatchString (render { p with query := some q' }) = true ∧
    normalize (render { p with query := some q' }) = normalize u ∧
    CountUniqueUrls [u, render { p with query := some q' }] = CountUniqueUrls [u] ∧
    ∀ c, normalize u = some c →
      CountUniqueUrls [u, render { p with query := some q' }] = some 1 := by
  obtain ⟨_, hw⟩ := render_of_urlRegex u p h
  have hqc : ∀ c ∈ q', isQueryChar c = true := by
    intro c hc
    rcases mem_split_or_sep '&' q' c hc with e | ⟨l, hl, hcl⟩
    · subst e
      rfl
    · exact hw.query q hq c (mem_of_mem_split '&' q l (hperm.symm.subset hl) c hcl)
  have hw' : WellFormed { p with query := some q' } :=
    { scheme := hw.scheme
      domainChars := hw.domainChars
      domain := hw.domain
      port := hw.port
      path := hw.path
      query := by
        intro x hx
        simp only [Option.some.injEq] at hx
        subst hx
        exact hqc
      fragment := hw.fragment }
  have hm' := matchString_render _ hw'
  have hn : normalize (render { p with query := some q' }) = normalize u := by
    by_cases hne : q = []
    · subst hne
      have : q' = [] := by
        apply split_eq_singleton_nil '&'
        exact List.perm_singleton.1 hperm.symm
      subst this
      have e : ({ p with query := some [] } : Parsed) = p := by
        cases p
        simp only at hq
        simp [hq]
      rw [e, (render_of_urlRegex u p h).1.symm]
    · have hne' : q' ≠ [] := by
        intro e
        subst e
        exact hne (split_eq_singleton_nil '&' q (List.perm_singleton.1 hperm))
      rw [(normalize_of_urlRegex _ _ (urlRegex_render _ hw')).1, (normalize_of_urlRegex u p h).1]
      have hlq : (lowerParsed p).query = some (toLower q) := by simp [lowerParsed, hq]
      have e : lowerParsed { p with query := some q' } =
          { lowerParsed p with query := some (toLower q') } := rfl
      have hasc : IsASCII q := fun c hc => (ascii_of_classes c).2.2.1 (hw.query q hq c hc)
      have hasc' : IsASCII q' := fun c hc => (ascii_of_classes c).2.2.1 (hqc c hc)
      have hl : ∀ x : Str, IsASCII x → split '&' (toLower x) = (split '&' x).map toLower :=
        fun x hx => split_map_of lowerRune '&' x
          (fun c hc => (lowerRune_delims c (hx c hc)).2.2.2.2.2.1)
      rw [e, trimParsed_of_query_ne _ (toLower q') rfl (by simpa [toLower_eq_nil] using hne'),
        trimParsed_of_query_ne _ (toLower q) hlq (by simpa [toLower_eq_nil] using hne)]
      apply canonical_congr_query _ (toLower q) (toLower q') hlq
        (by simpa [toLower_eq_nil] using hne) (by simpa [toLower_eq_nil] using hne')
      rw [hl q hasc, hl q' hasc']
      exact hperm.map _
  have hc := count_pair_same u _ (matchString_of_urlRegex h) hm' hn
  exact ⟨hm', hn, hc.1, hc.2⟩

/-- The statement `query_order_invariance` on `https://example.com?a=1&b=2` and
`https://example.com?b=2&a=1`. -/
theorem query_order_invariance_witness :
    MatchString "https://example.com?b=2&a=1".toList = true ∧
    normalize "https://example.com?b=2&a=1".toList =
      normalize "https://example.com?a=1&b=2".toList ∧
    CountUniqueUrls ["https://example.com?a=1&b=2".toList,
      "https://example.com?b=2&a=1".toList] =
      CountUniqueUrls ["https://example.com?a=1&b=2".toList] ∧
    ∀ c, normalize "https://example.com?a=1&b=2".toList = some c →
      CountUniqueUrls ["https://example.com?a=1&b=2".toList,
        "https://example.com?b=2&a=1".toList] = some 1 :=
  query_order_invariance "https://example.com?a=1&b=2".toList
    ⟨some "https".toList, "example.com".toList, none, none, some "a=1&b=2".toList, none⟩
    "a=1&b=2".toList "b=2&a=1".toList (by decide) rfl (by decide)

/-! ### C4: letter case and trailing `?` and `/` -/

theorem matchString_toLower (u : Str) (h : IsASCII u) : MatchString (toLower u) = MatchString u := by
  unfold MatchString
  rw [urlRegex_toLower u h]
  cases urlRegex u <;> rfl

theorem countLoop_congr (xs ys : List Str) (u v : Str) (hm : MatchString u = MatchString v)
    (hn : normalize u = normalize v) :
    ∀ acc, countLoop (xs ++ u :: ys) acc = countLoop (xs ++ v :: ys) acc := by
  induction xs with
  | nil =>
    intro acc
    simp only [List.nil_append, countLoop, hm, hn]
  | cons x xs ih =>
    intro acc
    simp only [List.cons_append, countLoop]
    split
    · exact ih acc
    · split
      · rfl
      · exact ih _

theorem normalize_congr (u v : Str)
    (h : trimRight ['?', '/'] (toLower u) = trimRight ['?', '/'] (toLower v)) :
    normalize u = normalize v := by
  unfold normalize
  rw [h]

theorem trimRight_toLower_concat (u : Str) (c : Char) (hc : c = '/' ∨ c = '?') :
    trimRight ['?', '/'] (toLower (u ++ [c])) = trimRight ['?', '/'] (toLower u) := by
  have e : toLower (u ++ [c]) = toLower u ++ [c] := by
    rcases hc with hc | hc <;> subst hc <;> simp [toLower] <;> decide
  rw [e]
  unfold trimRight
  rw [List.rdropWhile_concat]
  rcases hc with hc | hc <;> subst hc <;> rfl

/-- C4: `normalize` depends only on the lower-cased input with its trailing `?` and `/`
removed; on ASCII strings the grammar accepts a string exactly when it accepts any other
string with the same lower case; hence replacing an entry by one with the same
lower-cased, trimmed form and the same acceptance, appending `/` or `?` to an accepted
entry when the result is accepted, or changing the letter case of an entry, never changes
`CountUniqueUrls`. -/
theorem normalize_lower_trim_invariance :
    (∀ u v : Str, trimRight ['?', '/'] (toLower u) = trimRight ['?', '/'] (toLower v) →
      normalize u = normalize v) ∧
    (∀ u v : Str, IsASCII u → IsASCII v → toLower u = toLower v →
      MatchString u = MatchString v) ∧
    (∀ (xs ys : List Str) (u v : Str), MatchString u = MatchString v →
      trimRight ['?', '/'] (toLower u) = trimRight ['?', '/'] (toLower v) →
      CountUniqueUrls (xs ++ u :: ys) = CountUniqueUrls (xs ++ v :: ys)) ∧
    (∀ (xs ys : List Str) (u : Str) (c : Char), c = '/' ∨ c = '?' →
      MatchString u = true → MatchString (u ++ [c]) = true →
      normalize (u ++ [c]) = normalize u ∧
      CountUniqueUrls (xs ++ (u ++ [c]) :: ys) = CountUniqueUrls (xs ++ u :: ys)) ∧
    (∀ (xs ys : List Str) (u v : Str), IsASCII u → IsASCII v → toLower u = toLower v →
      normalize u = normalize v ∧
      CountUniqueUrls (xs ++ u :: ys) = CountUniqueUrls (xs ++ v :: ys)) := by
  have h2 : ∀ u v : Str, IsASCII u → IsASCII v → toLower u = toLower v →
      MatchString u = MatchString v := by
    intro u v hu hv e
    rw [← matchString_toLower u hu, ← matchString_toLower v hv, e]
  have h3 : ∀ (xs ys : List Str) (u v : Str), MatchString u = MatchString v →
      trimRight ['?', '/'] (toLower u) = trimRight ['?', '/'] (toLower v) →
      CountUniqueUrls (xs ++ u :: ys) = CountUniqueUrls (xs ++ v :: ys) := by
    intro xs ys u v hm ht
    unfold CountUniqueUrls
    rw [countLoop_congr xs ys u v hm (normalize_congr u v ht)]
  refine ⟨normalize_congr, h2, h3, ?_, ?_⟩
  · intro xs ys u c hc hu huc
    have ht := trimRight_toLower_concat u c hc
    exact ⟨normalize_congr _ _ ht, h3 xs ys _ _ (huc.trans hu.symm) ht⟩
  · intro xs ys u v hu hv e
    have ht : trimRight ['?', '/'] (toLower u) = trimRight ['?', '/'] (toLower v) := by rw [e]
    exact ⟨normalize_congr _ _ ht, h3 xs ys u v (h2 u v hu hv e) ht⟩

/-- Witness of C4 on `HTTPS://Example.COM/` and `https://example.com`. -/
theorem normalize_lower_trim_invariance_witness :
    normalize "HTTPS://Example.COM/".toList = normalize "https://example.com".toList ∧
    MatchString "HTTPS://Example.COM".toList = MatchString "https://example.com".toList ∧
    CountUniqueUrls ["https://example.com".toList, "HTTPS://Example.COM/".toList] =
      CountUniqueUrls ["https://example.com".toList, "https://example.com".toList] :=
  ⟨normalize_lower_trim_invariance.1 _ _ (by decide),
   normalize_lower_trim_invariance.2.1 _ _ (by unfold IsASCII; decide)
     (by unfold IsASCII; decide) (by decide),
   normalize_lower_trim_invariance.2.2.1 ["https://example.com".toList] []
     "HTTPS://Example.COM/".toList "https://example.com".toList (by decide) (by decide)⟩

/-- C5 (the code departs from the claim): the accepted URL `https://example.com/` has no
fragment, and with the fragment `#x` added its canonical string keeps the trailing slash
that `normalize` trims without the fragment, so the two are counted as two. -/
theorem fragment_keeps_trailing_slash :
    MatchString "https://example.com/".toList = true ∧
    MatchString "https://example.com/#x".toList = true ∧
    normalize "https://example.com/".toList = some "https://example.com".toList ∧
    normalize "https://example.com/#x".toList = some "https://example.com/".toList ∧
    CountUniqueUrls ["https://example.com/".toList, "https://example.com/#x".toList] =
      some 2 := by
  decide

/-! ### The path walk without `..` -/

theorem walkFiles_no_dotdot (files : List Str) (h : ['.', '.'] ∉ files) :
    ∃ out, ∀ r, walkFiles files r = some (r ++ out) := by
  induction files with
  | nil => exact ⟨[], fun r => by simp [walkFiles]⟩
  | cons f fs ih =>
    obtain ⟨out, hout⟩ := ih (fun e => h (List.mem_cons_of_mem _ e))
    have hf : f ≠ ['.', '.'] := fun e => h (e ▸ List.mem_cons_self _ _)
    by_cases h1 : f = ['.']
    · exact ⟨out, fun r => by simp [walkFiles, h1, hout]⟩
    · exact ⟨'/' :: f ++ out, fun r => by simp [walkFiles, h1, hf, hout]⟩

theorem split_cons_sep (sep : Char) (t : Str) : (split sep (sep :: t)).tail = split sep t := by
  simp [split]

theorem walkPath_capture (o : Option Str) (r : Str) :
    walkPath (capture ['/'] o) r =
      match o with
      | none => some r
      | some t => walkFiles (split '/' t) r := by
  cases o with
  | none => rfl
  | some t =>
    have e : capture ['/'] (some t) = '/' :: t := rfl
    rw [e]
    unfold walkPath
    rw [if_pos (by simp), split_cons_sep]

theorem walkPath_no_dotdot (o : Option Str) (h : ∀ t, o = some t → ['.', '.'] ∉ split '/' t) :
    ∃ out, ∀ r, walkPath (capture ['/'] o) r = some (r ++ out) := by
  cases o with
  | none => exact ⟨[], fun r => by simp [walkPath_capture]⟩
  | some t =>
    obtain ⟨out, hout⟩ := walkFiles_no_dotdot (split '/' t) (h t rfl)
    exact ⟨out, fun r => by rw [walkPath_capture]; exact hout r⟩

theorem withQuery_append (w q : Str) :
    withQuery w q = w ++ withQuery [] q := by
  unfold withQuery
  split <;> simp

theorem finish_append (r y : Str) :
    finish r.length (r ++ y) = some (r ++ percentLoop y.length 0 y) := by
  unfold finish
  rw [if_neg (by simp)]
  simp

/-- Without a `..` segment `normalize` returns: the canonical string is the authority
followed by a string that depends on the path and the query only. -/
theorem canonical_no_dotdot (path query : Option Str)
    (h : ∀ t, path = some t → ['.', '.'] ∉ split '/' t) :
    ∃ T, ∀ Q : Parsed, Q.path = path → Q.query = query → canonical Q = some (startOf Q ++ T) := by
  obtain ⟨out, hout⟩ := walkPath_no_dotdot path h
  refine ⟨percentLoop (out ++ withQuery [] (capture [] query)).length 0
    (out ++ withQuery [] (capture [] query)), ?_⟩
  intro Q hp hq
  rw [canonical_eq, hp, hq, hout]
  show finish (startOf Q).length (withQuery (startOf Q ++ out) (capture [] query)) = _
  rw [withQuery_append, List.append_assoc, finish_append]

/-! ### C6: the default port -/

theorem rdropWhile_decomp (p : Char → Bool) (l : Str) :
    ∃ k, l = l.rdropWhile p ++ k ∧ ∀ c ∈ k, p c = true := by
  induction l using List.reverseRecOn with
  | nil => exact ⟨[], by simp, by simp⟩
  | append_singleton l x ih =>
    obtain ⟨k, hk, hall⟩ := ih
    rw [List.rdropWhile_concat]
    by_cases hx : p x = true
    · refine ⟨k ++ [x], ?_, ?_⟩
      · rw [if_pos hx, ← List.append_assoc, ← hk]
      · intro c hc
        rcases List.mem_append.1 hc with e | e
        · exact hall c e
        · simp only [List.mem_singleton] at e
          exact e ▸ hx
    · exact ⟨[], by rw [if_neg hx, List.append_nil], by simp⟩

theorem split_append_sep_general (sep : Char) (a b : Str) :
    split sep (a ++ sep :: b) = split sep a ++ split sep b := by
  induction a with
  | nil => simp [split]
  | cons x xs ih =>
    by_cases hx : x = sep
    · simp [split, hx, ← ih]
    · cases hsp : split sep xs with
      | nil => exact absurd hsp (split_ne_nil _ _)
      | cons h t => simp [split, hx, ih, hsp]

theorem trimPath_decomp (t r : Str) (ht : ∀ c ∈ t, isPathChar c = true)
    (h : trimPath t = some r) : r = t ∨ ∃ k, t = r ++ '/' :: k := by
  unfold trimPath at h
  split at h
  · cases h
  · rename_i x r' hr
    simp only [Option.some.injEq] at h
    subst h
    obtain ⟨k, hk, hall⟩ := rdropWhile_decomp (fun c => ['?', '/'].elem c) ('/' :: t)
    unfold trimRight at hr
    rw [hr] at hk
    simp only [List.cons_append, List.cons.injEq] at hk
    obtain ⟨_, hk⟩ := hk
    cases k with
    | nil => exact Or.inl (by simpa using hk.symm)
    | cons c k' =>
      right
      have hc := hall c (List.mem_cons_self _ _)
      have hc2 : isPathChar c = true := ht c (by rw [hk]; simp)
      have : c = '/' := by
        by_cases e1 : c = '?'
        · subst e1
          revert hc2
          decide
        · by_cases e2 : c = '/'
          · exact e2
          · simp [e1, e2] at hc
      subst this
      exact ⟨k', hk⟩

theorem toLower_eq_dots (l : Str) (h : IsASCII l) :
    (toLower l = ['.', '.'] ↔ l = ['.', '.']) ∧ (toLower l = ['.'] ↔ l = ['.']) := by
  constructor
  · constructor
    · intro e
      have hlen : l.length = 2 := by
        have := congrArg List.length e
        simpa [toLower] using this
      obtain ⟨a, b, rfl⟩ := List.length_eq_two.1 hlen
      simp only [toLower, List.map_cons, List.map_nil, List.cons.injEq, and_true] at e
      have ha := (lowerRune_delims a (h a (by simp))).2.2.2.2.1.1 e.1
      have hb := (lowerRune_delims b (h b (by simp))).2.2.2.2.1.1 e.2
      rw [ha, hb]
    · intro e
      subst e
      rfl
  · constructor
    · intro e
      have hlen : l.length = 1 := by
        have := congrArg List.length e
        simpa [toLower] using this
      obtain ⟨a, rfl⟩ := List.length_eq_one.1 hlen
      simp only [toLower, List.map_cons, List.map_nil, List.cons.injEq, and_true] at e
      have ha := (lowerRune_delims a (h a (by simp))).2.2.2.2.1.1 e
      rw [ha]
    · intro e
      subst e
      rfl

theorem split_toLower (sep : Char) (hsep : sep = '/' ∨ sep = '&') (t : Str) (h : IsASCII t) :
    split sep (toLower t) = (split sep t).map toLower := by
  rcases hsep with e | e <;> subst e
  · exact split_map_of lowerRune '/' t (fun c hc => (lowerRune_delims c (h c hc)).2.1)
  · exact split_map_of lowerRune '&' t (fun c hc => (lowerRune_delims c (h c hc)).2.2.2.2.2.1)

theorem noDotDot_toLower (t : Str) (h : IsASCII t) (hdd : ['.', '.'] ∉ split '/' t) :
    ['.', '.'] ∉ split '/' (toLower t) := by
  rw [split_toLower '/' (Or.inl rfl) t h]
  intro hmem
  obtain ⟨l, hl, e⟩ := List.mem_map.1 hmem
  have hasc : IsASCII l := fun c hc => h c (mem_of_mem_split _ _ l hl c hc)
  rw [(toLower_eq_dots l hasc).1.1 e] at hl
  exact hdd hl

theorem noDotDot_trimPath (t r : Str) (ht : ∀ c ∈ t, isPathChar c = true)
    (h : trimPath t = some r) (hdd : ['.', '.'] ∉ split '/' t) : ['.', '.'] ∉ split '/' r := by
  rcases trimPath_decomp t r ht h with e | ⟨k, e⟩
  · rw [e]
    exact hdd
  · rw [e, split_append_sep_general] at hdd
    exact fun hr => hdd (List.mem_append_left _ hr)

theorem trimParsed_path (Q : Parsed) :
    (trimParsed Q).path = Q.path ∨ (trimParsed Q).path = Q.path.bind trimPath := by
  unfold trimParsed
  split
  · exact Or.inl rfl
  · split
    · exact Or.inl rfl
    · exact Or.inr rfl

theorem noDotDot_normal (p : Parsed) (hw : WellFormed p)
    (h : ∀ t, p.path = some t → ['.', '.'] ∉ split '/' t) :
    ∀ t, (trimParsed (lowerParsed p)).path = some t → ['.', '.'] ∉ split '/' t := by
  intro t ht
  cases hp : p.path with
  | none =>
    rcases trimParsed_path (lowerParsed p) with e | e <;>
      · rw [e] at ht
        simp [lowerParsed, hp] at ht
  | some t0 =>
    have hasc : IsASCII t0 := fun c hc => (ascii_of_classes c).2.1 (hw.path t0 hp c hc)
    have h0 := noDotDot_toLower t0 hasc (h t0 hp)
    have hpc : ∀ c ∈ toLower t0, isPathChar c = true := by
      intro c hc
      obtain ⟨x, hx, rfl⟩ := List.mem_map.1 hc
      rw [(lowerRune_classes x (hasc x hx)).2.2.2.2.2.1]
      exact hw.path t0 hp x hx
    rcases trimParsed_path (lowerParsed p) with e | e
    · rw [e] at ht
      simp only [lowerParsed, hp, Option.map_some', Option.some.injEq] at ht
      rw [← ht]
      exact h0
    · rw [e] at ht
      simp only [lowerParsed, hp, Option.map_some', Option.some_bind] at ht
      exact noDotDot_trimPath _ _ hpc ht h0

theorem lowerRune_digit (c : Char) (h : isDigit c = true) : lowerRune c = c := by
  have hc := (ascii_of_classes c).2.2.2.2.2 h
  revert h
  refine ascii_cases (fun c => isDigit c = true → lowerRune c = c) ?_ c hc
  decide

theorem toLower_digits (d : Str) (h : ∀ c ∈ d, isDigit c = true) : toLower d = d := by
  induction d with
  | nil => rfl
  | cons x xs ih =>
    simp only [toLower, List.map_cons] at ih ⊢
    rw [lowerRune_digit x (h x (List.mem_cons_self _ _)),
      ih (fun c hc => h c (List.mem_cons_of_mem _ hc))]

theorem trimParsed_port (Q : Parsed) (o : Option Str) :
    trimParsed { Q with port := o } = { trimParsed Q with port := o } := by
  unfold trimParsed
  simp only
  split
  · rfl
  · split <;> rfl

theorem trimParsed_fields (Q : Parsed) :
    (trimParsed Q).scheme = Q.scheme ∧ (trimParsed Q).domain = Q.domain ∧
    (trimParsed Q).port = Q.port := by
  unfold trimParsed
  split
  · exact ⟨rfl, rfl, rfl⟩
  · split <;> exact ⟨rfl, rfl, rfl⟩

theorem authority_schemeText (o : Option Str) (dom port : Str)
    (ho : ∀ s, o = some s → s ≠ []) :
    authority (capture [] o) dom port =
      schemeText o ++ (dom ++ if port ≠ [] then ':' :: port else []) := by
  cases o with
  | none => simp [authority, capture, schemeText]
  | some s => simp [authority, capture, schemeText, ho s rfl]

theorem normPort_colon (o : Option Str) (d : Str) :
    normPort (capture [] o) (':' :: d) =
      if (o = some ['h', 't', 't', 'p'] ∧ d = ['8', '0']) ∨
        (o = some ['h', 't', 't', 'p', 's'] ∧ d = ['4', '4', '3'])
      then [] else d := by
  unfold normPort
  rw [if_pos (List.cons_ne_nil _ _)]
  have e : (':' :: d).drop 1 = d := rfl
  rw [e]
  cases o with
  | none =>
    have e0 : capture [] (none : Option Str) = [] := rfl
    rw [e0, if_neg, if_neg]
    · rintro (⟨h1, _⟩ | ⟨h1, _⟩) <;> cases h1
    · rintro (⟨_, h1⟩ | ⟨_, h1⟩) <;> cases h1
  | some s =>
    have e0 : capture [] (some s) = s := rfl
    rw [e0]
    by_cases c : (d = ['8', '0'] ∧ s = ['h', 't', 't', 'p']) ∨
        (d = ['4', '4', '3'] ∧ s = ['h', 't', 't', 'p', 's'])
    · rw [if_pos c, if_pos]
      rcases c with ⟨h1, h2⟩ | ⟨h1, h2⟩
      · exact Or.inl ⟨congrArg some h2, h1⟩
      · exact Or.inr ⟨congrArg some h2, h1⟩
    · rw [if_neg c, if_neg]
      rintro (⟨h1, h2⟩ | ⟨h1, h2⟩)
      · exact c (Or.inl ⟨h2, Option.some.inj h1⟩)
      · exact c (Or.inr ⟨h2, Option.some.inj h1⟩)

/-- C6: for an accepted URL with a port whose path has no `..` segment, the URL without
the port is accepted, `normalize` returns for both, and the two results are equal exactly
when the lower-cased scheme and the port digits are (`http`, `80`) or (`https`, `443`); in
every other case the canonical string has `:` and the port digits right after the
domain. -/
theorem default_port_elision (u : Str) (p : Parsed) (d : Str)
    (h : urlRegex u = some p) (hp : p.port = some d)
    (hdd : ∀ t, p.path = some t → ['.', '.'] ∉ split '/' t) :
    MatchString (render { p with port := none }) = true ∧
    (normalize u).isSome = true ∧ (normalize (render { p with port := none })).isSome = true ∧
    (normalize u = normalize (render { p with port := none }) ↔
      (p.scheme.map toLower = some ['h', 't', 't', 'p'] ∧ d = ['8', '0']) ∨
      (p.scheme.map toLower = some ['h', 't', 't', 'p', 's'] ∧ d = ['4', '4', '3'])) ∧
    (¬ ((p.scheme.map toLower = some ['h', 't', 't', 'p'] ∧ d = ['8', '0']) ∨
        (p.scheme.map toLower = some ['h', 't', 't', 'p', 's'] ∧ d = ['4', '4', '3'])) →
      ∃ rest, normalize u = some (schemeText (p.scheme.map toLower) ++
        (trimLeft ['w', 'w', 'w', '.'] (toLower p.domain) ++ (':' :: d ++ rest)))) := by
  obtain ⟨_, hw⟩ := render_of_urlRegex u p h
  have hw' : WellFormed { p with port := none } :=
    { scheme := hw.scheme
      domainChars := hw.domainChars
      domain := hw.domain
      port := by
        intro x hx
        simp at hx
      path := hw.path
      query := hw.query
      fragment := hw.fragment }
  obtain ⟨hn, hwQ, _⟩ := normalize_of_urlRegex u p h
  obtain ⟨hn', _, _⟩ := normalize_of_urlRegex _ _ (urlRegex_render _ hw')
  have eQ' : trimParsed (lowerParsed { p with port := none }) =
      { trimParsed (lowerParsed p) with port := none } := by
    have : lowerParsed { p with port := none } = { lowerParsed p with port := none } := rfl
    rw [this, trimParsed_port]
  obtain ⟨hs, hdom, hport⟩ := trimParsed_fields (lowerParsed p)
  have hdig := (hw.port d hp).2
  have hdne := (hw.port d hp).1
  have hQport : (trimParsed (lowerParsed p)).port = some d := by
    rw [hport]
    simp [lowerParsed, hp, toLower_digits d hdig]
  have hQs : (trimParsed (lowerParsed p)).scheme = p.scheme.map toLower := by
    rw [hs]
    rfl
  have hQd : (trimParsed (lowerParsed p)).domain = toLower p.domain := by
    rw [hdom]
    rfl
  obtain ⟨T, hT⟩ := canonical_no_dotdot (trimParsed (lowerParsed p)).path
    (trimParsed (lowerParsed p)).query (noDotDot_normal p hw hdd)
  have c1 := hT (trimParsed (lowerParsed p)) rfl rfl
  have c2 := hT { trimParsed (lowerParsed p) with port := none } rfl rfl
  have hsne : ∀ s, p.scheme.map toLower = some s → s ≠ [] := by
    intro s hs'
    rw [← hQs] at hs'
    exact (hwQ.scheme s hs').1
  have s1 : startOf (trimParsed (lowerParsed p)) =
      schemeText (p.scheme.map toLower) ++ (trimLeft ['w', 'w', 'w', '.'] (toLower p.domain) ++
        if normPort (capture [] (p.scheme.map toLower)) (':' :: d) ≠ [] then
          ':' :: normPort (capture [] (p.scheme.map toLower)) (':' :: d) else []) := by
    unfold startOf
    rw [hQs, hQd, hQport, authority_schemeText _ _ _ hsne]
    rfl
  have s2 : startOf { trimParsed (lowerParsed p) with port := none } =
      schemeText (p.scheme.map toLower) ++
        (trimLeft ['w', 'w', 'w', '.'] (toLower p.domain) ++ []) := by
    unfold startOf
    simp only
    rw [hQs, hQd, authority_schemeText _ _ _ hsne]
    rfl
  rw [normPort_colon] at s1
  refine ⟨matchString_render _ hw', ?_, ?_, ?_, ?_⟩
  · rw [hn, c1]
    rfl
  · rw [hn', eQ', c2]
    rfl
  · rw [hn, hn', eQ', c1, c2, s1, s2]
    constructor
    · intro e
      by_contra hnd
      rw [if_neg hnd, if_pos hdne] at e
      have := congrArg List.length (Option.some.inj e)
      simp at this
      omega
    · intro hd
      rw [if_pos hd]
      simp
  · intro hnd
    rw [if_neg hnd, if_pos hdne] at s1
    refine ⟨T, ?_⟩
    rw [hn, c1, s1]
    simp

/-- Witness of C6 on `http://example.com:443/a`, whose port is not the default of its
scheme. -/
theorem default_port_elision_witness :
    MatchString "http://example.com/a".toList = true ∧
    (normalize "http://example.com:443/a".toList).isSome = true ∧
    (normalize "http://example.com/a".toList).isSome = true ∧
    (normalize "http://example.com:443/a".toList = normalize "http://example.com/a".toList ↔
      (some "http".toList = some ['h', 't', 't', 'p'] ∧ "443".toList = ['8', '0']) ∨
      (some "http".toList = some ['h', 't', 't', 'p', 's'] ∧
        "443".toList = ['4', '4', '3'])) ∧
    (¬ ((some "http".toList = some ['h', 't', 't', 'p'] ∧ "443".toList = ['8', '0']) ∨
        (some "http".toList = some ['h', 't', 't', 'p', 's'] ∧
          "443".toList = ['4', '4', '3'])) →
      ∃ rest, normalize "http://example.com:443/a".toList =
        some ("http://".toList ++ ("example.com".toList ++ (':' :: "443".toList ++ rest)))) :=
  default_port_elision "http://example.com:443/a".toList
    ⟨some "http".toList, "example.com".toList, some "443".toList, some "a".toList, none, none⟩
    "443".toList (by decide) rfl (by intro t ht; cases ht; decide)

/-! ### C7: dot-segments -/

theorem walkFiles_append (A B : List Str) (r : Str) :
    walkFiles (A ++ B) r = (walkFiles A r).bind (walkFiles B) := by
  induction A generalizing r with
  | nil => rfl
  | cons f fs ih =>
    simp only [List.cons_append, walkFiles]
    split
    · exact ih r
    · split
      · split
        · rfl
        · exact ih _
      · exact ih _

theorem lastIndex_of_not_mem (sep : Char) (s : Str) (h : sep ∉ s) : lastIndex sep s = none := by
  induction s with
  | nil => rfl
  | cons x xs ih =>
    have hx : x ≠ sep := fun e => h (e ▸ List.mem_cons_self _ _)
    simp [lastIndex, ih (fun e => h (List.mem_cons_of_mem _ e)), hx]

theorem lastIndex_append_sep (sep : Char) (r s : Str) (h : sep ∉ s) :
    lastIndex sep (r ++ sep :: s) = some r.length := by
  induction r with
  | nil => simp [lastIndex, lastIndex_of_not_mem sep s h]
  | cons x xs ih => simp [lastIndex, ih]

theorem walkFiles_dot (r : Str) : walkFiles [['.']] r = some r := by
  simp [walkFiles]

theorem walkFiles_seg_dotdot (s r : Str) (h1 : s ≠ ['.']) (h2 : s ≠ ['.', '.'])
    (h3 : '/' ∉ s) : walkFiles [s, ['.', '.']] r = some r := by
  simp [walkFiles, h1, h2, lastIndex_append_sep '/' r s h3]

theorem walkFiles_insert_dot (L : List Str) (k : Nat) (r : Str) :
    walkFiles (L.take k ++ [['.']] ++ L.drop k) r = walkFiles L r := by
  rw [List.append_assoc, walkFiles_append]
  conv_rhs => rw [← List.take_append_drop k L, walkFiles_append]
  cases walkFiles (L.take k) r with
  | none => rfl
  | some w =>
    show walkFiles ([['.']] ++ L.drop k) w = walkFiles (L.drop k) w
    rw [walkFiles_append, walkFiles_dot]
    rfl

theorem walkFiles_insert_seg_dotdot (L : List Str) (k : Nat) (s r : Str) (h1 : s ≠ ['.'])
    (h2 : s ≠ ['.', '.']) (h3 : '/' ∉ s) :
    walkFiles (L.take k ++ [s, ['.', '.']] ++ L.drop k) r = walkFiles L r := by
  rw [List.append_assoc, walkFiles_append]
  conv_rhs => rw [← List.take_append_drop k L, walkFiles_append]
  cases walkFiles (L.take k) r with
  | none => rfl
  | some w =>
    show walkFiles ([s, ['.', '.']] ++ L.drop k) w = walkFiles (L.drop k) w
    rw [walkFiles_append, walkFiles_seg_dotdot s w h1 h2 h3]
    rfl

theorem split_join (sep : Char) (segs : List Str) (hne : segs ≠ [])
    (h : ∀ x ∈ segs, sep ∉ x) : split sep (join sep segs) = segs := by
  induction segs with
  | nil => exact absurd rfl hne
  | cons x xs ih =>
    cases xs with
    | nil => exact split_of_not_mem sep x (h x (List.mem_cons_self _ _))
    | cons y ys =>
      simp only [join]
      rw [split_append_sep sep x _ (h x (List.mem_cons_self _ _)),
        ih (List.cons_ne_nil _ _) (fun z hz => h z (List.mem_cons_of_mem _ hz))]

theorem toLower_join (sep : Char) (hsep : lowerRune sep = sep) (segs : List Str) :
    toLower (join sep segs) = join sep (segs.map toLower) := by
  induction segs with
  | nil => rfl
  | cons x xs ih =>
    cases xs with
    | nil => rfl
    | cons y ys =>
      simp only [join, List.map_cons] at ih ⊢
      rw [← ih]
      simp [toLower, hsep]

theorem mem_join (sep : Char) (segs : List Str) :
    ∀ c ∈ join sep segs, c = sep ∨ ∃ x ∈ segs, c ∈ x := by
  induction segs with
  | nil => intro c hc; cases hc
  | cons x xs ih =>
    cases xs with
    | nil =>
      intro c hc
      exact Or.inr ⟨x, List.mem_cons_self _ _, hc⟩
    | cons y ys =>
      intro c hc
      simp only [join, List.mem_append, List.mem_cons] at hc
      rcases hc with e | e | e
      · exact Or.inr ⟨x, List.mem_cons_self _ _, e⟩
      · exact Or.inl e
      · rcases ih c e with h1 | ⟨z, hz, hcz⟩
        · exact Or.inl h1
        · exact Or.inr ⟨z, List.mem_cons_of_mem _ hz, hcz⟩

theorem join_ends (sep : Char) (segs : List Str) (hne : segs ≠ [])
    (h : ∀ x ∈ segs, x ≠ []) :
    ∃ a c, join sep segs = a ++ [c] ∧ ∃ x ∈ segs, c ∈ x := by
  induction segs with
  | nil => exact absurd rfl hne
  | cons x xs ih =>
    cases xs with
    | nil =>
      have hx := h x (List.mem_cons_self _ _)
      refine ⟨x.dropLast, x.getLast hx, ?_, x, List.mem_cons_self _ _, List.getLast_mem hx⟩
      simp [join, List.dropLast_append_getLast]
    | cons y ys =>
      obtain ⟨a, c, e, z, hz, hcz⟩ := ih (List.cons_ne_nil _ _)
        (fun z hz => h z (List.mem_cons_of_mem _ hz))
      refine ⟨x ++ sep :: a, c, ?_, z, List.mem_cons_of_mem _ hz, hcz⟩
      simp only [join] at e ⊢
      rw [e]
      simp

theorem goodSegments_chars {segs : List Str} (h : GoodSegments segs) :
    ∀ c ∈ join '/' segs, isPathChar c = true := by
  intro c hc
  rcases mem_join '/' segs c hc with e | ⟨x, hx, hcx⟩
  · subst e
    rfl
  · exact ((h.2 x hx).2 c hcx).1

theorem goodSegments_no_sep {segs : List Str} (h : GoodSegments segs) :
    ∀ x ∈ segs, '/' ∉ x :=
  fun x hx hm => ((h.2 x hx).2 '/' hm).2 rfl

theorem goodSegments_toLower {segs : List Str} (h : GoodSegments segs) :
    GoodSegments (segs.map toLower) := by
  refine ⟨by simpa using h.1, ?_⟩
  intro y hy
  obtain ⟨x, hx, rfl⟩ := List.mem_map.1 hy
  obtain ⟨hne, hc⟩ := h.2 x hx
  refine ⟨by simpa [toLower] using hne, ?_⟩
  intro c hcm
  obtain ⟨a, ha, rfl⟩ := List.mem_map.1 hcm
  have hasc := (ascii_of_classes a).2.1 (hc a ha).1
  refine ⟨by rw [(lowerRune_classes a hasc).2.2.2.2.2.1]; exact (hc a ha).1, ?_⟩
  intro e
  exact (hc a ha).2 ((lowerRune_delims a hasc).2.1.1 e)

theorem goodSegments_insert {segs : List Str} (h : GoodSegments segs) (k : Nat)
    (ins : List Str) (hins : ∀ x ∈ ins, x ≠ [] ∧ ∀ c ∈ x, isPathChar c = true ∧ c ≠ '/')
    (hne : ins ≠ []) :
    GoodSegments (segs.take k ++ ins ++ segs.drop k) := by
  refine ⟨by simp [hne], ?_⟩
  intro x hx
  simp only [List.mem_append] at hx
  rcases hx with (hx | hx) | hx
  · exact h.2 x (List.mem_of_mem_take hx)
  · exact hins x hx
  · exact h.2 x (List.mem_of_mem_drop hx)

theorem trimPath_join {segs : List Str} (h : GoodSegments segs) :
    trimPath (join '/' segs) = some (join '/' segs) := by
  obtain ⟨a, c, e, x, hx, hcx⟩ := join_ends '/' segs h.1 (fun x hx => (h.2 x hx).1)
  have hc := (h.2 x hx).2 c hcx
  have hcut : ¬ (['?', '/'].elem c = true) := by
    intro hcut
    have : c = '?' ∨ c = '/' := by
      by_cases e1 : c = '?'
      · exact Or.inl e1
      · by_cases e2 : c = '/'
        · exact Or.inr e2
        · simp [e1, e2] at hcut
    rcases this with e1 | e1
    · subst e1
      exact absurd hc.1 (by decide)
    · exact hc.2 e1
  unfold trimPath trimRight
  rw [e]
  have e2 : ('/' :: (a ++ [c])).rdropWhile (fun c => ['?', '/'].elem c) = ('/' :: a) ++ [c] :=
    List.rdropWhile_concat_neg (fun c => ['?', '/'].elem c) ('/' :: a) c hcut
  rw [e2]
  rfl

theorem trimParsed_set_path (X : Parsed) (t : Str) (ht : trimPath t = some t) :
    trimParsed { X with path := some t } = { trimParsed X with path := some t } := by
  unfold trimParsed
  simp only
  split
  · rfl
  · split
    · rfl
    · simp [ht]

theorem canonical_congr_path (Q : Parsed) (t t' : Str) (hQ : Q.path = some t)
    (hwalk : ∀ r, walkFiles (split '/' t') r = walkFiles (split '/' t) r) :
    canonical { Q with path := some t' } = canonical Q := by
  rw [canonical_eq, canonical_eq]
  have e : startOf { Q with path := some t' } = startOf Q := rfl
  rw [e, hQ]
  simp only
  rw [walkPath_capture, walkPath_capture]
  simp only [hwalk]

theorem trimParsed_path_of_fixed (X : Parsed) (t : Str) (hX : X.path = some t)
    (ht : trimPath t = some t) : (trimParsed X).path = some t := by
  rcases trimParsed_path X with e | e
  · rw [e, hX]
  · rw [e, hX]
    exact ht

/-- The canonical string does not change when the path of an accepted URL, made of good
segments, is replaced by another path of good segments on which the walk over the
lower-cased segments ends in the same string. -/
theorem normalize_congr_segments (u : Str) (p : Parsed) (segs segs' : List Str)
    (h : urlRegex u = some p) (hp : p.path = some (join '/' segs))
    (hg : GoodSegments segs) (hg' : GoodSegments segs')
    (hwalk : ∀ r, walkFiles (segs'.map toLower) r = walkFiles (segs.map toLower) r) :
    MatchString (render { p with path := some (join '/' segs') }) = true ∧
    normalize (render { p with path := some (join '/' segs') }) = normalize u := by
  obtain ⟨_, hw⟩ := render_of_urlRegex u p h
  have hw' : WellFormed { p with path := some (join '/' segs') } :=
    { scheme := hw.scheme
      domainChars := hw.domainChars
      domain := hw.domain
      port := hw.port
      path := by
        intro t ht
        simp only [Option.some.injEq] at ht
        subst ht
        exact goodSegments_chars hg'
      query := hw.query
      fragment := hw.fragment }
  refine ⟨matchString_render _ hw', ?_⟩
  rw [(normalize_of_urlRegex _ _ (urlRegex_render _ hw')).1, (normalize_of_urlRegex u p h).1]
  have hl : lowerRune '/' = '/' := by decide
  have e : lowerParsed { p with path := some (join '/' segs') } =
      { lowerParsed p with path := some (join '/' (segs'.map toLower)) } := by
    simp only [lowerParsed, Option.map_some', toLower_join '/' hl]
  have hlp : (lowerParsed p).path = some (join '/' (segs.map toLower)) := by
    simp only [lowerParsed, hp, Option.map_some', toLower_join '/' hl]
  have g := goodSegments_toLower hg
  have g' := goodSegments_toLower hg'
  rw [e, trimParsed_set_path _ _ (trimPath_join g')]
  apply canonical_congr_path _ _ _ (trimParsed_path_of_fixed _ _ hlp (trimPath_join g))
  intro r
  rw [split_join '/' _ g'.1 (goodSegments_no_sep g'), split_join '/' _ g.1 (goodSegments_no_sep g)]
  exact hwalk r

/-- Inserted dot segments change nothing: for an accepted URL whose path is made of
non-empty segments, the URL with a `.` segment inserted at any position `k` of the path,
and the URL with a pair of segments `s`, `..` inserted at any position `k` (`s` non-empty,
other than `.` and `..`), are accepted and have the same result of `normalize` (a panic on
both, or the same string). -/
theorem dot_segment_resolution (u : Str) (p : Parsed) (segs : List Str) (k : Nat) (s : Str)
    (h : urlRegex u = some p) (hp : p.path = some (join '/' segs)) (hg : GoodSegments segs)
    (hs : s ≠ [] ∧ s ≠ ['.'] ∧ s ≠ ['.', '.'] ∧ ∀ c ∈ s, isPathChar c = true ∧ c ≠ '/') :
    (MatchString (render { p with
        path := some (join '/' (segs.take k ++ [['.']] ++ segs.drop k)) }) = true ∧
      normalize (render { p with
        path := some (join '/' (segs.take k ++ [['.']] ++ segs.drop k)) }) = normalize u) ∧
    (MatchString (render { p with
        path := some (join '/' (segs.take k ++ [s, ['.', '.']] ++ segs.drop k)) }) = true ∧
      normalize (render { p with
        path := some (join '/' (segs.take k ++ [s, ['.', '.']] ++ segs.drop k)) }) =
        normalize u) := by
  have hdot : ∀ x ∈ [['.']], x ≠ [] ∧ ∀ c ∈ x, isPathChar c = true ∧ c ≠ '/' := by decide
  have hpair : ∀ x ∈ [s, ['.', '.']], x ≠ [] ∧ ∀ c ∈ x, isPathChar c = true ∧ c ≠ '/' := by
    intro x hx
    simp only [List.mem_cons, List.mem_singleton, List.not_mem_nil, or_false] at hx
    rcases hx with e | e
    · subst e
      exact ⟨hs.1, hs.2.2.2⟩
    · subst e
      decide
  have hasc : IsASCII s := fun c hc => (ascii_of_classes c).2.1 (hs.2.2.2 c hc).1
  constructor
  · apply normalize_congr_segments u p segs _ h hp hg
      (goodSegments_insert hg k _ hdot (by simp))
    intro r
    have e : (segs.take k ++ [['.']] ++ segs.drop k).map toLower =
        (segs.map toLower).take k ++ [['.']] ++ (segs.map toLower).drop k := by
      simp only [List.map_append, List.map_take, List.map_drop]
      rfl
    rw [e, walkFiles_insert_dot]
  · apply normalize_congr_segments u p segs _ h hp hg
      (goodSegments_insert hg k _ hpair (by simp))
    intro r
    have e : (segs.take k ++ [s, ['.', '.']] ++ segs.drop k).map toLower =
        (segs.map toLower).take k ++ [toLower s, ['.', '.']] ++ (segs.map toLower).drop k := by
      simp only [List.map_append, List.map_take, List.map_drop]
      rfl
    rw [e, walkFiles_insert_seg_dotdot]
    · exact fun e1 => hs.2.1 ((toLower_eq_dots s hasc).2.1 e1)
    · exact fun e1 => hs.2.2.1 ((toLower_eq_dots s hasc).1.1 e1)
    · intro hm
      obtain ⟨a, ha, e1⟩ := List.mem_map.1 hm
      exact (hs.2.2.2 a ha).2 ((lowerRune_delims a (hasc a ha)).2.1.1 e1)

/-- The statement `dot_segment_resolution` on `https://example.com/foo/bar/qux`, with `.`
and with `baz`, `..` inserted after `bar`. -/
theorem dot_segment_resolution_witness :
    (MatchString "https://example.com/foo/bar/./qux".toList = true ∧
      normalize "https://example.com/foo/bar/./qux".toList =
        normalize "https://example.com/foo/bar/qux".toList) ∧
    (MatchString "https://example.com/foo/bar/baz/../qux".toList = true ∧
      normalize "https://example.com/foo/bar/baz/../qux".toList =
        normalize "https://example.com/foo/bar/qux".toList) :=
  dot_segment_resolution "https://example.com/foo/bar/qux".toList
    ⟨some "https".toList, "example.com".toList, none, some "foo/bar/qux".toList, none, none⟩
    ["foo".toList, "bar".toList, "qux".toList] 2 "baz".toList (by decide) rfl
    ⟨by decide, by decide⟩ (by decide)

/-! ### The percent-encoding loop -/

theorem replaceFirst_length_same (old new : Str) (s : Str) (h : new.length = old.length) :
    (replaceFirst old new s).length = s.length := by
  induction s with
  | nil => rfl
  | cons c cs ih =>
    unfold replaceFirst
    split
    · rename_i ht
      have hle : old.length ≤ (c :: cs).length := by
        have := congrArg List.length ht
        rw [List.length_take] at this
        omega
      rw [List.length_append, List.length_drop, h]
      omega
    · simp [ih]

theorem replaceFirst_length_occurs (o : Char) (os new : Str) (a b : Str) :
    (replaceFirst (o :: os) new (a ++ (o :: os) ++ b)).length + (o :: os).length =
      (a ++ (o :: os) ++ b).length + new.length := by
  induction a with
  | nil =>
    simp only [List.nil_append, List.cons_append]
    unfold replaceFirst
    rw [if_pos (by simp)]
    simp
    omega
  | cons x xs ih =>
    simp only [List.cons_append]
    unfold replaceFirst
    split
    · rw [List.length_append, List.length_drop]
      simp only [List.length_cons, List.length_append]
      omega
    · simp only [List.length_cons]
      simp only [List.append_assoc, List.cons_append, List.length_cons] at ih ⊢
      omega

theorem take_drop_decomp (s : Str) (i n : Nat) :
    s = s.take i ++ (s.drop i).take n ++ s.drop (i + n) := by
  rw [List.append_assoc]
  conv_lhs => rw [← List.take_append_drop i s]
  congr 1
  conv_lhs => rw [← List.take_append_drop n (s.drop i)]
  rw [List.drop_drop]

/-- Enough fuel: once the fuel covers the distance to the end of the string the loop has
run to its exit, and more fuel gives the same result. -/
theorem percentLoop_fuel_stable (fuel : Nat) :
    ∀ (extra i : Nat) (s : Str), s.length ≤ i + fuel →
      percentLoop (fuel + extra) i s = percentLoop fuel i s := by
  induction fuel with
  | zero =>
    intro extra i s h
    cases extra with
    | zero => rfl
    | succ e =>
      have : ¬ i < s.length := by omega
      simp [percentLoop, this]
  | succ f ih =>
    intro extra i s h
    have e : f + 1 + extra = (f + extra) + 1 := by omega
    rw [e]
    unfold percentLoop
    split
    · rename_i hi
      split
      · rename_i hc
        split
        · rename_i val hval
          apply ih
          have hocc := take_drop_decomp s i 3
          have hlen : ((s.drop i).take 3).length = 3 := by
            rw [List.length_take, List.length_drop]
            omega
          obtain ⟨o, os, hos⟩ : ∃ o os, (s.drop i).take 3 = o :: os := by
            cases hh : (s.drop i).take 3 with
            | nil => rw [hh] at hlen; cases hlen
            | cons o os => exact ⟨o, os, rfl⟩
          have := replaceFirst_length_occurs o os [val] (s.take i) (s.drop (i + 3))
          rw [← hos, ← hocc, hlen] at this
          simp only [List.length_singleton] at this
          omega
        · apply ih
          rw [replaceFirst_length_same _ _ _ (by simp [toUpper])]
          omega
      · apply ih
        omega
    · rfl

theorem getD_append_length (L : Str) (c : Char) (R : Str) (d : Char) :
    (L ++ c :: R).getD L.length d = c := by
  induction L with
  | nil => rfl
  | cons x xs ih => simpa using ih

theorem getD_append_left (L T : Str) (i : Nat) (d : Char) (h : i < L.length) :
    (L ++ T).getD i d = L.getD i d := by
  induction L generalizing i with
  | nil => cases h
  | cons x xs ih =>
    cases i with
    | zero => rfl
    | succ j => simpa using ih j (by simpa using h)

theorem getD_mem (L : Str) (i : Nat) (d : Char) (h : i < L.length) : L.getD i d ∈ L := by
  induction L generalizing i with
  | nil => cases h
  | cons x xs ih =>
    cases i with
    | zero => simp
    | succ j =>
      have := ih j (by simpa using h)
      simpa using Or.inr this

theorem percentLoop_succ (fuel i : Nat) (partResult : Str) :
    percentLoop (fuel + 1) i partResult =
      if i < partResult.length then
        if partResult.getD i ' ' = '%' ∧ i + 2 < partResult.length then
          match reservedCharacters ((partResult.drop (i + 1)).take 2) with
          | some val =>
            percentLoop fuel i (replaceFirst ((partResult.drop i).take 3) [val] partResult)
          | none =>
            percentLoop fuel (i + 1)
              (replaceFirst ((partResult.drop (i + 1)).take 2)
                (toUpper ((partResult.drop (i + 1)).take 2)) partResult)
        else percentLoop fuel (i + 1) partResult
      else partResult := rfl

/-- The loop walks over a stretch without `%` and changes nothing. -/
theorem percentLoop_skip (L T : Str) (hL : '%' ∉ L) (fuel : Nat) :
    ∀ k i : Nat, i + k = L.length →
      percentLoop (fuel + k) i (L ++ T) = percentLoop fuel L.length (L ++ T) := by
  intro k
  induction k with
  | zero =>
    intro i hi
    simp only [Nat.add_zero] at hi ⊢
    rw [hi]
  | succ k ih =>
    intro i hi
    have e : fuel + (k + 1) = (fuel + k) + 1 := by omega
    rw [e, percentLoop_succ]
    have hlt : i < (L ++ T).length := by
      rw [List.length_append]
      omega
    rw [if_pos hlt]
    have hne : ¬ ((L ++ T).getD i ' ' = '%' ∧ i + 2 < (L ++ T).length) := by
      rintro ⟨h1, _⟩
      rw [getD_append_left L T i ' ' (by omega)] at h1
      exact hL (h1 ▸ getD_mem L i ' ' (by omega))
    rw [if_neg hne]
    exact ih (i + 1) (by omega)

theorem replaceFirst_at (o : Char) (os new L R : Str) (hL : o ∉ L) :
    replaceFirst (o :: os) new (L ++ (o :: os) ++ R) = L ++ new ++ R := by
  induction L with
  | nil =>
    simp only [List.nil_append, List.cons_append]
    unfold replaceFirst
    rw [if_pos (by simp)]
    simp
  | cons x xs ih =>
    have hx : x ≠ o := fun e => hL (e ▸ List.mem_cons_self _ _)
    simp only [List.cons_append]
    unfold replaceFirst
    rw [if_neg]
    · simp only [List.cons_append, List.append_assoc] at ih ⊢
      rw [ih (fun e => hL (List.mem_cons_of_mem _ e))]
    · intro e
      simp only [List.length_cons, List.take_succ_cons, List.cons.injEq] at e
      exact hx e.1

/-- One decoding step at the first `%` of the string. -/
theorem percentLoop_decode (L R : Str) (x y v : Char) (hL : '%' ∉ L)
    (hk : reservedCharacters [x, y] = some v) (fuel : Nat) :
    percentLoop (fuel + 1) L.length (L ++ '%' :: x :: y :: R) =
      percentLoop fuel L.length (L ++ v :: R) := by
  rw [percentLoop_succ]
  have hlt : L.length < (L ++ '%' :: x :: y :: R).length := by simp
  have hc : (L ++ '%' :: x :: y :: R).getD L.length ' ' = '%' ∧
      L.length + 2 < (L ++ '%' :: x :: y :: R).length :=
    ⟨getD_append_length _ _ _ _, by simp⟩
  have d1 : ((L ++ '%' :: x :: y :: R).drop (L.length + 1)).take 2 = [x, y] := by
    have : (L ++ '%' :: x :: y :: R) = (L ++ ['%']) ++ x :: y :: R := by simp
    rw [this, List.drop_left' (by simp)]
    rfl
  have d3 : ((L ++ '%' :: x :: y :: R).drop L.length).take 3 = ['%', x, y] := by
    rw [List.drop_left' rfl]
    rfl
  rw [if_pos hlt, if_pos hc, d1, d3, hk]
  have := replaceFirst_at '%' [x, y] [v] L R hL
  simp only [List.append_assoc, List.cons_append, List.nil_append] at this
  simp only [this]

/-- One step of the loop at a character other than `%`. -/
theorem percentLoop_advance (s : Str) (i : Nat) (h : s.getD i ' ' ≠ '%') (fuel : Nat) :
    percentLoop (fuel + 1) i s = percentLoop fuel (i + 1) s ∨ ¬ i < s.length := by
  by_cases hi : i < s.length
  · left
    rw [percentLoop_succ, if_pos hi, if_neg (fun hh => h hh.1)]
  · exact Or.inr hi

/-- The loop gives the same string on `L ++ "%25" ++ R` as on `L ++ "%" ++ R` when `L` has
no `%`. -/
theorem percentLoop_nested (L R : Str) (hL : '%' ∉ L) :
    percentLoop (L ++ '%' :: '2' :: '5' :: R).length 0 (L ++ '%' :: '2' :: '5' :: R) =
      percentLoop (L ++ '%' :: R).length 0 (L ++ '%' :: R) := by
  have e1 : (L ++ '%' :: '2' :: '5' :: R).length = (R.length + 3) + L.length := by
    simp
    omega
  have e2 : (L ++ '%' :: R).length = (R.length + 1) + L.length := by
    simp
    omega
  rw [e1, e2, percentLoop_skip L _ hL _ L.length 0 (by omega),
    percentLoop_skip L _ hL _ L.length 0 (by omega),
    percentLoop_decode L R '2' '5' '%' hL (by decide) (R.length + 2)]
  exact percentLoop_fuel_stable (R.length + 1) 1 L.length _ (by simp)

/-- The loop gives the same string on `L ++ "%xy" ++ R` as on `L ++ c ++ R` when `xy` is
the code of `c`, `c` is not `%`, and `L` has no `%`. -/
theorem percentLoop_reserved (L R : Str) (x y c : Char) (hL : '%' ∉ L)
    (hk : reservedCharacters [x, y] = some c) (hc : c ≠ '%') :
    percentLoop (L ++ '%' :: x :: y :: R).length 0 (L ++ '%' :: x :: y :: R) =
      percentLoop (L ++ c :: R).length 0 (L ++ c :: R) := by
  have e1 : (L ++ '%' :: x :: y :: R).length = (R.length + 3) + L.length := by
    simp
    omega
  have e2 : (L ++ c :: R).length = (R.length + 1) + L.length := by
    simp
    omega
  rw [e1, e2, percentLoop_skip L _ hL _ L.length 0 (by omega),
    percentLoop_skip L _ hL _ L.length 0 (by omega),
    percentLoop_decode L R x y c hL hk (R.length + 2)]
  have hg : (L ++ c :: R).getD L.length ' ' ≠ '%' := by
    rw [getD_append_length]
    exact hc
  rcases percentLoop_advance (L ++ c :: R) L.length hg (R.length + 1) with h1 | h1
  · rcases percentLoop_advance (L ++ c :: R) L.length hg R.length with h2 | h2
    · rw [h1, h2]
      exact percentLoop_fuel_stable R.length 1 (L.length + 1) _ (by simp; try omega)
    · exact absurd (by simp) h2
  · exact absurd (by simp) h1

/-! ### A change inside one path segment or inside the query -/

theorem walkFiles_no_dotdot_chars (files : List Str) (h : ['.', '.'] ∉ files) :
    ∃ out, (∀ r, walkFiles files r = some (r ++ out)) ∧
      ∀ c ∈ out, c = '/' ∨ ∃ f ∈ files, c ∈ f := by
  induction files with
  | nil => exact ⟨[], fun r => by simp [walkFiles], by simp⟩
  | cons f fs ih =>
    obtain ⟨out, hout, hch⟩ := ih (fun e => h (List.mem_cons_of_mem _ e))
    have hf : f ≠ ['.', '.'] := fun e => h (e ▸ List.mem_cons_self _ _)
    by_cases h1 : f = ['.']
    · refine ⟨out, fun r => by simp [walkFiles, h1, hout], ?_⟩
      intro c hc
      rcases hch c hc with e | ⟨g, hg, hcg⟩
      · exact Or.inl e
      · exact Or.inr ⟨g, List.mem_cons_of_mem _ hg, hcg⟩
    · refine ⟨'/' :: f ++ out, fun r => by simp [walkFiles, h1, hf, hout], ?_⟩
      intro c hc
      simp only [List.cons_append, List.mem_cons, List.mem_append] at hc
      rcases hc with e | e | e
      · exact Or.inl e
      · exact Or.inr ⟨f, List.mem_cons_self _ _, e⟩
      · rcases hch c e with e' | ⟨g, hg, hcg⟩
        · exact Or.inl e'
        · exact Or.inr ⟨g, List.mem_cons_of_mem _ hg, hcg⟩

theorem split_append_nosep (sep : Char) (m B : Str) (hm : sep ∉ m) :
    split sep (m ++ B) = (m ++ (split sep B).headD []) :: (split sep B).tail := by
  induction m with
  | nil =>
    cases hsp : split sep B with
    | nil => exact absurd hsp (split_ne_nil _ _)
    | cons h t => simp [hsp]
  | cons x xs ih =>
    have hx : x ≠ sep := fun e => hm (e ▸ List.mem_cons_self _ _)
    simp [split, hx, ih (fun e => hm (List.mem_cons_of_mem _ e))]

/-- The segments of a path around a stretch `x` without slash: the segment that contains
`x` is `a ++ x ++ b`, and the other segments, `a` and `b` do not depend on `x`. -/
theorem split_insert (A B : Str) :
    ∃ (S1 : List Str) (a b : Str) (S2 : List Str),
      (∀ x : Str, '/' ∉ x → split '/' (A ++ x ++ B) = S1 ++ [a ++ x ++ b] ++ S2) ∧
      (∀ s ∈ S1, ∀ c ∈ s, c ∈ A) ∧ (∀ c ∈ a, c ∈ A) := by
  induction A with
  | nil =>
    refine ⟨[], [], (split '/' B).headD [], (split '/' B).tail, ?_, by simp, by simp⟩
    intro x hx
    simp [split_append_nosep '/' x B hx]
  | cons y ys ih =>
    obtain ⟨S1, a, b, S2, hsp, h1, h2⟩ := ih
    by_cases hy : y = '/'
    · refine ⟨[] :: S1, a, b, S2, ?_, ?_, fun c hc => List.mem_cons_of_mem _ (h2 c hc)⟩
      · intro x hx
        have := hsp x hx
        simp only [List.append_assoc] at this
        simp [split, hy, this]
      · intro s hs c hc
        rcases List.mem_cons.1 hs with e | e
        · subst e
          cases hc
        · exact List.mem_cons_of_mem _ (h1 s e c hc)
    · cases S1 with
      | nil =>
        refine ⟨[], y :: a, b, S2, ?_, by simp, ?_⟩
        · intro x hx
          have := hsp x hx
          simp only [List.append_assoc] at this
          simp [split, hy, this]
        · intro c hc
          rcases List.mem_cons.1 hc with e | e
          · exact e ▸ List.mem_cons_self _ _
          · exact List.mem_cons_of_mem _ (h2 c e)
      | cons s0 S1' =>
        refine ⟨(y :: s0) :: S1', a, b, S2, ?_, ?_, fun c hc => List.mem_cons_of_mem _ (h2 c hc)⟩
        · intro x hx
          have := hsp x hx
          simp only [List.append_assoc] at this
          simp [split, hy, this]
        · intro s hs c hc
          rcases List.mem_cons.1 hs with e | e
          · subst e
            rcases List.mem_cons.1 hc with e2 | e2
            · exact e2 ▸ List.mem_cons_self _ _
            · exact List.mem_cons_of_mem _ (h1 s0 (List.mem_cons_self _ _) c e2)
          · exact List.mem_cons_of_mem _ (h1 s (List.mem_cons_of_mem _ e) c hc)

theorem join_split (sep : Char) (s : Str) : join sep (split sep s) = s := by
  induction s with
  | nil => rfl
  | cons c cs ih =>
    cases hsp : split sep cs with
    | nil => exact absurd hsp (split_ne_nil _ _)
    | cons h t =>
      rw [hsp] at ih
      by_cases hc : c = sep
      · simp [split, hc, hsp, join, ih]
      · cases t with
        | nil =>
          simp only [join] at ih
          simp [split, hc, hsp, join, ih]
        | cons t0 ts =>
          simp only [join] at ih
          simp [split, hc, hsp, join, ih]

theorem walkFiles_single (seg r : Str) (h1 : seg ≠ ['.']) (h2 : seg ≠ ['.', '.']) :
    walkFiles [seg] r = some (r ++ '/' :: seg) := by
  simp [walkFiles, h1, h2]

theorem not_dots_of_mem (a x b : Str) (h : ∃ c ∈ x, c ≠ '.') :
    a ++ x ++ b ≠ ['.'] ∧ a ++ x ++ b ≠ ['.', '.'] := by
  obtain ⟨c, hc, hne⟩ := h
  have hmem : c ∈ a ++ x ++ b := by simp [hc]
  constructor
  · intro e
    rw [e] at hmem
    simp at hmem
    exact hne hmem
  · intro e
    rw [e] at hmem
    simp at hmem
    exact hne hmem

/-- The walk over a path without `..` around a stretch `x` inside one segment: the string
written is `L ++ x ++ R` with `L` and `R` independent of `x`. -/
theorem path_form (A B m : Str) (hm : '/' ∉ m)
    (hdd : ['.', '.'] ∉ split '/' (A ++ m ++ B)) :
    ∃ L R, (∀ c ∈ L, c = '/' ∨ c ∈ A) ∧
      ∀ x : Str, '/' ∉ x → (∃ c ∈ x, c ≠ '.') →
        ∀ r, walkFiles (split '/' (A ++ x ++ B)) r = some (r ++ L ++ x ++ R) := by
  obtain ⟨S1, a, b, S2, hsp, h1, h2⟩ := split_insert A B
  rw [hsp m hm] at hdd
  have d1 : ['.', '.'] ∉ S1 := fun e => hdd (by simp [e])
  have d2 : ['.', '.'] ∉ S2 := fun e => hdd (by simp [e])
  obtain ⟨o1, ho1, hc1⟩ := walkFiles_no_dotdot_chars S1 d1
  obtain ⟨o2, ho2, _⟩ := walkFiles_no_dotdot_chars S2 d2
  refine ⟨o1 ++ '/' :: a, b ++ o2, ?_, ?_⟩
  · intro c hc
    simp only [List.mem_append, List.mem_cons] at hc
    rcases hc with e | e | e
    · rcases hc1 c e with e' | ⟨f, hf, hcf⟩
      · exact Or.inl e'
      · exact Or.inr (h1 f hf c hcf)
    · exact Or.inl e
    · exact Or.inr (h2 c e)
  · intro x hx hxd r
    obtain ⟨n1, n2⟩ := not_dots_of_mem a x b hxd
    rw [hsp x hx, walkFiles_append, walkFiles_append, ho1]
    show (walkFiles [a ++ x ++ b] (r ++ o1)).bind (walkFiles S2) = _
    rw [walkFiles_single _ _ n1 n2]
    show walkFiles S2 (r ++ o1 ++ '/' :: (a ++ x ++ b)) = _
    rw [ho2]
    simp

theorem canonical_path_subst (Q : Parsed) (A B m m' : Str)
    (hQ : Q.path = some (A ++ m ++ B))
    (hdd : ['.', '.'] ∉ split '/' (A ++ m ++ B))
    (hm : '/' ∉ m) (hm' : '/' ∉ m') (hmd : ∃ c ∈ m, c ≠ '.') (hmd' : ∃ c ∈ m', c ≠ '.')
    (hA : '%' ∉ A)
    (hloop : ∀ L R : Str, '%' ∉ L →
      percentLoop (L ++ m' ++ R).length 0 (L ++ m' ++ R) =
        percentLoop (L ++ m ++ R).length 0 (L ++ m ++ R)) :
    canonical { Q with path := some (A ++ m' ++ B) } = canonical Q := by
  obtain ⟨L, R, hL, hw⟩ := path_form A B m hm hdd
  have hLp : '%' ∉ L := by
    intro e
    rcases hL '%' e with e' | e'
    · exact absurd e' (by decide)
    · exact hA e'
  rw [canonical_eq, canonical_eq]
  have e : startOf { Q with path := some (A ++ m' ++ B) } = startOf Q := rfl
  rw [e, hQ]
  simp only
  rw [walkPath_capture, walkPath_capture]
  simp only
  rw [hw m hm hmd, hw m' hm' hmd']
  show finish _ (withQuery _ _) = finish _ (withQuery _ _)
  rw [withQuery_append, withQuery_append (startOf Q ++ L ++ m ++ R)]
  have r1 : startOf Q ++ L ++ m' ++ R ++ withQuery [] (capture [] Q.query) =
      startOf Q ++ (L ++ m' ++ (R ++ withQuery [] (capture [] Q.query))) := by simp
  have r2 : startOf Q ++ L ++ m ++ R ++ withQuery [] (capture [] Q.query) =
      startOf Q ++ (L ++ m ++ (R ++ withQuery [] (capture [] Q.query))) := by simp
  rw [r1, r2, finish_append, finish_append, hloop L _ hLp]

theorem withQuery_sorted (w q : Str) (hne : q ≠ [])
    (hs : sortStrings (split '&' q) = split '&' q) : withQuery w q = w ++ '?' :: q := by
  unfold withQuery
  rw [if_pos hne, hs, join_split]

theorem canonical_query_subst (Q : Parsed) (A B m m' : Str)
    (hQ : Q.query = some (A ++ m ++ B))
    (hpd : ∀ t, Q.path = some t → ['.', '.'] ∉ split '/' t ∧ '%' ∉ t)
    (hne : m ≠ []) (hne' : m' ≠ []) (hA : '%' ∉ A)
    (hs : sortStrings (split '&' (A ++ m ++ B)) = split '&' (A ++ m ++ B))
    (hs' : sortStrings (split '&' (A ++ m' ++ B)) = split '&' (A ++ m' ++ B))
    (hloop : ∀ L R : Str, '%' ∉ L →
      percentLoop (L ++ m' ++ R).length 0 (L ++ m' ++ R) =
        percentLoop (L ++ m ++ R).length 0 (L ++ m ++ R)) :
    canonical { Q with query := some (A ++ m' ++ B) } = canonical Q := by
  have hout : ∃ out, (∀ r, walkPath (capture ['/'] Q.path) r = some (r ++ out)) ∧ '%' ∉ out := by
    cases hp : Q.path with
    | none => exact ⟨[], fun r => by simp [walkPath_capture], by simp⟩
    | some t =>
      obtain ⟨hd, hpc⟩ := hpd t hp
      obtain ⟨out, ho, hc⟩ := walkFiles_no_dotdot_chars (split '/' t) hd
      refine ⟨out, fun r => by rw [walkPath_capture]; exact ho r, ?_⟩
      intro e
      rcases hc '%' e with e' | ⟨f, hf, hcf⟩
      · exact absurd e' (by decide)
      · exact hpc (mem_of_mem_split '/' t f hf '%' hcf)
  obtain ⟨out, ho, hop⟩ := hout
  rw [canonical_eq, canonical_eq]
  have e : startOf { Q with query := some (A ++ m' ++ B) } = startOf Q := rfl
  rw [e, hQ]
  simp only
  rw [ho]
  show finish _ (withQuery _ (A ++ m' ++ B)) = finish _ (withQuery _ (A ++ m ++ B))
  rw [withQuery_sorted _ _ (by simp [hne']) hs', withQuery_sorted _ _ (by simp [hne]) hs]
  have r1 : startOf Q ++ out ++ '?' :: (A ++ m' ++ B) =
      startOf Q ++ ((out ++ '?' :: A) ++ m' ++ B) := by simp
  have r2 : startOf Q ++ out ++ '?' :: (A ++ m ++ B) =
      startOf Q ++ ((out ++ '?' :: A) ++ m ++ B) := by simp
  rw [r1, r2, finish_append, finish_append, hloop (out ++ '?' :: A) B]
  intro e
  simp only [List.mem_append, List.mem_cons] at e
  rcases e with e | e | e
  · exact hop e
  · exact absurd e (by decide)
  · exact hA e

theorem trimPath_subst (A B x : Str) (hne : x ≠ [])
    (hx : ∀ c ∈ x, ['?', '/'].elem c = false) :
    trimPath (A ++ x ++ B) = some (A ++ x ++ B.rdropWhile (fun c => ['?', '/'].elem c)) := by
  have hk : (('/' :: A) ++ x).rdropWhile (fun c => ['?', '/'].elem c) = ('/' :: A) ++ x :=
    rdropWhile_append_keep _ _ _ hne hx
  have key : trimRight ['?', '/'] ('/' :: (A ++ x ++ B)) =
      '/' :: (A ++ x ++ B.rdropWhile (fun c => ['?', '/'].elem c)) := by
    have e : '/' :: (A ++ x ++ B) = (('/' :: A) ++ x) ++ B := by simp
    unfold trimRight
    rw [e, rdropWhile_append]
    split
    · rename_i hnil
      rw [hk, hnil]
      simp
    · simp
  unfold trimPath
  rw [key]

theorem trimParsed_path_subst (X : Parsed) (A B m m' : Str) (hX : X.path = some (A ++ m ++ B))
    (hne : m ≠ []) (hm : ∀ c ∈ m, ['?', '/'].elem c = false)
    (hne' : m' ≠ []) (hm' : ∀ c ∈ m', ['?', '/'].elem c = false) :
    ∃ B', (trimParsed X).path = some (A ++ m ++ B') ∧
      trimParsed { X with path := some (A ++ m' ++ B) } =
        { trimParsed X with path := some (A ++ m' ++ B') } := by
  unfold trimParsed
  by_cases hf : X.fragment.isSome = true
  · refine ⟨B, ?_, ?_⟩
    · rw [if_pos hf]
      exact hX
    · rw [if_pos hf, if_pos hf]
  · by_cases hq : X.query.getD [] ≠ []
    · refine ⟨B, ?_, ?_⟩
      · rw [if_neg hf, if_pos hq]
        exact hX
      · rw [if_neg hf, if_pos hq, if_neg hf, if_pos hq]
    · refine ⟨B.rdropWhile (fun c => ['?', '/'].elem c), ?_, ?_⟩
      · rw [if_neg hf, if_neg hq]
        show X.path.bind trimPath = _
        rw [hX]
        exact trimPath_subst A B m hne hm
      · rw [if_neg hf, if_neg hq, if_neg hf, if_neg hq]
        show ({ X with query := none, path := trimPath (A ++ m' ++ B) } : Parsed) = _
        rw [trimPath_subst A B m' hne' hm']

theorem toLower_append (a b : Str) : toLower (a ++ b) = toLower a ++ toLower b := by
  simp [toLower]

theorem percent_not_mem_toLower (A : Str) (h : IsASCII A) (hA : '%' ∉ A) : '%' ∉ toLower A := by
  intro e
  obtain ⟨c, hc, e1⟩ := List.mem_map.1 e
  exact hA ((lowerRune_delims c (h c hc)).2.2.2.2.2.2.1 e1 ▸ hc)

theorem isASCII_of_path {x : Str} (h : ∀ c ∈ x, isPathChar c = true) : IsASCII x :=
  fun c hc => (ascii_of_classes c).2.1 (h c hc)

theorem isASCII_of_query {x : Str} (h : ∀ c ∈ x, isQueryChar c = true) : IsASCII x :=
  fun c hc => (ascii_of_classes c).2.2.1 (h c hc)

/-- A change of a stretch `m` of one path segment into `m'`, with no `%` before it and no
`..` in the path, does not change the result of `normalize` when the loop gives the same
string on the two lower-cased stretches. -/
theorem normalize_path_subst (u : Str) (p : Parsed) (A B m m' : Str)
    (h : urlRegex u = some p) (hp : p.path = some (A ++ m ++ B))
    (hdd : ['.', '.'] ∉ split '/' (A ++ m ++ B)) (hA : '%' ∉ A)
    (hne : m ≠ []) (hmc : ∀ c ∈ m, isPathChar c = true ∧ c ≠ '/')
    (hne' : m' ≠ []) (hmc' : ∀ c ∈ m', isPathChar c = true ∧ c ≠ '/')
    (hmd : ∃ c ∈ m, c ≠ '.') (hmd' : ∃ c ∈ m', c ≠ '.')
    (hloop : ∀ L R : Str, '%' ∉ L →
      percentLoop (L ++ toLower m' ++ R).length 0 (L ++ toLower m' ++ R) =
        percentLoop (L ++ toLower m ++ R).length 0 (L ++ toLower m ++ R)) :
    MatchString (render { p with path := some (A ++ m' ++ B) }) = true ∧
    normalize (render { p with path := some (A ++ m' ++ B) }) = normalize u := by
  obtain ⟨_, hw⟩ := render_of_urlRegex u p h
  have hpc := hw.path _ hp
  have hw' : WellFormed { p with path := some (A ++ m' ++ B) } :=
    { scheme := hw.scheme
      domainChars := hw.domainChars
      domain := hw.domain
      port := hw.port
      path := by
        intro t ht
        simp only [Option.some.injEq] at ht
        subst ht
        intro c hc
        simp only [List.mem_append] at hc
        rcases hc with (hc | hc) | hc
        · exact hpc c (by simp [hc])
        · exact (hmc' c hc).1
        · exact hpc c (by simp [hc])
      query := hw.query
      fragment := hw.fragment }
  refine ⟨matchString_render _ hw', ?_⟩
  rw [(normalize_of_urlRegex _ _ (urlRegex_render _ hw')).1, (normalize_of_urlRegex u p h).1]
  have hascA : IsASCII A := isASCII_of_path (fun c hc => hpc c (by simp [hc]))
  have hascm : IsASCII m := isASCII_of_path (fun c hc => (hmc c hc).1)
  have hascm' : IsASCII m' := isASCII_of_path (fun c hc => (hmc' c hc).1)
  have e : lowerParsed { p with path := some (A ++ m' ++ B) } =
      { lowerParsed p with path := some (toLower A ++ toLower m' ++ toLower B) } := by
    simp only [lowerParsed, Option.map_some', toLower_append]
  have hlp : (lowerParsed p).path = some (toLower A ++ toLower m ++ toLower B) := by
    simp only [lowerParsed, hp, Option.map_some', toLower_append]
  have cutm : ∀ x : Str, IsASCII x → (∀ c ∈ x, isPathChar c = true ∧ c ≠ '/') →
      (∀ c ∈ toLower x, ['?', '/'].elem c = false) ∧ '/' ∉ toLower x := by
    intro x hx hxc
    have key : ∀ c ∈ toLower x, isPathChar c = true ∧ c ≠ '/' := by
      intro c hc
      obtain ⟨a, ha, rfl⟩ := List.mem_map.1 hc
      refine ⟨by rw [(lowerRune_classes a (hx a ha)).2.2.2.2.2.1]; exact (hxc a ha).1, ?_⟩
      exact fun e1 => (hxc a ha).2 ((lowerRune_delims a (hx a ha)).2.1.1 e1)
    constructor
    · intro c hc
      obtain ⟨k1, k2⟩ := key c hc
      by_cases e1 : c = '?'
      · subst e1
        exact absurd k1 (by decide)
      · simp [e1, k2]
    · exact fun hm => (key '/' hm).2 rfl
  have dotm : ∀ x : Str, IsASCII x → (∃ c ∈ x, c ≠ '.') → ∃ c ∈ toLower x, c ≠ '.' := by
    rintro x hx ⟨c, hc, hne⟩
    exact ⟨lowerRune c, List.mem_map.2 ⟨c, hc, rfl⟩,
      fun e1 => hne ((lowerRune_delims c (hx c hc)).2.2.2.2.1.1 e1)⟩
  obtain ⟨B', hB1, hB2⟩ := trimParsed_path_subst (lowerParsed p) (toLower A) (toLower B)
    (toLower m) (toLower m') hlp (by simpa [toLower_eq_nil] using hne) (cutm m hascm hmc).1
    (by simpa [toLower_eq_nil] using hne') (cutm m' hascm' hmc').1
  rw [e, hB2]
  have hddQ := noDotDot_normal p hw (by
    intro t ht
    rw [hp] at ht
    simp only [Option.some.injEq] at ht
    exact ht ▸ hdd) _ hB1
  exact canonical_path_subst _ _ _ _ _ hB1 hddQ (cutm m hascm hmc).2 (cutm m' hascm' hmc').2
    (dotm m hascm hmd) (dotm m' hascm' hmd') (percent_not_mem_toLower A hascA hA) hloop

/-- A change of a stretch `m` of the query into `m'`, with no `%` before it in path and
query, no `..` in the path, and lower-cased parameters in sorted order before and after
the change, does not change the result of `normalize` when the loop gives the same string
on the two lower-cased stretches. -/
theorem normalize_query_subst (u : Str) (p : Parsed) (A B m m' : Str)
    (h : urlRegex u = some p) (hq : p.query = some (A ++ m ++ B))
    (hpd : ∀ t, p.path = some t → ['.', '.'] ∉ split '/' t ∧ '%' ∉ t) (hA : '%' ∉ A)
    (hne : m ≠ []) (hne' : m' ≠ []) (hmc' : ∀ c ∈ m', isQueryChar c = true)
    (hs : sortStrings (split '&' (toLower (A ++ m ++ B))) = split '&' (toLower (A ++ m ++ B)))
    (hs' : sortStrings (split '&' (toLower (A ++ m' ++ B))) =
      split '&' (toLower (A ++ m' ++ B)))
    (hloop : ∀ L R : Str, '%' ∉ L →
      percentLoop (L ++ toLower m' ++ R).length 0 (L ++ toLower m' ++ R) =
        percentLoop (L ++ toLower m ++ R).length 0 (L ++ toLower m ++ R)) :
    MatchString (render { p with query := some (A ++ m' ++ B) }) = true ∧
    normalize (render { p with query := some (A ++ m' ++ B) }) = normalize u := by
  obtain ⟨_, hw⟩ := render_of_urlRegex u p h
  have hqc := hw.query _ hq
  have hw' : WellFormed { p with query := some (A ++ m' ++ B) } :=
    { scheme := hw.scheme
      domainChars := hw.domainChars
      domain := hw.domain
      port := hw.port
      path := hw.path
      query := by
        intro t ht
        simp only [Option.some.injEq] at ht
        subst ht
        intro c hc
        simp only [List.mem_append] at hc
        rcases hc with (hc | hc) | hc
        · exact hqc c (by simp [hc])
        · exact hmc' c hc
        · exact hqc c (by simp [hc])
      fragment := hw.fragment }
  refine ⟨matchString_render _ hw', ?_⟩
  rw [(normalize_of_urlRegex _ _ (urlRegex_render _ hw')).1, (normalize_of_urlRegex u p h).1]
  have hascA : IsASCII A := isASCII_of_query (fun c hc => hqc c (by simp [hc]))
  have e : lowerParsed { p with query := some (A ++ m' ++ B) } =
      { lowerParsed p with query := some (toLower A ++ toLower m' ++ toLower B) } := by
    simp only [lowerParsed, Option.map_some', toLower_append]
  have hlq : (lowerParsed p).query = some (toLower A ++ toLower m ++ toLower B) := by
    simp only [lowerParsed, hq, Option.map_some', toLower_append]
  have n1 : toLower m ≠ [] := by simpa [toLower_eq_nil] using hne
  have n2 : toLower m' ≠ [] := by simpa [toLower_eq_nil] using hne'
  rw [e, trimParsed_of_query_ne _ _ rfl (by simp [n2]),
    trimParsed_of_query_ne _ _ hlq (by simp [n1])]
  simp only [toLower_append] at hs hs'
  apply canonical_query_subst _ _ _ _ _ hlq _ n1 n2 (percent_not_mem_toLower A hascA hA)
    hs hs' hloop
  intro t ht
  cases hp : p.path with
  | none => simp [lowerParsed, hp] at ht
  | some t0 =>
    simp only [lowerParsed, hp, Option.map_some', Option.some.injEq] at ht
    subst ht
    have hasc := isASCII_of_path (hw.path t0 hp)
    exact ⟨noDotDot_toLower t0 hasc (hpd t0 hp).1,
      percent_not_mem_toLower t0 hasc (hpd t0 hp).2⟩

/-! ### C8: one more level of percent-encoding -/

/-- C8 as stated fails: the claim is false on a `%` in a query whose parameters change
their sorted order (the sorting comes before the decoding), on a `%` right after a `%`
with one letter after it (`a.bc/%%a` gives `a.bc/%%A`, `a.bc/%%25a` gives `a.bc/%%a`: the
loop puts the two characters after a `%` it keeps in upper case, and the encoded form takes
the place of one of them), on a `%` in a path with an earlier `%` where the upper-casing
replaces the first occurrence of the two characters, and on a path with `..`. -/
theorem nested_encoding_counterexample :
    MatchString "a.bc/%%a".toList = true ∧ MatchString "a.bc/%%25a".toList = true ∧
    normalize "a.bc/%%a".toList = some "a.bc/%%A".toList ∧
    normalize "a.bc/%%25a".toList = some "a.bc/%%a".toList ∧
    MatchString "a.bc?%3&%z".toList = true ∧ MatchString "a.bc?%3&%25z".toList = true ∧
    normalize "a.bc?%3&%z".toList = some "a.bc?%3&%z".toList ∧
    normalize "a.bc?%3&%25z".toList = some "a.bc?%Z&%3".toList ∧
    CountUniqueUrls ["a.bc?%3&%z".toList, "a.bc?%3&%25z".toList] = some 2 ∧
    MatchString "a.bc/ab%%ab".toList = true ∧ MatchString "a.bc/ab%%25ab".toList = true ∧
    normalize "a.bc/ab%%ab".toList = some "a.bc/ab%%AB".toList ∧
    normalize "a.bc/ab%%25ab".toList = some "a.bc/AB%%ab".toList ∧
    normalize "https://a.bc/../%20/bbbbbbbbbb".toList =
      some "https://%20/bbbbbbbbbb".toList ∧
    normalize "https://a.bc/../%2520/bbbbbbbbbb".toList =
      some "https://%2520/bbbbbbbbbb".toList := by
  decide

theorem count_pair_of (u v : Str) (hu : MatchString u = true)
    (h : MatchString v = true ∧ normalize v = normalize u) :
    MatchString v = true ∧ normalize v = normalize u ∧
    CountUniqueUrls [u, v] = CountUniqueUrls [u] ∧
    ∀ c, normalize u = some c → CountUniqueUrls [u, v] = some 1 :=
  ⟨h.1, h.2, (count_pair_same u v hu h.1 h.2).1, (count_pair_same u v hu h.1 h.2).2⟩

/-- The first `%` of a URL: for an accepted URL whose path has no `..` segment, replacing
by `%25` a `%` that has no `%` before it in the path and the query gives an accepted URL with the
same result of `normalize` (counted once by `CountUniqueUrls`); for a `%` in the query,
provided the lower-cased parameters are in sorted order before and after the
replacement. -/
theorem nested_encoding_first_percent (u : Str) (p : Parsed) (A B : Str)
    (h : urlRegex u = some p) (hA : '%' ∉ A)
    (hdd : ∀ t, p.path = some t → ['.', '.'] ∉ split '/' t) :
    (p.path = some (A ++ '%' :: B) →
      MatchString (render { p with path := some (A ++ '%' :: '2' :: '5' :: B) }) = true ∧
      normalize (render { p with path := some (A ++ '%' :: '2' :: '5' :: B) }) =
        normalize u ∧
      CountUniqueUrls [u, render { p with path := some (A ++ '%' :: '2' :: '5' :: B) }] =
        CountUniqueUrls [u] ∧
      ∀ c, normalize u = some c →
        CountUniqueUrls [u, render { p with path := some (A ++ '%' :: '2' :: '5' :: B) }] =
          some 1) ∧
    (p.query = some (A ++ '%' :: B) → (∀ t, p.path = some t → '%' ∉ t) →
      sortStrings (split '&' (toLower (A ++ '%' :: B))) = split '&' (toLower (A ++ '%' :: B)) →
      sortStrings (split '&' (toLower (A ++ '%' :: '2' :: '5' :: B))) =
        split '&' (toLower (A ++ '%' :: '2' :: '5' :: B)) →
      MatchString (render { p with query := some (A ++ '%' :: '2' :: '5' :: B) }) = true ∧
      normalize (render { p with query := some (A ++ '%' :: '2' :: '5' :: B) }) =
        normalize u ∧
      CountUniqueUrls [u, render { p with query := some (A ++ '%' :: '2' :: '5' :: B) }] =
        CountUniqueUrls [u] ∧
      ∀ c, normalize u = some c →
        CountUniqueUrls [u, render { p with query := some (A ++ '%' :: '2' :: '5' :: B) }] =
          some 1) := by
  have hloop : ∀ L R : Str, '%' ∉ L →
      percentLoop (L ++ toLower ['%', '2', '5'] ++ R).length 0
          (L ++ toLower ['%', '2', '5'] ++ R) =
        percentLoop (L ++ toLower ['%'] ++ R).length 0 (L ++ toLower ['%'] ++ R) := by
    intro L R hL
    have := percentLoop_nested L R hL
    have e1 : L ++ toLower ['%', '2', '5'] ++ R = L ++ '%' :: '2' :: '5' :: R := by
      have : toLower ['%', '2', '5'] = ['%', '2', '5'] := by decide
      rw [this]
      simp
    have e2 : L ++ toLower ['%'] ++ R = L ++ '%' :: R := by
      have : toLower ['%'] = ['%'] := by decide
      rw [this]
      simp
    rw [e1, e2]
    exact this
  have a1 : A ++ '%' :: B = A ++ ['%'] ++ B := by simp
  have a2 : A ++ '%' :: '2' :: '5' :: B = A ++ ['%', '2', '5'] ++ B := by simp
  have hu := matchString_of_urlRegex h
  constructor
  · intro hp
    rw [a1] at hp
    rw [a2]
    apply count_pair_of u _ hu
    exact normalize_path_subst u p A B ['%'] ['%', '2', '5'] h hp (hdd _ hp) hA
      (by simp) (by decide) (by simp) (by decide) ⟨'%', by simp, by decide⟩
      ⟨'%', by simp, by decide⟩ hloop
  · intro hq hpp hs hs'
    rw [a1] at hq hs
    rw [a2] at hs' ⊢
    apply count_pair_of u _ hu
    exact normalize_query_subst u p A B ['%'] ['%', '2', '5'] h hq
      (fun t ht => ⟨hdd t ht, hpp t ht⟩) hA (by simp) (by simp) (by decide) hs hs' hloop

/-- The statement `nested_encoding_first_percent` on the path of
`https://example.com/encoded%20path` and on the query of `https://example.com?a=%20&b=%21`. -/
theorem nested_encoding_first_percent_witness :
    (MatchString "https://example.com/encoded%2520path".toList = true ∧
      normalize "https://example.com/encoded%2520path".toList =
        normalize "https://example.com/encoded%20path".toList) ∧
    (MatchString "https://example.com?a=%2520&b=%21".toList = true ∧
      normalize "https://example.com?a=%2520&b=%21".toList =
        normalize "https://example.com?a=%20&b=%21".toList) :=
  ⟨⟨((nested_encoding_first_percent "https://example.com/encoded%20path".toList
        ⟨some "https".toList, "example.com".toList, none, some "encoded%20path".toList,
          none, none⟩
        "encoded".toList "20path".toList (by decide) (by decide)
        (by intro t ht; cases ht; decide)).1 rfl).1,
     ((nested_encoding_first_percent "https://example.com/encoded%20path".toList
        ⟨some "https".toList, "example.com".toList, none, some "encoded%20path".toList,
          none, none⟩
        "encoded".toList "20path".toList (by decide) (by decide)
        (by intro t ht; cases ht; decide)).1 rfl).2.1⟩,
   ⟨((nested_encoding_first_percent "https://example.com?a=%20&b=%21".toList
        ⟨some "https".toList, "example.com".toList, none, none,
          some "a=%20&b=%21".toList, none⟩
        "a=".toList "20&b=%21".toList (by decide) (by decide)
        (by intro t ht; cases ht)).2 rfl (by intro t ht; cases ht) (by decide) (by decide)).1,
    ((nested_encoding_first_percent "https://example.com?a=%20&b=%21".toList
        ⟨some "https".toList, "example.com".toList, none, none,
          some "a=%20&b=%21".toList, none⟩
        "a=".toList "20&b=%21".toList (by decide) (by decide)
        (by intro t ht; cases ht)).2 rfl (by intro t ht; cases ht) (by decide)
        (by decide)).2.1⟩⟩

/-! ### C9: a reserved character and its percent-encoded form -/

theorem mem_of_lookup {α : Type} (k : Str) (v : α) (l : List (Str × α))
    (h : l.lookup k = some v) : (k, v) ∈ l := by
  induction l with
  | nil => simp at h
  | cons e es ih =>
    obtain ⟨k0, v0⟩ := e
    by_cases hk : k = k0
    · subst hk
      simp only [List.lookup_cons, beq_self_eq_true] at h
      cases h
      exact List.mem_cons_self _ _
    · have hb : (k == k0) = false := by simpa using hk
      simp only [List.lookup_cons, hb] at h
      exact List.mem_cons_of_mem _ (ih h)

set_option maxRecDepth 100000 in
theorem reservedTable_facts :
    ∀ e ∈ reservedTable,
      e.1.length = 2 ∧ toLower e.1 = e.1 ∧ toLower (toUpper e.1) = e.1 ∧
      (∀ x ∈ e.1, isPathChar x = true ∧ isQueryChar x = true ∧ x ≠ '/' ∧ x ≠ '.') ∧
      (∀ x ∈ toUpper e.1, isPathChar x = true ∧ isQueryChar x = true ∧ x ≠ '/' ∧ x ≠ '.') ∧
      lowerRune e.2 = e.2 ∧ (e.2 = '%' → e.1 = ['2', '5']) := by
  decide

/-- C9 as stated fails: on `/` before a `..` segment and on `.` as a segment (the path is
split before the decoding), in a query whose parameters change their sorted order, on a
character right after a `%` with a letter after it (`a.bc/%*a` gives `a.bc/%*A`,
`a.bc/%%2aa` gives `a.bc/%*a`: the loop puts the two characters after a `%` it keeps in
upper case, and the encoded form takes the place of one of them), on a character after a
`%` where the upper-casing replaces the first occurrence of the two characters, and after
a `..` segment that cuts into the authority. -/
theorem reserved_encoding_counterexample :
    MatchString "a.bc/%*a".toList = true ∧ MatchString "a.bc/%%2aa".toList = true ∧
    normalize "a.bc/%*a".toList = some "a.bc/%*A".toList ∧
    normalize "a.bc/%%2aa".toList = some "a.bc/%*a".toList ∧
    reservedCharacters "2f".toList = some '/' ∧
    MatchString "a.bc/x/..".toList = true ∧ MatchString "a.bc/x%2f..".toList = true ∧
    normalize "a.bc/x/..".toList = some "a.bc".toList ∧
    normalize "a.bc/x%2f..".toList = some "a.bc/x/..".toList ∧
    CountUniqueUrls ["a.bc/x/..".toList, "a.bc/x%2f..".toList] = some 2 ∧
    reservedCharacters "2e".toList = some '.' ∧
    normalize "a.bc/./a".toList = some "a.bc/a".toList ∧
    normalize "a.bc/%2e/a".toList = some "a.bc/./a".toList ∧
    reservedCharacters "2a".toList = some '*' ∧
    normalize "a.bc/b%b*".toList = some "a.bc/b%B*".toList ∧
    normalize "a.bc/b%b%2a".toList = some "a.bc/B%b*".toList ∧
    reservedCharacters "21".toList = some '!' ∧
    normalize "a.bc?a!&a$".toList = some "a.bc?a!&a$".toList ∧
    normalize "a.bc?a%21&a$".toList = some "a.bc?a$&a!".toList ∧
    normalize "https://a.bc/../*/bbbbbbbbbb".toList = some "https://*/bbbbbbbbbb".toList ∧
    normalize "https://a.bc/../%2a/bbbbbbbbbb".toList =
      some "https://%2a/bbbbbbbbbb".toList := by
  decide

/-- A reserved character with no `%` before it: for an accepted URL whose path has no `..`
segment, and an occurrence of a character `c` of the table `reservedCharacters` that has no `%` before it in the path
and the query, replacing the occurrence by `%` and the code of `c` (lower or upper case)
gives an accepted URL with the same result of `normalize`: in the path when `c` is
neither `/` nor `.`; in the query when the lower-cased parameters are in sorted order
before and after the replacement. -/
theorem reserved_char_encoding (u : Str) (p : Parsed) (A B k code : Str) (c : Char)
    (h : urlRegex u = some p) (hA : '%' ∉ A)
    (hdd : ∀ t, p.path = some t → ['.', '.'] ∉ split '/' t)
    (hk : reservedCharacters k = some c) (hcode : code = k ∨ code = toUpper k) :
    (p.path = some (A ++ c :: B) → c ≠ '/' → c ≠ '.' →
      MatchString (render { p with path := some (A ++ '%' :: code ++ B) }) = true ∧
      normalize (render { p with path := some (A ++ '%' :: code ++ B) }) = normalize u ∧
      CountUniqueUrls [u, render { p with path := some (A ++ '%' :: code ++ B) }] =
        CountUniqueUrls [u] ∧
      ∀ r, normalize u = some r →
        CountUniqueUrls [u, render { p with path := some (A ++ '%' :: code ++ B) }] =
          some 1) ∧
    (p.query = some (A ++ c :: B) → (∀ t, p.path = some t → '%' ∉ t) →
      sortStrings (split '&' (toLower (A ++ c :: B))) = split '&' (toLower (A ++ c :: B)) →
      sortStrings (split '&' (toLower (A ++ '%' :: code ++ B))) =
        split '&' (toLower (A ++ '%' :: code ++ B)) →
      MatchString (render { p with query := some (A ++ '%' :: code ++ B) }) = true ∧
      normalize (render { p with query := some (A ++ '%' :: code ++ B) }) = normalize u ∧
      CountUniqueUrls [u, render { p with query := some (A ++ '%' :: code ++ B) }] =
        CountUniqueUrls [u] ∧
      ∀ r, normalize u = some r →
        CountUniqueUrls [u, render { p with query := some (A ++ '%' :: code ++ B) }] =
          some 1) := by
  obtain ⟨hlen, f1, f2, f3, f4, f5, f6⟩ :=
    reservedTable_facts (k, c) (mem_of_lookup k c reservedTable hk)
  simp only at hlen f1 f2 f3 f4 f5 f6
  obtain ⟨x, y, hxy⟩ := List.length_eq_two.1 hlen
  have hcodeL : toLower code = k := by
    rcases hcode with e | e
    · rw [e, f1]
    · rw [e, f2]
  have hcodeC : ∀ z ∈ code, isPathChar z = true ∧ isQueryChar z = true ∧ z ≠ '/' ∧ z ≠ '.' := by
    rcases hcode with e | e
    · rw [e]
      exact f3
    · rw [e]
      exact f4
  have hloop : ∀ L R : Str, '%' ∉ L →
      percentLoop (L ++ toLower ('%' :: code) ++ R).length 0
          (L ++ toLower ('%' :: code) ++ R) =
        percentLoop (L ++ toLower [c] ++ R).length 0 (L ++ toLower [c] ++ R) := by
    intro L R hL
    have e1 : L ++ toLower ('%' :: code) ++ R = L ++ '%' :: x :: y :: R := by
      have : toLower ('%' :: code) = '%' :: toLower code := rfl
      rw [this, hcodeL, hxy]
      simp
    have e2 : L ++ toLower [c] ++ R = L ++ c :: R := by
      have : toLower [c] = [c] := by simp [toLower, f5]
      rw [this]
      simp
    rw [e1, e2]
    by_cases hc : c = '%'
    · have hk25 := f6 hc
      rw [hxy] at hk25
      simp only [List.cons.injEq, and_true] at hk25
      rw [hc, hk25.1, hk25.2]
      exact percentLoop_nested L R hL
    · exact percentLoop_reserved L R x y c hL (hxy ▸ hk) hc
  have a1 : A ++ c :: B = A ++ [c] ++ B := by simp
  have a2 : A ++ '%' :: code ++ B = A ++ ('%' :: code) ++ B := by simp
  have hu := matchString_of_urlRegex h
  obtain ⟨_, hw⟩ := render_of_urlRegex u p h
  constructor
  · intro hp hc1 hc2
    have hcp : isPathChar c = true := hw.path _ hp c (by simp)
    rw [a1] at hp
    rw [a2]
    apply count_pair_of u _ hu
    refine normalize_path_subst u p A B [c] ('%' :: code) h hp (hdd _ hp) hA
      (by simp) ?_ (by simp) ?_ ⟨c, by simp, hc2⟩ ⟨'%', by simp, by decide⟩ hloop
    · intro z hz
      simp only [List.mem_singleton] at hz
      subst hz
      exact ⟨hcp, hc1⟩
    · intro z hz
      rcases List.mem_cons.1 hz with e | e
      · subst e
        decide
      · exact ⟨(hcodeC z e).1, (hcodeC z e).2.2.1⟩
  · intro hq hpp hs hs'
    rw [a1] at hq hs
    rw [a2] at hs' ⊢
    apply count_pair_of u _ hu
    refine normalize_query_subst u p A B [c] ('%' :: code) h hq
      (fun t ht => ⟨hdd t ht, hpp t ht⟩) hA (by simp) (by simp) ?_ hs hs' hloop
    intro z hz
    rcases List.mem_cons.1 hz with e | e
    · subst e
      decide
    · exact (hcodeC z e).2.1

/-- The statement `reserved_char_encoding` on `https://foo.bar/baz*` with `%2A`, and on
`https://example.com?a=1&b=$` with `%24`. -/
theorem reserved_char_encoding_witness :
    (MatchString "https://foo.bar/baz%2A".toList = true ∧
      normalize "https://foo.bar/baz%2A".toList = normalize "https://foo.bar/baz*".toList) ∧
    (MatchString "https://example.com?a=1&b=%24".toList = true ∧
      normalize "https://example.com?a=1&b=%24".toList =
        normalize "https://example.com?a=1&b=$".toList) :=
  ⟨⟨((reserved_char_encoding "https://foo.bar/baz*".toList
        ⟨some "https".toList, "foo.bar".toList, none, some "baz*".toList, none, none⟩
        "baz".toList [] "2a".toList "2A".toList '*' (by decide) (by decide)
        (by intro t ht; cases ht; decide) (by decide) (Or.inr (by decide))).1
        rfl (by decide) (by decide)).1,
     ((reserved_char_encoding "https://foo.bar/baz*".toList
        ⟨some "https".toList, "foo.bar".toList, none, some "baz*".toList, none, none⟩
        "baz".toList [] "2a".toList "2A".toList '*' (by decide) (by decide)
        (by intro t ht; cases ht; decide) (by decide) (Or.inr (by decide))).1
        rfl (by decide) (by decide)).2.1⟩,
   ⟨((reserved_char_encoding "https://example.com?a=1&b=$".toList
        ⟨some "https".toList, "example.com".toList, none, none, some "a=1&b=$".toList, none⟩
        "a=1&b=".toList [] "24".toList "24".toList '$' (by decide) (by decide)
        (by intro t ht; cases ht) (by decide) (Or.inl rfl)).2
        rfl (by intro t ht; cases ht) (by decide) (by decide)).1,
    ((reserved_char_encoding "https://example.com?a=1&b=$".toList
        ⟨some "https".toList, "example.com".toList, none, none, some "a=1&b=$".toList, none⟩
        "a=1&b=".toList [] "24".toList "24".toList '$' (by decide) (by decide)
        (by intro t ht; cases ht) (by decide) (Or.inl rfl)).2
        rfl (by intro t ht; cases ht) (by decide) (by decide)).2.1⟩⟩

/-! ### The grammar, declaratively -/

/-- The scanner and the text of well-formed parts describe the same match: a string is
matched with parts `p` exactly when it is the text of `p` and `p` is well formed. -/
theorem urlRegex_iff (s : Str) (p : Parsed) :
    urlRegex s = some p ↔ s = render p ∧ WellFormed p := by
  constructor
  · exact render_of_urlRegex s p
  · rintro ⟨e, hw⟩
    rw [e]
    exact urlRegex_render p hw

theorem labelChar_ne_dot (c : Char) (h : isLabelChar c = true) : c ≠ '.' := by
  intro e
  subst e
  exact absurd h (by decide)

theorem alnum_labelChar (c : Char) (h : isAlnum c = true) : isLabelChar c = true := by
  simp [isLabelChar, h]

theorem split_labels (labels : List Str) (last : Str)
    (hl : ∀ l ∈ labels, '.' ∉ l) (hlast : '.' ∉ last) :
    split '.' ((labels.map (fun l => l ++ ['.'])).flatten ++ last) = labels ++ [last] := by
  induction labels with
  | nil => simpa using split_of_not_mem '.' last hlast
  | cons l ls ih =>
    have e : ((l :: ls).map (fun l => l ++ ['.'])).flatten ++ last =
        l ++ '.' :: ((ls.map (fun l => l ++ ['.'])).flatten ++ last) := by simp
    rw [e, split_append_sep '.' l _ (hl l (List.mem_cons_self _ _)),
      ih (fun x hx => hl x (List.mem_cons_of_mem _ hx))]
    rfl

theorem join_concat_labels (labels : List Str) (last : Str) :
    join '.' (labels ++ [last]) = (labels.map (fun l => l ++ ['.'])).flatten ++ last := by
  induction labels with
  | nil => rfl
  | cons l ls ih =>
    cases ls with
    | nil => simp [join]
    | cons m ms =>
      have e : join '.' ((l :: m :: ms) ++ [last]) =
          l ++ '.' :: join '.' ((m :: ms) ++ [last]) := rfl
      rw [e, ih]
      simp

/-- The domain pattern `(?:[a-zA-Z0-9-]+\.)+[a-zA-Z0-9]{2,}`, read as a language: one or
more non-empty labels of `[a-zA-Z0-9-]`, each followed by a dot, then a last label of at
least two `[a-zA-Z0-9]`. -/
theorem matchDomain_iff (d : Str) :
    matchDomain d = true ↔
      ∃ (labels : List Str) (last : Str), labels ≠ [] ∧
        (∀ l ∈ labels, l ≠ [] ∧ ∀ c ∈ l, isLabelChar c = true) ∧
        2 ≤ last.length ∧ (∀ c ∈ last, isAlnum c = true) ∧
        d = (labels.map (fun l => l ++ ['.'])).flatten ++ last := by
  constructor
  · intro h
    unfold matchDomain at h
    simp only [Bool.and_eq_true, decide_eq_true_eq, List.all_eq_true, Bool.not_eq_true',
      List.isEmpty_eq_false] at h
    obtain ⟨⟨⟨h1, h2⟩, h3⟩, h4⟩ := h
    have hne := split_ne_nil '.' d
    have hd : split '.' d = (split '.' d).dropLast ++ [(split '.' d).getLastD []] := by
      rw [List.getLastD_eq_getLast?, List.getLast?_eq_getLast _ hne]
      exact (List.dropLast_append_getLast hne).symm
    refine ⟨(split '.' d).dropLast, (split '.' d).getLastD [], ?_, ?_, h4, h3, ?_⟩
    · intro e
      have := congrArg List.length e
      rw [List.length_dropLast] at this
      simp at this
      omega
    · intro l hl
      have := h2 l hl
      exact ⟨by simpa using this.1, this.2⟩
    · rw [← join_concat_labels, ← hd, join_split]
  · rintro ⟨labels, last, hne, hl, h2, hlast, rfl⟩
    have hs := split_labels labels last
      (fun l hl' hm => labelChar_ne_dot _ ((hl l hl').2 _ hm) rfl)
      (fun hm => labelChar_ne_dot _ (alnum_labelChar _ (hlast _ hm)) rfl)
    unfold matchDomain
    rw [hs]
    simp only [Bool.and_eq_true, decide_eq_true_eq, List.all_eq_true, Bool.not_eq_true',
      List.isEmpty_eq_false, List.dropLast_concat, List.getLastD_concat]
    refine ⟨⟨⟨?_, ?_⟩, hlast⟩, h2⟩
    · cases labels with
      | nil => exact absurd rfl hne
      | cons a b => simp
    · intro l hl'
      exact ⟨by simpa using (hl l hl').1, (hl l hl').2⟩

/-! ### C14, C16, C17, C20: evaluations at failing inputs -/

/-- C14 (the code departs from the claim): on the list with the single entry
`invalid-url`, which the grammar rejects, `CountUniqueUrlsPerTopLevelDomain` panics
(the nil slice of the failed match is indexed), while on the list without the rejected
entry it returns the empty map. -/
theorem perTLD_panics_on_rejected_entry :
    MatchString "invalid-url".toList = false ∧
    FindStringSubmatch (toLower "invalid-url".toList) = none ∧
    CountUniqueUrlsPerTopLevelDomain ["invalid-url".toList] = none ∧
    CountUniqueUrlsPerTopLevelDomain
      (["invalid-url".toList].filter (fun u => MatchString u)) = some [] ∧
    CountUniqueUrlsPerTopLevelDomain ["https://example.com".toList, "invalid-url".toList] =
      none ∧
    CountUniqueUrlsPerTopLevelDomain ["https://example.com".toList] =
      some [("example.com".toList, 1)] := by
  decide

/-- C16 (the code departs from the claim): the domain `web.com` does not start with
`www.`, yet the domain written is `eb.com`, because `strings.TrimLeft(domain, "www.")`
removes every leading `w` and `.`; the accepted URLs `https://web.com` and
`https://eb.com`, whose domains differ and do not start with `www.`, get the same
canonical string. -/
theorem trimLeft_strips_more_than_www :
    MatchString "https://web.com".toList = true ∧
    MatchString "https://eb.com".toList = true ∧
    normalize "https://web.com".toList = some "https://eb.com".toList ∧
    normalize "https://eb.com".toList = some "https://eb.com".toList ∧
    CountUniqueUrls ["https://web.com".toList, "https://eb.com".toList] = some 1 ∧
    normalize "https://www.web.com".toList = some "https://eb.com".toList ∧
    normalize "https://ww.ww".toList = some "https://".toList := by
  decide

/-- C17 (the code departs from the claim): a `..` segment with no path segment before it
cuts the string built so far at the last slash of `https://`, so the authority is lost
(`https://example.com/../aaaaaaaaaaaaaaaa` gives `https://aaaaaaaaaaaaaaaa`, not the
canonical string of `https://example.com/aaaaaaaaaaaaaaaa`), or `normalize` panics
(`https://example.com/../a`, `example.com/../a`). -/
theorem leading_dotdot_touches_authority :
    MatchString "https://example.com/../aaaaaaaaaaaaaaaa".toList = true ∧
    normalize "https://example.com/../aaaaaaaaaaaaaaaa".toList =
      some "https://aaaaaaaaaaaaaaaa".toList ∧
    normalize "https://example.com/aaaaaaaaaaaaaaaa".toList =
      some "https://example.com/aaaaaaaaaaaaaaaa".toList ∧
    MatchString "https://example.com/../a".toList = true ∧
    normalize "https://example.com/../a".toList = none ∧
    normalize "https://example.com/a".toList = some "https://example.com/a".toList ∧
    MatchString "example.com/../a".toList = true ∧
    normalize "example.com/../a".toList = none := by
  decide

/-- C20 (the code departs from the claim): for the accepted URL `https://www.com` the
domain after the trimming of `normalize` is `com`, a single label, and the slice of the
last two labels is out of range: the key extraction panics, and so does
`CountUniqueUrlsPerTopLevelDomain`. -/
theorem tldKey_panics_on_single_label :
    MatchString "https://www.com".toList = true ∧
    normalize "www.com".toList = some "com".toList ∧
    split '.' "com".toList = ["com".toList] ∧
    tldKey "https://www.com".toList = none ∧
    CountUniqueUrlsPerTopLevelDomain ["https://www.com".toList] = none ∧
    MatchString "https://w.com".toList = true ∧
    tldKey "https://w.com".toList = none := by
  decide

/-! ### C12: order and repetition of the entries -/

theorem countLoop_none (urls : List Str)
    (h : ∃ u ∈ urls, MatchString u = true ∧ normalize u = none) :
    ∀ acc, countLoop urls acc = none := by
  induction urls with
  | nil =>
    obtain ⟨u, hu, _⟩ := h
    cases hu
  | cons v vs ih =>
    intro acc
    obtain ⟨u, hu, hm, hn⟩ := h
    unfold countLoop
    by_cases hv : MatchString v = true
    · simp only [hv, Bool.not_true, Bool.false_eq_true, if_false]
      cases hnv : normalize v with
      | none => rfl
      | some n =>
        rcases List.mem_cons.1 hu with e | e
        · subst e
          rw [hn] at hnv
          cases hnv
        · exact ih ⟨u, e, hm, hn⟩ _
    · simp only [hv, Bool.not_false, if_true]
      rcases List.mem_cons.1 hu with e | e
      · subst e
        exact absurd hm hv
      · exact ih ⟨u, e, hm, hn⟩ _

/-- The result of `CountUniqueUrls` in closed form: a panic when `normalize` panics on
some accepted entry, otherwise the number of distinct canonical strings of the accepted
entries. -/
theorem countUniqueUrls_eq (urls : List Str) :
    ((∃ u ∈ urls, MatchString u = true ∧ normalize u = none) ∧ CountUniqueUrls urls = none) ∨
    ((∀ u ∈ urls, MatchString u = true → (normalize u).isSome = true) ∧
      CountUniqueUrls urls =
        some ((urls.filter MatchString).filterMap normalize).toFinset.card) := by
  by_cases h : ∃ u ∈ urls, MatchString u = true ∧ normalize u = none
  · left
    refine ⟨h, ?_⟩
    unfold CountUniqueUrls
    rw [countLoop_none urls h]
    rfl
  · right
    have hall : ∀ u ∈ urls, MatchString u = true → (normalize u).isSome = true := by
      intro u hu hm
      cases hn : normalize u with
      | none => exact absurd ⟨u, hu, hm, hn⟩ h
      | some c => rfl
    obtain ⟨r, hr, hnd, hx⟩ := countLoop_spec urls [] List.nodup_nil hall
    refine ⟨hall, ?_⟩
    unfold CountUniqueUrls
    rw [hr, Option.map_some', ← List.toFinset_card_of_nodup hnd]
    congr 2
    ext x
    simp [hx x]

theorem countUniqueUrls_congr_mem (xs ys : List Str) (h : ∀ u, u ∈ xs ↔ u ∈ ys) :
    CountUniqueUrls xs = CountUniqueUrls ys := by
  have hset : ((xs.filter MatchString).filterMap normalize).toFinset =
      ((ys.filter MatchString).filterMap normalize).toFinset := by
    ext c
    simp only [List.mem_toFinset, List.mem_filterMap, List.mem_filter]
    constructor
    · rintro ⟨u, ⟨hu, hm⟩, hn⟩
      exact ⟨u, ⟨(h u).1 hu, hm⟩, hn⟩
    · rintro ⟨u, ⟨hu, hm⟩, hn⟩
      exact ⟨u, ⟨(h u).2 hu, hm⟩, hn⟩
  rcases countUniqueUrls_eq xs with ⟨⟨u, hu, hm, hn⟩, e1⟩ | ⟨hall, e1⟩
  · rcases countUniqueUrls_eq ys with ⟨_, e2⟩ | ⟨hall2, _⟩
    · rw [e1, e2]
    · have := hall2 u ((h u).1 hu) hm
      rw [hn] at this
      cases this
  · rcases countUniqueUrls_eq ys with ⟨⟨u, hu, hm, hn⟩, _⟩ | ⟨_, e2⟩
    · have := hall u ((h u).2 hu) hm
      rw [hn] at this
      cases this
    · rw [e1, e2, hset]

/-- C12: `CountUniqueUrls` gives the same result on any permutation of its input, and
repeating an entry that is already in the list, at any position, does not change the
result. -/
theorem countUniqueUrls_perm_invariant (xs ys : List Str) (x : Str) :
    (xs.Perm ys → CountUniqueUrls xs = CountUniqueUrls ys) ∧
    (x ∈ xs ++ ys → CountUniqueUrls (xs ++ x :: ys) = CountUniqueUrls (xs ++ ys)) := by
  constructor
  · intro hp
    exact countUniqueUrls_congr_mem xs ys (fun u => hp.mem_iff)
  · intro hx
    apply countUniqueUrls_congr_mem
    intro u
    simp only [List.mem_append, List.mem_cons]
    constructor
    · rintro (h | h | h)
      · exact Or.inl h
      · rw [h]
        exact List.mem_append.1 hx
      · exact Or.inr h
    · rintro (h | h)
      · exact Or.inl h
      · exact Or.inr (Or.inr h)

/-- Witness of C12 on lists of the repository tests. -/
theorem countUniqueUrls_perm_invariant_witness :
    CountUniqueUrls ["https://google.com".toList, "https://google.org".toList,
        "https://google.net".toList] =
      CountUniqueUrls ["https://google.net".toList, "https://google.com".toList,
        "https://google.org".toList] ∧
    CountUniqueUrls (["https://google.com".toList] ++ "https://google.com".toList ::
        ["https://google.org".toList]) =
      CountUniqueUrls (["https://google.com".toList] ++ ["https://google.org".toList]) :=
  ⟨(countUniqueUrls_perm_invariant _ _ []).1 (by decide),
   (countUniqueUrls_perm_invariant ["https://google.com".toList]
      ["https://google.org".toList] "https://google.com".toList).2 (by decide)⟩

/-! ### C11: the scheme -/

theorem lastIndex_spec (sep : Char) (r : Str) (k : Nat) (h : lastIndex sep r = some k) :
    k < r.length ∧ r.getD k ' ' = sep := by
  induction r generalizing k with
  | nil => simp [lastIndex] at h
  | cons x xs ih =>
    unfold lastIndex at h
    cases hl : lastIndex sep xs with
    | some j =>
      simp only [hl, Option.some.injEq] at h
      subst h
      obtain ⟨h1, h2⟩ := ih j hl
      exact ⟨by simpa using h1, by simpa using h2⟩
    | none =>
      simp only [hl] at h
      split at h
      · rename_i hx
        simp only [Option.some.injEq] at h
        subst h
        exact ⟨by simp, by simp [hx]⟩
      · cases h

theorem walkFiles_keeps (pre : Str) (hpre : '/' ∉ pre) (files : List Str) :
    ∀ r w, pre <+: r → walkFiles files r = some w → pre <+: w := by
  induction files with
  | nil =>
    intro r w hr h
    simp only [walkFiles, Option.some.injEq] at h
    exact h ▸ hr
  | cons f fs ih =>
    intro r w hr h
    unfold walkFiles at h
    split at h
    · exact ih r w hr h
    · split at h
      · split at h
        · cases h
        · rename_i k hk
          obtain ⟨hk1, hk2⟩ := lastIndex_spec '/' r k hk
          obtain ⟨t, rfl⟩ := hr
          have hge : pre.length ≤ k := by
            by_contra hlt
            have hlt' : k < pre.length := by omega
            rw [getD_append_left pre t k ' ' hlt'] at hk2
            exact hpre (hk2 ▸ getD_mem pre k ' ' hlt')
          apply ih _ w _ h
          rw [List.take_append_eq_append_take]
          rw [List.take_of_length_le hge]
          exact List.prefix_append _ _
      · apply ih _ w _ h
        exact hr.trans (List.prefix_append _ _)

theorem canonical_keeps (Q : Parsed) (pre c : Str) (hpre : '/' ∉ pre)
    (hs : pre <+: startOf Q) (h : canonical Q = some c) : pre <+: c := by
  rw [canonical_eq] at h
  cases hw : walkPath (capture ['/'] Q.path) (startOf Q) with
  | none => simp [hw] at h
  | some w =>
    rw [hw] at h
    change finish (startOf Q).length (withQuery w (capture [] Q.query)) = some c at h
    have hpw : pre <+: w := by
      unfold walkPath at hw
      split at hw
      · exact walkFiles_keeps pre hpre _ _ _ hs hw
      · simp only [Option.some.injEq] at hw
        exact hw ▸ hs
    have hpq : pre <+: withQuery w (capture [] Q.query) := by
      rw [withQuery_append]
      exact hpw.trans (List.prefix_append _ _)
    unfold finish at h
    split at h
    · cases h
    · simp only [Option.some.injEq] at h
      rw [← h]
      obtain ⟨t, ht⟩ := hpq
      have hlen : pre.length ≤ (startOf Q).length := hs.length_le
      rw [← ht, List.take_append_eq_append_take, List.take_of_length_le hlen,
        List.append_assoc]
      exact List.prefix_append _ _

theorem scheme_prefix_unique (s1 s2 c : Str) (h1 : ':' ∉ s1) (h2 : ':' ∉ s2)
    (p1 : s1 ++ [':'] <+: c) (p2 : s2 ++ [':'] <+: c) : s1 = s2 := by
  have key : ∀ s : Str, ':' ∉ s → s ++ [':'] <+: c →
      c.takeWhile (fun x => x != ':') = s := by
    intro s hs hp
    obtain ⟨t, rfl⟩ := hp
    rw [List.append_assoc]
    apply takeWhile_append_stops
    · intro x hx
      simp only [bne_iff_ne, ne_eq]
      exact fun e => hs (e ▸ hx)
    · exact stops_cons _ _ _ (by simp)
  rw [← key s1 h1 p1, ← key s2 h2 p2]

theorem scheme_prefix_of_normalize (u : Str) (p : Parsed) (s c : Str)
    (h : urlRegex u = some p) (hs : p.scheme = some s) (hc : normalize u = some c) :
    toLower s ++ [':'] <+: c ∧ ':' ∉ toLower s := by
  obtain ⟨hn, hw, _⟩ := normalize_of_urlRegex u p h
  obtain ⟨hsch, _, _⟩ := trimParsed_fields (lowerParsed p)
  have hQs : (trimParsed (lowerParsed p)).scheme = some (toLower s) := by
    rw [hsch]
    simp [lowerParsed, hs]
  obtain ⟨hne, hlet⟩ := hw.scheme _ hQs
  have hnot : ∀ d : Char, isLetter d = false → d ∉ toLower s := by
    intro d hd hm
    rw [hlet d hm] at hd
    cases hd
  have hslash : '/' ∉ toLower s ++ [':'] := by
    intro hm
    rcases List.mem_append.1 hm with e | e
    · exact hnot '/' (by decide) e
    · simp at e
  refine ⟨?_, hnot ':' (by decide)⟩
  rw [hn] at hc
  apply canonical_keeps _ _ _ hslash _ hc
  unfold startOf
  rw [hQs, authority_schemeText _ _ _ (fun x hx => by
    simp only [Option.some.injEq] at hx
    exact hx ▸ hne)]
  simp only [schemeText, List.append_assoc]
  rw [List.prefix_append_right_inj]
  exact ⟨_, rfl⟩

/-- C11: two accepted URLs that both have a scheme, with different lower-cased schemes,
on which `normalize` returns, have different canonical strings, and `CountUniqueUrls`
counts them as two. -/
theorem scheme_distinguishes (u1 u2 : Str) (p1 p2 : Parsed) (s1 s2 c1 c2 : Str)
    (h1 : urlRegex u1 = some p1) (h2 : urlRegex u2 = some p2)
    (hs1 : p1.scheme = some s1) (hs2 : p2.scheme = some s2)
    (hne : toLower s1 ≠ toLower s2)
    (hc1 : normalize u1 = some c1) (hc2 : normalize u2 = some c2) :
    c1 ≠ c2 ∧ CountUniqueUrls [u1, u2] = some 2 := by
  obtain ⟨a1, b1⟩ := scheme_prefix_of_normalize u1 p1 s1 c1 h1 hs1 hc1
  obtain ⟨a2, b2⟩ := scheme_prefix_of_normalize u2 p2 s2 c2 h2 hs2 hc2
  have hcne : c1 ≠ c2 := by
    intro e
    subst e
    exact hne (scheme_prefix_unique _ _ c1 b1 b2 a1 a2)
  refine ⟨hcne, ?_⟩
  have hcne' : ¬ c2 = c1 := fun e => hcne e.symm
  simp [CountUniqueUrls, countLoop, matchString_of_urlRegex h1, matchString_of_urlRegex h2,
    hc1, hc2, hcne']

/-- Witness of C11 on `https://google.com` and `http://google.com`. -/
theorem scheme_distinguishes_witness :
    "https://google.com".toList ≠ "http://google.com".toList ∧
    CountUniqueUrls ["https://google.com".toList, "http://google.com".toList] = some 2 :=
  scheme_distinguishes "https://google.com".toList "http://google.com".toList
    ⟨some "https".toList, "google.com".toList, none, none, none, none⟩
    ⟨some "http".toList, "google.com".toList, none, none, none, none⟩
    "https".toList "http".toList "https://google.com".toList "http://google.com".toList
    (by decide) (by decide) rfl rfl (by decide) (by decide) (by decide)

/-! ### C13: the map of `CountUniqueUrlsPerTopLevelDomain` -/

theorem normalize_domain (q : Parsed) (hw : WellFormed q) :
    normalize q.domain = some (trimLeft ['w', 'w', 'w', '.'] (toLower q.domain)) := by
  have hw0 : WellFormed ⟨none, q.domain, none, none, none, none⟩ :=
    { scheme := fun s hs => by cases hs
      domainChars := hw.domainChars
      domain := hw.domain
      port := fun s hs => by cases hs
      path := fun s hs => by cases hs
      query := fun s hs => by cases hs
      fragment := fun s hs => by cases hs }
  have hr : render ⟨none, q.domain, none, none, none, none⟩ = q.domain := by
    simp [render, schemeText, capture]
  have hu := urlRegex_render _ hw0
  rw [hr] at hu
  rw [(normalize_of_urlRegex _ _ hu).1]
  have e : trimParsed (lowerParsed ⟨none, q.domain, none, none, none, none⟩) =
      ⟨none, toLower q.domain, none, none, none, none⟩ := by
    simp [trimParsed, lowerParsed]
  rw [e, canonical_eq]
  simp [walkPath, capture, withQuery, finish, startOf, authority, normPort, percentLoop]

theorem findStringSubmatch_domain (u : Str) (p : Parsed) (h : urlRegex u = some p) :
    ∃ parts, FindStringSubmatch (toLower u) = some parts ∧
      parts.getD 2 [] = toLower p.domain := by
  have := urlRegex_toLower u (isASCII_of_urlRegex u p h)
  rw [h] at this
  refine ⟨partsOf (toLower u) (lowerParsed p), ?_, rfl⟩
  simp only [FindStringSubmatch, this, Option.map_some']
  rfl

/-- The key of an accepted URL: the last two dot-separated labels of its lower-cased
domain after the trimming of `normalize`, a panic when fewer than two labels are left. -/
theorem tldKey_of_urlRegex (u : Str) (p : Parsed) (h : urlRegex u = some p) :
    tldKey u =
      if (split '.' (trimLeft ['w', 'w', 'w', '.'] (toLower p.domain))).length < 2 then none
      else some (join '.' ((split '.' (trimLeft ['w', 'w', 'w', '.'] (toLower p.domain))).drop
        ((split '.' (trimLeft ['w', 'w', 'w', '.'] (toLower p.domain))).length - 2))) := by
  obtain ⟨parts, hf, hd⟩ := findStringSubmatch_domain u p h
  obtain ⟨e1, w1⟩ := wellFormed_lowerParsed u p h
  have hn := normalize_domain (lowerParsed p) w1
  have hdom : (lowerParsed p).domain = toLower p.domain := rfl
  rw [hdom, toLower_toLower (fun c hc => (ascii_of_classes c).1
    ((render_of_urlRegex u p h).2.domainChars c hc))] at hn
  unfold tldKey
  rw [hf]
  simp only [hd, hn]

theorem keys_appendBucket (k u : Str) (B : List (Str × List Str)) :
    (appendBucket k u B).map Prod.fst =
      if k ∈ B.map Prod.fst then B.map Prod.fst else B.map Prod.fst ++ [k] := by
  induction B with
  | nil => simp [appendBucket]
  | cons e es ih =>
    obtain ⟨k0, us0⟩ := e
    unfold appendBucket
    by_cases h : k0 = k
    · subst h
      simp
    · have h' : ¬ k = k0 := fun e => h e.symm
      simp only [h, if_false, List.map_cons, ih, List.mem_cons, h', false_or]
      split <;> simp

theorem mem_appendBucket (k u : Str) (B : List (Str × List Str))
    (hnd : (B.map Prod.fst).Nodup) (k' : Str) (us' : List Str)
    (h : (k', us') ∈ appendBucket k u B) :
    (k' ≠ k ∧ (k', us') ∈ B) ∨
    (k' = k ∧ ((∃ us, (k, us) ∈ B ∧ us' = us ++ [u]) ∨ (k ∉ B.map Prod.fst ∧ us' = [u]))) := by
  induction B with
  | nil =>
    simp only [appendBucket, List.mem_singleton, Prod.mk.injEq] at h
    exact Or.inr ⟨h.1, Or.inr ⟨by simp, h.2⟩⟩
  | cons e es ih =>
    obtain ⟨k0, us0⟩ := e
    simp only [List.map_cons, List.nodup_cons] at hnd
    unfold appendBucket at h
    by_cases hk : k0 = k
    · subst hk
      simp only [if_true, List.mem_cons, Prod.mk.injEq] at h
      rcases h with ⟨e1, e2⟩ | h
      · exact Or.inr ⟨e1, Or.inl ⟨us0, List.mem_cons_self _ _, e2⟩⟩
      · left
        refine ⟨?_, List.mem_cons_of_mem _ h⟩
        intro e1
        subst e1
        exact hnd.1 (List.mem_map.2 ⟨(k', us'), h, rfl⟩)
    · simp only [hk, if_false, List.mem_cons, Prod.mk.injEq] at h
      rcases h with ⟨e1, e2⟩ | h
      · left
        subst e1 e2
        exact ⟨hk, List.mem_cons_self _ _⟩
      · rcases ih hnd.2 h with ⟨h1, h2⟩ | ⟨h1, h2⟩
        · exact Or.inl ⟨h1, List.mem_cons_of_mem _ h2⟩
        · right
          refine ⟨h1, ?_⟩
          rcases h2 with ⟨us, hus, e⟩ | ⟨hn, e⟩
          · exact Or.inl ⟨us, List.mem_cons_of_mem _ hus, e⟩
          · right
            refine ⟨?_, e⟩
            simp only [List.map_cons, List.mem_cons, not_or]
            exact ⟨fun e1 => hk e1.symm, hn⟩

theorem groupLoop_spec (urls : List Str) :
    ∀ (done : List Str) (B : List (Str × List Str)),
      (B.map Prod.fst).Nodup →
      (∀ k us, (k, us) ∈ B → us = done.filter (fun u => decide (tldKey u = some k))) →
      (∀ k, k ∈ B.map Prod.fst ↔ ∃ u ∈ done, tldKey u = some k) →
      (∀ u ∈ urls, u ≠ [] ∧ (tldKey u).isSome = true) →
      ∃ B', groupLoop urls B = some B' ∧ (B'.map Prod.fst).Nodup ∧
        (∀ k us, (k, us) ∈ B' →
          us = (done ++ urls).filter (fun u => decide (tldKey u = some k))) ∧
        (∀ k, k ∈ B'.map Prod.fst ↔ ∃ u ∈ done ++ urls, tldKey u = some k) := by
  induction urls with
  | nil =>
    intro done B h1 h2 h3 _
    exact ⟨B, rfl, h1, by simpa using h2, by simpa using h3⟩
  | cons u us ih =>
    intro done B h1 h2 h3 hu
    obtain ⟨hne, hk⟩ := hu u (List.mem_cons_self _ _)
    obtain ⟨k, hk⟩ := Option.isSome_iff_exists.1 hk
    have hkeys := keys_appendBucket k u B
    have step := ih (done ++ [u]) (appendBucket k u B) ?_ ?_ ?_
      (fun v hv => hu v (List.mem_cons_of_mem _ hv))
    · obtain ⟨B', hB', r1, r2, r3⟩ := step
      refine ⟨B', ?_, r1, ?_, ?_⟩
      · simp only [groupLoop, hne, ne_eq, not_false_eq_true, if_true, hk]
        exact hB'
      · simpa using r2
      · simpa using r3
    · rw [hkeys]
      split
      · exact h1
      · rename_i hnot
        exact List.Nodup.append h1 (List.nodup_singleton _) (by simpa using hnot)
    · intro k' us' hmem
      rw [List.filter_append]
      rcases mem_appendBucket k u B h1 k' us' hmem with ⟨hne', hB⟩ | ⟨he, hcase⟩
      · have : ¬ tldKey u = some k' := by
          rw [hk]
          exact fun e => hne' (Option.some.inj e).symm
        simp [h2 k' us' hB, this]
      · subst he
        rcases hcase with ⟨us0, hus0, e⟩ | ⟨hnot, e⟩
        · simp [e, h2 k' us0 hus0, hk]
        · have hnil : done.filter (fun u => decide (tldKey u = some k')) = [] := by
            rw [List.filter_eq_nil_iff]
            intro v hv hv'
            exact hnot ((h3 k').2 ⟨v, hv, by simpa using hv'⟩)
          simp [e, hnil, hk]
    · intro k'
      rw [hkeys]
      constructor
      · intro hm
        have hm' : k' ∈ B.map Prod.fst ∨ k' = k := by
          split at hm
          · exact Or.inl hm
          · simpa using hm
        rcases hm' with hm' | hm'
        · obtain ⟨v, hv, hvk⟩ := (h3 k').1 hm'
          exact ⟨v, List.mem_append_left _ hv, hvk⟩
        · exact ⟨u, by simp, hm' ▸ hk⟩
      · rintro ⟨v, hv, hvk⟩
        rcases List.mem_append.1 hv with hv | hv
        · have := (h3 k').2 ⟨v, hv, hvk⟩
          split
          · exact this
          · exact List.mem_append_left _ this
        · simp only [List.mem_singleton] at hv
          subst hv
          rw [hk] at hvk
          cases hvk
          split
          · assumption
          · simp

theorem countBuckets_spec (B : List (Str × List Str))
    (h : ∀ k us, (k, us) ∈ B → ∃ n, CountUniqueUrls us = some n) :
    ∃ m, countBuckets B = some m ∧ m.map Prod.fst = B.map Prod.fst ∧
      ∀ k n, (k, n) ∈ m → ∃ us, (k, us) ∈ B ∧ CountUniqueUrls us = some n := by
  induction B with
  | nil => exact ⟨[], rfl, rfl, by simp⟩
  | cons e es ih =>
    obtain ⟨k0, us0⟩ := e
    obtain ⟨m, hm, hkeys, hval⟩ := ih (fun k us hmem => h k us (List.mem_cons_of_mem _ hmem))
    obtain ⟨n0, hn0⟩ := h k0 us0 (List.mem_cons_self _ _)
    refine ⟨(k0, n0) :: m, by simp [countBuckets, hn0, hm], by simp [hkeys], ?_⟩
    intro k n hmem
    rcases List.mem_cons.1 hmem with e | e
    · simp only [Prod.mk.injEq] at e
      exact ⟨us0, by rw [e.1]; exact List.mem_cons_self _ _, e.2 ▸ hn0⟩
    · obtain ⟨us, hus, hc⟩ := hval k n e
      exact ⟨us, List.mem_cons_of_mem _ hus, hc⟩

/-- C13: on a list of accepted URLs for which the key computation and `normalize` return,
`CountUniqueUrlsPerTopLevelDomain` returns a map with one entry per key; the key of an
entry `u` is the text of the last two labels of its lower-cased domain after the trim of
`www.`; the keys of the map are exactly the keys of the entries; the value at a key is
`CountUniqueUrls` of the entries with that key, in their order. A sub-domain is counted with
its parent, and the empty list gives the empty map. -/
theorem perTLD_groups_by_key (urls : List Str)
    (hacc : ∀ u ∈ urls, MatchString u = true)
    (hkey : ∀ u ∈ urls, (tldKey u).isSome = true)
    (hnorm : ∀ u ∈ urls, (normalize u).isSome = true) :
    (∀ u ∈ urls, ∃ p, urlRegex u = some p ∧
      2 ≤ (split '.' (trimLeft ['w', 'w', 'w', '.'] (toLower p.domain))).length ∧
      tldKey u = some (join '.'
        ((split '.' (trimLeft ['w', 'w', 'w', '.'] (toLower p.domain))).drop
          ((split '.' (trimLeft ['w', 'w', 'w', '.'] (toLower p.domain))).length - 2)))) ∧
    (∃ m, CountUniqueUrlsPerTopLevelDomain urls = some m ∧
      (m.map Prod.fst).Nodup ∧
      (∀ k, k ∈ m.map Prod.fst ↔ ∃ u ∈ urls, tldKey u = some k) ∧
      (∀ k n, (k, n) ∈ m →
        CountUniqueUrls (urls.filter (fun u => decide (tldKey u = some k))) = some n)) ∧
    CountUniqueUrlsPerTopLevelDomain
      ["https://example.com".toList, "https://subdomain.example.com".toList] =
      some [("example.com".toList, 2)] ∧
    CountUniqueUrlsPerTopLevelDomain [] = some [] := by
  refine ⟨?_, ?_, by decide, by decide⟩
  · intro u hu
    have hm := hacc u hu
    unfold MatchString at hm
    obtain ⟨p, hp⟩ := Option.isSome_iff_exists.1 hm
    have hk := hkey u hu
    rw [tldKey_of_urlRegex u p hp] at hk ⊢
    refine ⟨p, hp, ?_⟩
    by_cases hlen : (split '.' (trimLeft ['w', 'w', 'w', '.'] (toLower p.domain))).length < 2
    · rw [if_pos hlen] at hk
      cases hk
    · rw [if_neg hlen]
      exact ⟨by omega, rfl⟩
  · have hne : ∀ u ∈ urls, u ≠ [] ∧ (tldKey u).isSome = true := by
      intro u hu
      refine ⟨?_, hkey u hu⟩
      intro e
      have hm := hacc u hu
      rw [e] at hm
      revert hm
      decide
    obtain ⟨B, hB, hnd, hbuckets, hkeys⟩ :=
      groupLoop_spec urls [] [] (by simp) (by simp) (by simp) hne
    simp only [List.nil_append] at hbuckets hkeys
    have hcount : ∀ k us, (k, us) ∈ B → ∃ n, CountUniqueUrls us = some n := by
      intro k us hmem
      rw [hbuckets k us hmem]
      rcases countUniqueUrls_eq (urls.filter (fun u => decide (tldKey u = some k))) with
        ⟨⟨u, hu, _, hn⟩, _⟩ | ⟨_, e⟩
      · have := hnorm u (List.mem_filter.1 hu).1
        rw [hn] at this
        cases this
      · exact ⟨_, e⟩
    obtain ⟨m, hm, hmk, hmv⟩ := countBuckets_spec B hcount
    refine ⟨m, ?_, ?_, ?_, ?_⟩
    · unfold CountUniqueUrlsPerTopLevelDomain
      rw [hB]
      exact hm
    · rw [hmk]
      exact hnd
    · intro k
      rw [hmk]
      exact hkeys k
    · intro k n hmem
      obtain ⟨us, hus, hc⟩ := hmv k n hmem
      rw [← hbuckets k us hus]
      exact hc

theorem perTLD_groups_by_key_witness :
    (∃ m, CountUniqueUrlsPerTopLevelDomain
        ["https://example.com".toList, "foo.com/a".toList, "www.example.com/b".toList] =
        some m ∧
      (m.map Prod.fst).Nodup ∧
      (∀ k, k ∈ m.map Prod.fst ↔
        ∃ u ∈ ["https://example.com".toList, "foo.com/a".toList, "www.example.com/b".toList],
          tldKey u = some k) ∧
      (∀ k n, (k, n) ∈ m →
        CountUniqueUrls
          (["https://example.com".toList, "foo.com/a".toList,
            "www.example.com/b".toList].filter (fun u => decide (tldKey u = some k))) =
          some n)) :=
  (perTLD_groups_by_key
    ["https://example.com".toList, "foo.com/a".toList, "www.example.com/b".toList]
    (by decide) (by decide) (by decide)).2.1

/-! ### C18: what the percent-encoding loop leaves -/

theorem lowerRune_eq_percent (c : Char) : lowerRune c = '%' ↔ c = '%' := by
  by_cases hc : c.toNat < 128
  · exact (lowerRune_delims c hc).2.2.2.2.2.2
  · have hu : isUpper c = false := by simp [isUpper]; omega
    constructor
    · intro h
      unfold lowerRune at h
      rw [hu] at h
      simp only [Bool.false_eq_true, if_false] at h
      split at h
      · exact absurd h (by decide)
      · split at h
        · exact absurd h (by decide)
        · exact h
    · intro h
      subst h
      exact absurd (by decide) hc

set_option maxRecDepth 100000 in
theorem lowerRune_upperRune (c : Char) : lowerRune (upperRune c) = lowerRune c := by
  by_cases hc : c.toNat < 128
  · refine ascii_cases (fun c => lowerRune (upperRune c) = lowerRune c) ?_ c hc
    decide
  · have hl : isLower c = false := by simp [isLower]; omega
    simp [upperRune, hl]

set_option maxRecDepth 100000 in
theorem isDigit_lowerRune (c : Char) (h : isDigit (lowerRune c) = true) : lowerRune c = c := by
  by_cases hc : c.toNat < 128
  · revert h
    refine ascii_cases (fun c => isDigit (lowerRune c) = true → lowerRune c = c) ?_ c hc
    decide
  · have hu : isUpper c = false := by simp [isUpper]; omega
    unfold lowerRune at h ⊢
    rw [hu] at h ⊢
    simp only [Bool.false_eq_true, if_false] at h ⊢
    split
    · rename_i h1
      rw [if_pos h1] at h
      exact absurd h (by decide)
    · rename_i h1
      rw [if_neg h1] at h
      split
      · rename_i h2
        rw [if_pos h2] at h
        exact absurd h (by decide)
      · rfl

theorem toLower_drop_triple (s : Str) (k : Nat) (a b : Char) (rest : Str)
    (h : (toLower s).drop k = '%' :: a :: b :: rest) :
    ∃ x y r, s.drop k = '%' :: x :: y :: r ∧ lowerRune x = a ∧ lowerRune y = b := by
  unfold toLower at h
  rw [← List.map_drop] at h
  rcases hs : s.drop k with _ | ⟨c, _ | ⟨x, _ | ⟨y, r⟩⟩⟩ <;> rw [hs] at h <;>
    simp only [List.map_cons, List.map_nil, List.cons.injEq, reduceCtorEq, and_false,
      false_and] at h
  exact ⟨x, y, r, by rw [(lowerRune_eq_percent c).1 h.1], h.2.1, h.2.2.1⟩

theorem drop_triple_toLower (s : Str) (k : Nat) (x y : Char) (r : Str)
    (h : s.drop k = '%' :: x :: y :: r) :
    (toLower s).drop k = '%' :: lowerRune x :: lowerRune y :: toLower r := by
  unfold toLower
  rw [← List.map_drop, h]
  rfl

theorem toLower_replaceFirst (old new s : Str)
    (ht : toLower new = toLower old) : toLower (replaceFirst old new s) = toLower s := by
  induction s with
  | nil => rfl
  | cons c cs ih =>
    unfold replaceFirst
    split
    · rename_i hm
      rw [toLower_append, ht]
      conv_rhs => rw [← List.take_append_drop old.length (c :: cs), hm]
      rw [toLower_append]
    · show lowerRune c :: toLower (replaceFirst old new cs) = lowerRune c :: toLower cs
      rw [ih]

theorem replaceFirst_drop (old new : Str) (hl : new.length = old.length) (s : Str) :
    ∀ j, (s.drop j).take old.length = old →
      (replaceFirst old new s).drop (j + old.length) = s.drop (j + old.length) := by
  induction s with
  | nil => intro j _; rfl
  | cons c cs ih =>
    intro j hj
    unfold replaceFirst
    split
    · rw [Nat.add_comm j, ← List.drop_drop, ← hl, List.drop_left, hl, List.drop_drop]
    · rename_i hm
      cases j with
      | zero => exact absurd hj hm
      | succ j =>
        have e : j + 1 + old.length = (j + old.length) + 1 := by omega
        rw [e, List.drop_succ_cons, List.drop_succ_cons]
        exact ih j (by simpa using hj)

theorem replaceFirst_first (o : Char) (os new R : Str) (L : Str) :
    (∀ k, k < L.length → ((L ++ (o :: os) ++ R).drop k).take (o :: os).length ≠ o :: os) →
      replaceFirst (o :: os) new (L ++ (o :: os) ++ R) = L ++ new ++ R := by
  induction L with
  | nil =>
    intro _
    simp only [List.nil_append, List.cons_append]
    unfold replaceFirst
    rw [if_pos (by simp)]
    simp
  | cons x xs ih =>
    intro h
    simp only [List.cons_append]
    unfold replaceFirst
    rw [if_neg]
    · simp only [List.cons_append, List.append_assoc] at ih ⊢
      rw [ih]
      intro k hk
      have := h (k + 1) (by simp; omega)
      simpa using this
    · have := h 0 (by simp)
      simpa using this

set_option maxRecDepth 100000 in
theorem reservedTable_values :
    ∀ e ∈ reservedTable, ∀ e' ∈ reservedTable, lowerRune e.2 ∉ e'.1 := by
  decide

set_option maxRecDepth 100000 in
theorem reservedTable_first :
    ∀ e ∈ reservedTable, ∀ c ∈ e.1.take 1, isDigit c = true := by
  decide

theorem reserved_key_facts (a b v : Char) (h : reservedCharacters [a, b] = some v) :
    lowerRune a = a ∧ lowerRune b = b ∧ isDigit a = true ∧
    ∀ w k, reservedCharacters k = some w → lowerRune w ≠ a ∧ lowerRune w ≠ b := by
  have hm := mem_of_lookup [a, b] v reservedTable h
  have hf := (reservedTable_facts _ hm).2.1
  simp only [toLower, List.map_cons, List.map_nil, List.cons.injEq, and_true] at hf
  refine ⟨hf.1, hf.2, reservedTable_first _ hm a (by simp), ?_⟩
  intro w k hw
  have hm' := mem_of_lookup k w reservedTable hw
  have := reservedTable_values _ hm' _ hm
  simp only [List.mem_cons, List.mem_singleton, not_or, List.not_mem_nil, or_false] at this
  exact this

theorem index_decomp (s : Str) (i : Nat) (h : i + 2 < s.length) :
    ∃ L c x y R, s = L ++ c :: x :: y :: R ∧ L.length = i := by
  have hl : (s.drop i).length = s.length - i := List.length_drop i s
  rcases hd : s.drop i with _ | ⟨c, _ | ⟨x, _ | ⟨y, R⟩⟩⟩
  · rw [hd] at hl; simp at hl; omega
  · rw [hd] at hl; simp at hl; omega
  · rw [hd] at hl; simp at hl; omega
  · refine ⟨s.take i, c, x, y, R, ?_, ?_⟩
    · rw [← hd, List.take_append_drop]
    · rw [List.length_take]
      omega

theorem drop_triple_index (s : Str) (i : Nat) (c x y d : Char) (r : Str)
    (h : s.drop i = c :: x :: y :: r) : s.getD i d = c ∧ i + 2 < s.length := by
  induction s generalizing i with
  | nil => simp at h
  | cons z zs ih =>
    cases i with
    | zero =>
      simp only [List.drop_zero, List.cons.injEq] at h
      obtain ⟨rfl, rfl⟩ := h
      simp
    | succ j =>
      have := ih j (by simpa using h)
      simp only [List.getD_cons_succ, List.length_cons]
      exact ⟨this.1, by omega⟩

theorem take_three (l : Str) (a b c : Char) (h : l.take 3 = [a, b, c]) :
    ∃ r, l = a :: b :: c :: r := by
  rcases l with _ | ⟨p, _ | ⟨q, _ | ⟨r, t⟩⟩⟩ <;> simp at h
  obtain ⟨rfl, rfl, rfl⟩ := h
  exact ⟨t, rfl⟩

theorem mem_drop_succ (s : Str) (n : Nat) (c : Char) (h : c ∈ s.drop (n + 1)) :
    c ∈ s.drop n := by
  rw [← List.drop_drop] at h
  exact List.mem_of_mem_drop h

theorem noTripleBelow_decoded (L R : Str) (x y val : Char)
    (hk : reservedCharacters [x, y] = some val)
    (hinv : NoTripleBelow L.length (L ++ '%' :: x :: y :: R)) :
    NoTripleBelow L.length (L ++ val :: R) := by
  intro k hklt a b rest h
  have hinv' := hinv k hklt
  have e1 : (toLower (L ++ val :: R)).drop k =
      (toLower L).drop k ++ lowerRune val :: toLower R := by
    rw [toLower_append]
    exact List.drop_append_of_le_length (by simp [toLower]; omega)
  have e2 : (toLower (L ++ '%' :: x :: y :: R)).drop k =
      (toLower L).drop k ++ '%' :: lowerRune x :: lowerRune y :: toLower R := by
    rw [toLower_append]
    exact List.drop_append_of_le_length (by simp [toLower]; omega)
  have hlen : ((toLower L).drop k).length = L.length - k := by simp [toLower]
  rw [e1] at h
  rw [e2] at hinv'
  have hval : ∀ a b v, reservedCharacters [a, b] = some v →
      lowerRune val ≠ a ∧ lowerRune val ≠ b :=
    fun a b v hv => (reserved_key_facts a b v hv).2.2.2 val [x, y] hk
  rcases hD : (toLower L).drop k with _ | ⟨d0, _ | ⟨d1, _ | ⟨d2, D⟩⟩⟩
  · rw [hD] at hlen
    simp at hlen
    omega
  · rw [hD] at h
    simp only [List.cons_append, List.nil_append, List.cons.injEq] at h
    cases hr : reservedCharacters [a, b] with
    | none => rfl
    | some v => exact absurd h.2.1 (hval a b v hr).1
  · rw [hD] at h
    simp only [List.cons_append, List.nil_append, List.cons.injEq] at h
    cases hr : reservedCharacters [a, b] with
    | none => rfl
    | some v => exact absurd h.2.2.1 (hval a b v hr).2
  · rw [hD] at h hinv'
    simp only [List.cons_append, List.cons.injEq] at h
    obtain ⟨h0, h1, h2, _⟩ := h
    subst h0 h1 h2
    exact hinv' _ _ _ rfl

theorem percentLoop_no_triple (fuel : Nat) :
    ∀ (i : Nat) (s : Str), s.length ≤ i + fuel → NoTripleBelow i s → LowerFrom (i + 2) s →
      NoTripleBelow (percentLoop fuel i s).length (percentLoop fuel i s) := by
  induction fuel with
  | zero =>
    intro i s hlen hinv _
    show NoTripleBelow s.length s
    intro k hk
    exact hinv k (by omega)
  | succ f ih =>
    intro i s hlen hinv hlow
    rw [percentLoop_succ]
    by_cases hi : i < s.length
    · rw [if_pos hi]
      by_cases hc : s.getD i ' ' = '%' ∧ i + 2 < s.length
      · rw [if_pos hc]
        obtain ⟨L, c, x, y, R, hs, hL⟩ := index_decomp s i hc.2
        subst hL
        subst hs
        have hcp : c = '%' := by
          have := hc.1
          rw [getD_append_length] at this
          exact this
        subst hcp
        have d1 : ((L ++ '%' :: x :: y :: R).drop (L.length + 1)).take 2 = [x, y] := by
          have : (L ++ '%' :: x :: y :: R) = (L ++ ['%']) ++ x :: y :: R := by simp
          rw [this, List.drop_left' (by simp)]
          rfl
        have d3 : ((L ++ '%' :: x :: y :: R).drop L.length).take 3 = ['%', x, y] := by
          rw [List.drop_left' rfl]
          rfl
        have d2 : (L ++ '%' :: x :: y :: R).drop (L.length + 2) = y :: R := by
          have : (L ++ '%' :: x :: y :: R) = (L ++ ['%', x]) ++ y :: R := by simp
          rw [this, List.drop_left' (by simp)]
        have hy : lowerRune y = y := hlow y (by rw [d2]; exact List.mem_cons_self _ _)
        have hdl : (toLower (L ++ '%' :: x :: y :: R)).drop L.length =
            '%' :: lowerRune x :: lowerRune y :: toLower R :=
          drop_triple_toLower _ _ x y R (List.drop_left' rfl)
        rw [d1, d3]
        cases hk : reservedCharacters [x, y] with
        | some val =>
          dsimp only
          have hrep : replaceFirst ['%', x, y] [val] (L ++ '%' :: x :: y :: R) =
              L ++ val :: R := by
            have := replaceFirst_first '%' [x, y] [val] R L ?_
            · simpa using this
            · intro k hklt hocc
              obtain ⟨r, hr⟩ := take_three _ _ _ _ hocc
              have hr' : (L ++ '%' :: x :: y :: R).drop k = '%' :: x :: y :: r := by
                simpa using hr
              have h1 := hinv k hklt _ _ _ (drop_triple_toLower _ _ x y r hr')
              obtain ⟨kx, ky, _⟩ := reserved_key_facts x y val hk
              rw [kx, ky, hk] at h1
              cases h1
          rw [hrep]
          apply ih
          · simp only [List.length_append, List.length_cons] at hlen ⊢
            omega
          · exact noTripleBelow_decoded L R x y val hk hinv
          · intro c hcm
            have e : (L ++ val :: R).drop (L.length + 2) = R.drop 1 := by
              have : (L ++ val :: R) = (L ++ [val]) ++ R := by simp
              rw [this, show L.length + 2 = (L ++ [val]).length + 1 by simp,
                ← List.drop_drop, List.drop_left]
            rw [e] at hcm
            exact hlow c (by rw [d2]; exact List.mem_cons_of_mem _ (List.mem_of_mem_drop hcm))
        | none =>
          dsimp only
          have htl : toLower (replaceFirst [x, y] (toUpper [x, y]) (L ++ '%' :: x :: y :: R)) =
              toLower (L ++ '%' :: x :: y :: R) :=
            toLower_replaceFirst _ _ _ (by simp [toLower, toUpper, lowerRune_upperRune])
          apply ih
          · rw [replaceFirst_length_same _ _ _ (by simp [toUpper])]
            omega
          · intro k hklt a b rest h
            rw [htl] at h
            by_cases hkL : k < L.length
            · exact hinv k hkL a b rest h
            · have hkeq : k = L.length := by omega
              subst hkeq
              rw [hdl] at h
              simp only [List.cons.injEq, true_and] at h
              obtain ⟨ha, hb, _⟩ := h
              subst ha hb
              cases hr : reservedCharacters [lowerRune x, lowerRune y] with
              | none => rfl
              | some v =>
                have hx := isDigit_lowerRune x (reserved_key_facts _ _ v hr).2.2.1
                rw [hx, hy, hk] at hr
                cases hr
          · intro c hcm
            have e := replaceFirst_drop [x, y] (toUpper [x, y]) (by simp [toUpper])
              (L ++ '%' :: x :: y :: R) (L.length + 1) d1
            simp only [List.length_cons, List.length_nil] at e
            rw [show L.length + 1 + 2 = L.length + 1 + (0 + 1 + 1) by omega, e] at hcm
            exact hlow c (mem_drop_succ _ _ c hcm)
      · rw [if_neg hc]
        apply ih
        · omega
        · intro k hklt a b rest h
          by_cases hki : k < i
          · exact hinv k hki a b rest h
          · have hkeq : k = i := by omega
            subst hkeq
            obtain ⟨x, y, r, hd, _⟩ := toLower_drop_triple s k a b rest h
            exact absurd (drop_triple_index s k '%' x y ' ' r hd) hc
        · intro c hcm
          exact hlow c (mem_drop_succ _ _ c hcm)
    · rw [if_neg hi]
      intro k hk
      exact hinv k (by omega)

theorem mem_sortStrings (xs : List Str) (x : Str) : x ∈ sortStrings xs ↔ x ∈ xs := by
  unfold sortStrings
  exact (List.perm_insertionSort _ xs).mem_iff

theorem withQuery_chars (q : Str) :
    ∀ c ∈ withQuery [] q, c = '?' ∨ c = '&' ∨ c ∈ q := by
  intro c hc
  unfold withQuery at hc
  split at hc
  · simp only [List.nil_append, List.mem_cons] at hc
    rcases hc with e | e
    · exact Or.inl e
    · rcases mem_join '&' _ c e with e' | ⟨x, hx, hcx⟩
      · exact Or.inr (Or.inl e')
      · rw [mem_sortStrings] at hx
        exact Or.inr (Or.inr (mem_of_mem_split '&' q x hx c hcx))
  · cases hc

/-- Without a `..` segment the canonical string is the authority followed by what the
percent-encoding loop makes of a string whose characters are slashes, the question mark,
ampersands, and characters of the path and of the query. -/
theorem canonical_part (path query : Option Str)
    (h : ∀ t, path = some t → ['.', '.'] ∉ split '/' t) :
    ∃ P, (∀ Q : Parsed, Q.path = path → Q.query = query →
        canonical Q = some (startOf Q ++ percentLoop P.length 0 P)) ∧
      ∀ c ∈ P, c = '/' ∨ c = '?' ∨ c = '&' ∨ (∃ t, path = some t ∧ c ∈ t) ∨
        (∃ q, query = some q ∧ c ∈ q) := by
  have hout : ∃ out, (∀ r, walkPath (capture ['/'] path) r = some (r ++ out)) ∧
      ∀ c ∈ out, c = '/' ∨ ∃ t, path = some t ∧ c ∈ t := by
    cases path with
    | none => exact ⟨[], fun r => by simp [walkPath_capture], by simp⟩
    | some t =>
      obtain ⟨out, hout, hch⟩ := walkFiles_no_dotdot_chars (split '/' t) (h t rfl)
      refine ⟨out, fun r => by rw [walkPath_capture]; exact hout r, ?_⟩
      intro c hc
      rcases hch c hc with e | ⟨f, hf, hcf⟩
      · exact Or.inl e
      · exact Or.inr ⟨t, rfl, mem_of_mem_split '/' t f hf c hcf⟩
  obtain ⟨out, hout, hch⟩ := hout
  refine ⟨out ++ withQuery [] (capture [] query), ?_, ?_⟩
  · intro Q hp hq
    rw [canonical_eq, hp, hq, hout]
    show finish (startOf Q).length (withQuery (startOf Q ++ out) (capture [] query)) = _
    rw [withQuery_append, List.append_assoc, finish_append]
  · intro c hc
    rcases List.mem_append.1 hc with e | e
    · rcases hch c e with e' | e'
      · exact Or.inl e'
      · exact Or.inr (Or.inr (Or.inr (Or.inl e')))
    · rcases withQuery_chars _ c e with e' | e' | e'
      · exact Or.inr (Or.inl e')
      · exact Or.inr (Or.inr (Or.inl e'))
      · cases query with
        | none => cases e'
        | some q => exact Or.inr (Or.inr (Or.inr (Or.inr ⟨q, rfl, e'⟩)))

theorem trimParsed_query (Q : Parsed) :
    (trimParsed Q).query = Q.query ∨ (trimParsed Q).query = none := by
  unfold trimParsed
  split
  · exact Or.inl rfl
  · split
    · exact Or.inl rfl
    · exact Or.inr rfl

/-- The path and the query that `normalize` works on are in lower case. -/
theorem normal_lower (p : Parsed) (hw : WellFormed p) :
    (∀ t, (trimParsed (lowerParsed p)).path = some t → ∀ c ∈ t, lowerRune c = c) ∧
    (∀ q, (trimParsed (lowerParsed p)).query = some q → ∀ c ∈ q, lowerRune c = c) := by
  constructor
  · intro t ht c hc
    cases hp : p.path with
    | none =>
      rcases trimParsed_path (lowerParsed p) with e | e <;>
        · rw [e] at ht
          simp [lowerParsed, hp] at ht
    | some t0 =>
      have hasc : IsASCII t0 := fun c hc => (ascii_of_classes c).2.1 (hw.path t0 hp c hc)
      have hlow : ∀ c ∈ toLower t0, lowerRune c = c := by
        intro c hc
        obtain ⟨x, hx, rfl⟩ := List.mem_map.1 hc
        exact (lowerRune_ascii x (hasc x hx)).2
      have hpc : ∀ c ∈ toLower t0, isPathChar c = true := by
        intro c hc
        obtain ⟨x, hx, rfl⟩ := List.mem_map.1 hc
        rw [(lowerRune_classes x (hasc x hx)).2.2.2.2.2.1]
        exact hw.path t0 hp x hx
      rcases trimParsed_path (lowerParsed p) with e | e
      · rw [e] at ht
        simp only [lowerParsed, hp, Option.map_some', Option.some.injEq] at ht
        rw [← ht] at hc
        exact hlow c hc
      · rw [e] at ht
        simp only [lowerParsed, hp, Option.map_some', Option.some_bind] at ht
        rcases trimPath_decomp (toLower t0) t hpc ht with e' | ⟨k, e'⟩
        · rw [e'] at hc
          exact hlow c hc
        · exact hlow c (by rw [e']; exact List.mem_append_left _ hc)
  · intro q hq c hc
    rcases trimParsed_query (lowerParsed p) with e | e
    · rw [e] at hq
      cases hp : p.query with
      | none => simp [lowerParsed, hp] at hq
      | some q0 =>
        simp only [lowerParsed, hp, Option.map_some', Option.some.injEq] at hq
        rw [← hq] at hc
        obtain ⟨x, hx, rfl⟩ := List.mem_map.1 hc
        exact (lowerRune_ascii x ((ascii_of_classes x).2.2.1 (hw.query q0 hp x hx))).2
    · rw [e] at hq
      cases hq

/-- C18: for an accepted URL without a `..` segment in its path, `normalize` returns the
scheme/domain/port prefix followed by the result of the percent-encoding loop on a string
`P`; the loop reaches its exit within `P.length` iterations (a larger bound gives the same
string), and in its result no `%` is followed by two characters that are a key of
`reservedCharacters`, in lower case, in upper case or in any mix of the two. -/
theorem percent_loop_leaves_nothing_decodable (u : Str) (p : Parsed)
    (h : urlRegex u = some p)
    (hdd : ∀ t, p.path = some t → ['.', '.'] ∉ split '/' t) :
    ∃ P, normalize u =
        some (startOf (trimParsed (lowerParsed p)) ++ percentLoop P.length 0 P) ∧
      (∀ extra, percentLoop (P.length + extra) 0 P = percentLoop P.length 0 P) ∧
      ∀ L x y R, percentLoop P.length 0 P = L ++ '%' :: x :: y :: R →
        reservedCharacters (toLower [x, y]) = none ∧
        ∀ k v, reservedCharacters k = some v → [x, y] ≠ k ∧ [x, y] ≠ toUpper k := by
  obtain ⟨hn, hw, _⟩ := normalize_of_urlRegex u p h
  have hwp := (render_of_urlRegex u p h).2
  obtain ⟨P, hP, hch⟩ := canonical_part (trimParsed (lowerParsed p)).path
    (trimParsed (lowerParsed p)).query (noDotDot_normal p hwp hdd)
  obtain ⟨hlp, hlq⟩ := normal_lower p hwp
  have hlow : ∀ c ∈ P, lowerRune c = c := by
    intro c hc
    rcases hch c hc with e | e | e | ⟨t, ht, hct⟩ | ⟨q, hq, hcq⟩
    · rw [e]; decide
    · rw [e]; decide
    · rw [e]; decide
    · exact hlp t ht c hct
    · exact hlq q hq c hcq
  have hinv := percentLoop_no_triple P.length 0 P (by omega)
    (fun k hk => absurd hk (Nat.not_lt_zero k))
    (fun c hc => hlow c (List.mem_of_mem_drop hc))
  refine ⟨P, ?_, ?_, ?_⟩
  · rw [hn]
    exact hP _ rfl rfl
  · intro extra
    exact percentLoop_fuel_stable P.length extra 0 P (by omega)
  · intro L x y R hR
    have hlt : L.length < (percentLoop P.length 0 P).length := by
      rw [hR]
      simp
    have hd : (percentLoop P.length 0 P).drop L.length = '%' :: x :: y :: R := by
      rw [hR, List.drop_left' rfl]
    have hnone : reservedCharacters (toLower [x, y]) = none :=
      hinv L.length hlt _ _ _ (drop_triple_toLower _ _ x y R hd)
    refine ⟨hnone, ?_⟩
    intro k v hk
    have hf := reservedTable_facts _ (mem_of_lookup k v reservedTable hk)
    constructor
    · intro e
      rw [e, hf.2.1, hk] at hnone
      cases hnone
    · intro e
      rw [e, hf.2.2.1, hk] at hnone
      cases hnone

/-- Witness of C18 on `https://example.com/a%2520b%7Ex?q=%2f%zz`. -/
theorem percent_loop_leaves_nothing_decodable_witness :
    ∃ P, normalize "https://example.com/a%2520b%7Ex?q=%2f%zz".toList =
        some (startOf (trimParsed (lowerParsed
          ⟨some "https".toList, "example.com".toList, none, some "a%2520b%7Ex".toList,
            some "q=%2f%zz".toList, none⟩)) ++ percentLoop P.length 0 P) ∧
      (∀ extra, percentLoop (P.length + extra) 0 P = percentLoop P.length 0 P) ∧
      ∀ L x y R, percentLoop P.length 0 P = L ++ '%' :: x :: y :: R →
        reservedCharacters (toLower [x, y]) = none ∧
        ∀ k v, reservedCharacters k = some v → [x, y] ≠ k ∧ [x, y] ≠ toUpper k :=
  percent_loop_leaves_nothing_decodable "https://example.com/a%2520b%7Ex?q=%2f%zz".toList
    ⟨some "https".toList, "example.com".toList, none, some "a%2520b%7Ex".toList,
      some "q=%2f%zz".toList, none⟩ (by decide) (by intro t ht; cases ht; decide)

/-! ### C19: the upper case after a `%` -/

theorem getD_toLower (s : Str) (k : Nat) :
    (toLower s).getD k ' ' = lowerRune (s.getD k ' ') := by
  induction s generalizing k with
  | nil => simp only [toLower, List.map_nil, List.getD_nil]; decide
  | cons x xs ih =>
    cases k with
    | zero => rfl
    | succ j => exact ih j

theorem getD_upperAt (s : Str) (j k : Nat) (h : j + 1 < s.length) :
    (s.take j ++ toUpper ((s.drop j).take 2) ++ s.drop (j + 2)).getD k ' ' =
      if k = j ∨ k = j + 1 then upperRune (s.getD k ' ') else s.getD k ' ' := by
  induction j generalizing s k with
  | zero =>
    rcases s with _ | ⟨x, _ | ⟨y, T⟩⟩
    · simp at h
    · simp at h
    · rcases k with _ | _ | k
      · simp [toUpper]
      · simp [toUpper]
      · simp [toUpper]
  | succ j ih =>
    rcases s with _ | ⟨x, T⟩
    · simp at h
    · cases k with
      | zero => simp
      | succ k =>
        have := ih T k (by simpa using h)
        simp only [List.take_succ_cons, List.drop_succ_cons, List.cons_append,
          List.getD_cons_succ, Nat.add_right_cancel_iff]
        simp only [List.append_assoc] at this ⊢
        exact this

set_option maxRecDepth 100000 in
theorem upperRune_upperRune (c : Char) : upperRune (upperRune c) = upperRune c := by
  by_cases hc : c.toNat < 128
  · refine ascii_cases (fun c => upperRune (upperRune c) = upperRune c) ?_ c hc
    decide
  · have hl : isLower c = false := by simp [isLower]; omega
    simp [upperRune, hl]

theorem replaceFirst_pair (s new : Str) (j : Nat) (h : j + 1 < s.length)
    (hfirst : ∀ m, m < j → (s.drop m).take 2 ≠ (s.drop j).take 2) :
    replaceFirst ((s.drop j).take 2) new s = s.take j ++ new ++ s.drop (j + 2) := by
  have hdec := take_drop_decomp s j 2
  have hl : ((s.drop j).take 2).length = 2 := by
    rw [List.length_take, List.length_drop]
    omega
  rcases hp : (s.drop j).take 2 with _ | ⟨o, os⟩
  · rw [hp] at hl
    cases hl
  · rw [hp] at hdec hl
    have := replaceFirst_first o os new (s.drop (j + 2)) (s.take j) ?_
    · rw [← hdec] at this
      exact this
    · intro k hk
      rw [← hdec, hl, ← hp]
      exact hfirst k (by rw [List.length_take] at hk; omega)

theorem take_two_toLower (s : Str) (m n : Nat)
    (h : (s.drop m).take 2 = (s.drop n).take 2) :
    ((toLower s).drop m).take 2 = ((toLower s).drop n).take 2 := by
  unfold toLower
  rw [← List.map_drop, ← List.map_drop, ← List.map_take, ← List.map_take, h]

theorem afterPercent_succ (P : Str) (i k : Nat) :
    afterPercent P (i + 1) k ↔
      afterPercent P i k ∨
        (P.getD i ' ' = '%' ∧ i + 2 < P.length ∧ (k = i + 1 ∨ k = i + 2)) := by
  constructor
  · rintro (⟨h1, h2, h3, h4⟩ | ⟨h1, h2, h3, h4⟩)
    · by_cases hlt : k - 1 < i
      · exact Or.inl (Or.inl ⟨h1, hlt, h3, h4⟩)
      · have e : k - 1 = i := by omega
        rw [e] at h3
        exact Or.inr ⟨h3, by omega, Or.inl (by omega)⟩
    · by_cases hlt : k - 2 < i
      · exact Or.inl (Or.inr ⟨h1, hlt, h3, h4⟩)
      · have e : k - 2 = i := by omega
        rw [e] at h3
        exact Or.inr ⟨h3, by omega, Or.inr (by omega)⟩
  · rintro ((⟨h1, h2, h3, h4⟩ | ⟨h1, h2, h3, h4⟩) | ⟨h1, h2, h3 | h3⟩)
    · exact Or.inl ⟨h1, by omega, h3, h4⟩
    · exact Or.inr ⟨h1, by omega, h3, h4⟩
    · subst h3
      exact Or.inl ⟨by omega, by omega, by simpa using h1, by omega⟩
    · subst h3
      exact Or.inr ⟨by omega, by omega, by simpa using h1, by omega⟩

theorem afterPercent_ge (P : Str) (i k : Nat) (h : P.length ≤ i) :
    afterPercent P i k ↔ afterPercent P P.length k := by
  constructor
  · rintro (⟨h1, h2, h3, h4⟩ | ⟨h1, h2, h3, h4⟩)
    · exact Or.inl ⟨h1, by omega, h3, h4⟩
    · exact Or.inr ⟨h1, by omega, h3, h4⟩
  · rintro (⟨h1, h2, h3, h4⟩ | ⟨h1, h2, h3, h4⟩)
    · exact Or.inl ⟨h1, by omega, h3, h4⟩
    · exact Or.inr ⟨h1, by omega, h3, h4⟩

theorem take_two_getD (s : Str) (j : Nat) (h : j + 1 < s.length) :
    (s.drop j).take 2 = [s.getD j ' ', s.getD (j + 1) ' '] := by
  induction j generalizing s with
  | zero =>
    rcases s with _ | ⟨x, _ | ⟨y, T⟩⟩
    · simp at h
    · simp at h
    · rfl
  | succ j ih =>
    rcases s with _ | ⟨x, T⟩
    · simp at h
    · exact ih T (by simpa using h)

/-- The loop on a lower-case string `P` in which no `%` is followed by a reserved code and
no pair after a `%` occurs earlier: from index `i` on, it puts the two characters after
each `%` in upper case and changes nothing else. -/
theorem percentLoop_upper (P : Str)
    (hH : ∀ i, i < P.length → P.getD i ' ' = '%' →
      reservedCharacters ((P.drop (i + 1)).take 2) = none)
    (hN : ∀ i, i < P.length → P.getD i ' ' = '%' → i + 2 < P.length →
      ∀ m, m < i + 1 → (P.drop m).take 2 ≠ (P.drop (i + 1)).take 2)
    (fuel : Nat) :
    ∀ (i : Nat) (s : Str), s.length ≤ i + fuel → s.length = P.length → toLower s = P →
      (∀ k, s.getD k ' ' =
        if afterPercent P i k then upperRune (P.getD k ' ') else P.getD k ' ') →
      (percentLoop fuel i s).length = P.length ∧
      ∀ k, (percentLoop fuel i s).getD k ' ' =
        if afterPercent P P.length k then upperRune (P.getD k ' ') else P.getD k ' ' := by
  induction fuel with
  | zero =>
    intro i s hlen hsl _ hpt
    refine ⟨hsl, ?_⟩
    intro k
    show s.getD k ' ' = _
    rw [hpt k]
    by_cases ha : afterPercent P i k
    · rw [if_pos ha, if_pos ((afterPercent_ge P i k (by omega)).1 ha)]
    · rw [if_neg ha, if_neg (fun hb => ha ((afterPercent_ge P i k (by omega)).2 hb))]
  | succ f ih =>
    intro i s hlen hsl htl hpt
    rw [percentLoop_succ]
    have hpi : s.getD i ' ' = '%' ↔ P.getD i ' ' = '%' := by
      rw [← htl, getD_toLower, lowerRune_eq_percent]
    by_cases hi : i < s.length
    · rw [if_pos hi]
      by_cases hc : s.getD i ' ' = '%' ∧ i + 2 < s.length
      · rw [if_pos hc]
        have hPi := hpi.1 hc.1
        have hnone : reservedCharacters ((s.drop (i + 1)).take 2) = none := by
          cases hr : reservedCharacters ((s.drop (i + 1)).take 2) with
          | none => rfl
          | some v =>
            have hf := (reservedTable_facts _ (mem_of_lookup _ v reservedTable hr)).2.1
            have e : (P.drop (i + 1)).take 2 = (s.drop (i + 1)).take 2 := by
              rw [← htl]
              unfold toLower at hf ⊢
              rw [← List.map_drop, ← List.map_take]
              exact hf
            have := hH i (by omega) hPi
            rw [e, hr] at this
            cases this
        rw [hnone]
        dsimp only
        have hrep := replaceFirst_pair s (toUpper ((s.drop (i + 1)).take 2)) (i + 1)
          (by omega) (by
            intro m hm e
            have e' := take_two_toLower s m (i + 1) e
            rw [htl] at e'
            exact hN i (by omega) hPi (by omega) m hm e')
        rw [hrep]
        apply ih
        · simp only [List.length_append, List.length_take, List.length_drop, toUpper,
            List.length_map]
          omega
        · simp only [List.length_append, List.length_take, List.length_drop, toUpper,
            List.length_map]
          omega
        · rw [← hrep]
          rw [toLower_replaceFirst _ _ _ (by
            unfold toLower toUpper
            rw [List.map_map]
            apply List.map_congr_left
            intro c _
            exact lowerRune_upperRune c)]
          exact htl
        · intro k
          rw [getD_upperAt s (i + 1) k (by omega)]
          by_cases hk : k = i + 1 ∨ k = i + 1 + 1
          · rw [if_pos hk, if_pos ((afterPercent_succ P i k).2
              (Or.inr ⟨hPi, by omega, by omega⟩)), hpt k]
            split
            · exact upperRune_upperRune _
            · rfl
          · rw [if_neg hk, hpt k]
            by_cases ha : afterPercent P i k
            · rw [if_pos ha, if_pos ((afterPercent_succ P i k).2 (Or.inl ha))]
            · rw [if_neg ha, if_neg]
              intro hb
              rcases (afterPercent_succ P i k).1 hb with h1 | ⟨_, _, h1⟩
              · exact ha h1
              · exact hk (by omega)
      · rw [if_neg hc]
        apply ih _ _ (by omega) hsl htl
        intro k
        rw [hpt k]
        by_cases ha : afterPercent P i k
        · rw [if_pos ha, if_pos ((afterPercent_succ P i k).2 (Or.inl ha))]
        · rw [if_neg ha, if_neg]
          intro hb
          rcases (afterPercent_succ P i k).1 hb with h1 | ⟨h1, h2, _⟩
          · exact ha h1
          · exact hc ⟨hpi.2 h1, by omega⟩
    · rw [if_neg hi]
      refine ⟨hsl, ?_⟩
      intro k
      rw [hpt k]
      by_cases ha : afterPercent P i k
      · rw [if_pos ha, if_pos ((afterPercent_ge P i k (by omega)).1 ha)]
      · rw [if_neg ha, if_neg (fun hb => ha ((afterPercent_ge P i k (by omega)).2 hb))]

set_option maxRecDepth 100000 in
theorem upperRune_eq_percent (c : Char) (h : upperRune c = '%') : c = '%' := by
  by_cases hc : c.toNat < 128
  · revert h
    refine ascii_cases (fun c => upperRune c = '%' → c = '%') ?_ c hc
    decide
  · have hl : isLower c = false := by simp [isLower]; omega
    simpa [upperRune, hl] using h

theorem walkPath_out (path : Option Str)
    (h : ∀ t, path = some t → ['.', '.'] ∉ split '/' t) :
    ∃ out, (∀ r, walkPath (capture ['/'] path) r = some (r ++ out)) ∧
      ∀ c ∈ out, c = '/' ∨ ∃ t, path = some t ∧ c ∈ t := by
  cases path with
  | none => exact ⟨[], fun r => by simp [walkPath_capture], by simp⟩
  | some t =>
    obtain ⟨out, hout, hch⟩ := walkFiles_no_dotdot_chars (split '/' t) (h t rfl)
    refine ⟨out, fun r => by rw [walkPath_capture]; exact hout r, ?_⟩
    intro c hc
    rcases hch c hc with e | ⟨f, hf, hcf⟩
    · exact Or.inl e
    · exact Or.inr ⟨t, rfl, mem_of_mem_split '/' t f hf c hcf⟩

/-- Without a `..` segment the canonical string is the authority followed by what the
loop makes of `partBefore`, whose characters are slashes, the question mark, ampersands,
and characters of the path and of the query. -/
theorem partBefore_spec (Q : Parsed)
    (h : ∀ t, Q.path = some t → ['.', '.'] ∉ split '/' t) :
    canonical Q =
      some (startOf Q ++ percentLoop (partBefore Q).length 0 (partBefore Q)) ∧
    ∀ c ∈ partBefore Q, c = '/' ∨ c = '?' ∨ c = '&' ∨ (∃ t, Q.path = some t ∧ c ∈ t) ∨
      (∃ q, Q.query = some q ∧ c ∈ q) := by
  obtain ⟨out, hout, hch⟩ := walkPath_out Q.path h
  have hpb : partBefore Q = out ++ withQuery [] (capture [] Q.query) := by
    unfold partBefore
    rw [hout]
    show (withQuery (startOf Q ++ out) (capture [] Q.query)).drop (startOf Q).length = _
    rw [withQuery_append, List.append_assoc, List.drop_left]
  constructor
  · rw [hpb, canonical_eq, hout]
    show finish (startOf Q).length (withQuery (startOf Q ++ out) (capture [] Q.query)) = _
    rw [withQuery_append, List.append_assoc, finish_append]
  · intro c hc
    rw [hpb] at hc
    rcases List.mem_append.1 hc with e | e
    · rcases hch c e with e' | e'
      · exact Or.inl e'
      · exact Or.inr (Or.inr (Or.inr (Or.inl e')))
    · rcases withQuery_chars _ c e with e' | e' | e'
      · exact Or.inr (Or.inl e')
      · exact Or.inr (Or.inr (Or.inl e'))
      · cases hq : Q.query with
        | none =>
          rw [hq] at e'
          cases e'
        | some q =>
          rw [hq] at e'
          exact Or.inr (Or.inr (Or.inr (Or.inr ⟨q, rfl, e'⟩)))

/-- Where the replacement falls on the triplet itself: for an accepted URL without a `..`
segment, let `P` be the part of the string that `normalize` has built from the path and the
query when the percent-encoding loop starts. `P` is in lower case. If no `%` of `P` is followed by a key of
`reservedCharacters`, and the two characters after a `%` do not occur as a pair earlier in
`P`, then `normalize` returns the scheme/domain/port prefix followed by a string `R` of the
length of `P` in which the two characters after every `%` that has two characters after
it are the upper case of those of `P`, hex digits or not, and every other character is that
of `P`; in particular every `%` of `R` with two characters after it has them in upper
case. -/
theorem upper_case_after_percent (u : Str) (p : Parsed) (P : Str)
    (h : urlRegex u = some p)
    (hdd : ∀ t, p.path = some t → ['.', '.'] ∉ split '/' t)
    (hP : partBefore (trimParsed (lowerParsed p)) = P)
    (hH : ∀ i, i < P.length → P.getD i ' ' = '%' →
      reservedCharacters ((P.drop (i + 1)).take 2) = none)
    (hN : ∀ i, i < P.length → P.getD i ' ' = '%' → i + 2 < P.length →
      ∀ m, m < i + 1 → (P.drop m).take 2 ≠ (P.drop (i + 1)).take 2) :
    ∃ R, normalize u = some (startOf (trimParsed (lowerParsed p)) ++ R) ∧
      R.length = P.length ∧
      (∀ c ∈ P, lowerRune c = c) ∧
      (∀ k, R.getD k ' ' =
        if afterPercent P P.length k then upperRune (P.getD k ' ') else P.getD k ' ') ∧
      (∀ L x y T, R = L ++ '%' :: x :: y :: T → upperRune x = x ∧ upperRune y = y) := by
  obtain ⟨hn, _, _⟩ := normalize_of_urlRegex u p h
  have hwp := (render_of_urlRegex u p h).2
  obtain ⟨hcan, hch⟩ := partBefore_spec (trimParsed (lowerParsed p)) (noDotDot_normal p hwp hdd)
  rw [hP] at hcan hch
  obtain ⟨hlp, hlq⟩ := normal_lower p hwp
  have hlow : ∀ c ∈ P, lowerRune c = c := by
    intro c hc
    rcases hch c hc with e | e | e | ⟨t, ht, hct⟩ | ⟨q, hq, hcq⟩
    · rw [e]; decide
    · rw [e]; decide
    · rw [e]; decide
    · exact hlp t ht c hct
    · exact hlq q hq c hcq
  have htl : toLower P = P := by
    unfold toLower
    conv_rhs => rw [← List.map_id P]
    exact List.map_congr_left hlow
  obtain ⟨hlen, hpt⟩ := percentLoop_upper P hH hN P.length 0 P (by omega) rfl htl (by
    intro k
    rw [if_neg]
    rintro (⟨_, h2, _⟩ | ⟨_, h2, _⟩) <;> exact absurd h2 (Nat.not_lt_zero _))
  refine ⟨percentLoop P.length 0 P, by rw [hn, hcan], hlen, hlow, hpt, ?_⟩
  intro L x y T hR
  have g0 : (percentLoop P.length 0 P).getD L.length ' ' = '%' := by
    rw [hR, getD_append_length]
  have g1 : (percentLoop P.length 0 P).getD (L.length + 1) ' ' = x := by
    rw [hR, show L ++ '%' :: x :: y :: T = (L ++ ['%']) ++ x :: y :: T by simp,
      show L.length + 1 = (L ++ ['%']).length by simp, getD_append_length]
  have g2 : (percentLoop P.length 0 P).getD (L.length + 2) ' ' = y := by
    rw [hR, show L ++ '%' :: x :: y :: T = (L ++ ['%', x]) ++ y :: T by simp,
      show L.length + 2 = (L ++ ['%', x]).length by simp, getD_append_length]
  have hl2 : L.length + 2 < P.length := by
    rw [← hlen, hR]
    simp
  have hp0 : P.getD L.length ' ' = '%' := by
    rw [hpt] at g0
    split at g0
    · exact upperRune_eq_percent _ g0
    · exact g0
  have a1 : afterPercent P P.length (L.length + 1) :=
    Or.inl ⟨by omega, by omega, by simpa using hp0, by omega⟩
  have a2 : afterPercent P P.length (L.length + 2) :=
    Or.inr ⟨by omega, by omega, by simpa using hp0, by omega⟩
  rw [hpt, if_pos a1] at g1
  rw [hpt, if_pos a2] at g2
  rw [← g1, ← g2]
  exact ⟨upperRune_upperRune _, upperRune_upperRune _⟩

set_option maxRecDepth 100000 in
/-- The statement `upper_case_after_percent` on `https://example.com/x%c3y%zz?q=%ab`,
whose result is `https://example.com/x%C3y%ZZ?q=%AB`. -/
theorem upper_case_after_percent_witness :
    normalize "https://example.com/x%c3y%zz?q=%ab".toList =
      some "https://example.com/x%C3y%ZZ?q=%AB".toList ∧
    ∃ R, normalize "https://example.com/x%c3y%zz?q=%ab".toList =
        some (startOf (trimParsed (lowerParsed
          ⟨some "https".toList, "example.com".toList, none, some "x%c3y%zz".toList,
            some "q=%ab".toList, none⟩)) ++ R) ∧
      R.length = "/x%c3y%zz?q=%ab".toList.length ∧
      (∀ c ∈ "/x%c3y%zz?q=%ab".toList, lowerRune c = c) ∧
      (∀ k, R.getD k ' ' =
        if afterPercent "/x%c3y%zz?q=%ab".toList "/x%c3y%zz?q=%ab".toList.length k then
          upperRune ("/x%c3y%zz?q=%ab".toList.getD k ' ')
        else "/x%c3y%zz?q=%ab".toList.getD k ' ') ∧
      (∀ L x y T, R = L ++ '%' :: x :: y :: T → upperRune x = x ∧ upperRune y = y) :=
  ⟨by decide,
   upper_case_after_percent "https://example.com/x%c3y%zz?q=%ab".toList
    ⟨some "https".toList, "example.com".toList, none, some "x%c3y%zz".toList,
      some "q=%ab".toList, none⟩ "/x%c3y%zz?q=%ab".toList
    (by decide) (by intro t ht; cases ht; decide) (by decide) (by decide) (by decide)⟩

/-! ### C15: normalizing a canonical string again -/

theorem toLower_of_stable (x : Str) (h : ∀ c ∈ x, lowerRune c = c) : toLower x = x := by
  unfold toLower
  conv_rhs => rw [← List.map_id x]
  exact List.map_congr_left h

theorem trimPath_idem (t r : Str) (h : trimPath t = some r) : trimPath r = some r := by
  unfold trimPath at h ⊢
  have hpre : (trimRight ['?', '/'] ('/' :: t)) <+: ('/' :: t) := List.rdropWhile_prefix _ _
  have hid : trimRight ['?', '/'] (trimRight ['?', '/'] ('/' :: t)) =
      trimRight ['?', '/'] ('/' :: t) := List.rdropWhile_idempotent _ _
  rcases hx : trimRight ['?', '/'] ('/' :: t) with _ | ⟨x0, r0⟩
  · rw [hx] at h
    cases h
  · rw [hx] at h hpre hid
    simp only [Option.some.injEq] at h
    subst h
    have hx0 : x0 = '/' := by
      obtain ⟨k, hk⟩ := hpre
      simp only [List.cons_append, List.cons.injEq] at hk
      exact hk.1
    subst hx0
    rw [hid]

theorem split_no_sep (sep : Char) (s : Str) : ∀ x ∈ split sep s, sep ∉ x := by
  induction s with
  | nil =>
    intro x hx
    simp only [split, List.mem_singleton] at hx
    subst hx
    simp
  | cons c cs ih =>
    intro x hx
    cases hsp : split sep cs with
    | nil => exact absurd hsp (split_ne_nil _ _)
    | cons a b =>
      rw [hsp] at ih
      unfold split at hx
      rw [hsp] at hx
      by_cases hc : c = sep
      · rw [if_pos hc] at hx
        rcases List.mem_cons.1 hx with e | e
        · subst e
          simp
        · exact ih x e
      · rw [if_neg hc] at hx
        simp only [List.headD_cons, List.tail_cons, List.mem_cons] at hx
        rcases hx with e | e
        · subst e
          intro hm
          rcases List.mem_cons.1 hm with e' | e'
          · exact hc e'.symm
          · exact ih a (List.mem_cons_self _ _) e'
        · exact ih x (List.mem_cons_of_mem _ e)

theorem sortStrings_idem (xs : List Str) : sortStrings (sortStrings xs) = sortStrings xs :=
  sortStrings_perm _ _ (by unfold sortStrings; exact List.perm_insertionSort _ xs)

theorem join_eq_nil (sep : Char) (segs : List Str) (h : join sep segs = []) :
    segs = [] ∨ segs = [[]] := by
  rcases segs with _ | ⟨x, _ | ⟨y, ys⟩⟩
  · exact Or.inl rfl
  · simp only [join] at h
    exact Or.inr (by rw [h])
  · simp [join] at h

theorem walkFiles_plain (segs : List Str) (h : ∀ f ∈ segs, f ≠ ['.'] ∧ f ≠ ['.', '.'])
    (hne : segs ≠ []) : ∀ r, walkFiles segs r = some (r ++ '/' :: join '/' segs) := by
  induction segs with
  | nil => exact absurd rfl hne
  | cons f fs ih =>
    intro r
    obtain ⟨h1, h2⟩ := h f (List.mem_cons_self _ _)
    unfold walkFiles
    rw [if_neg h1, if_neg h2]
    cases fs with
    | nil => simp [walkFiles, join]
    | cons g gs =>
      rw [ih (fun x hx => h x (List.mem_cons_of_mem _ hx)) (List.cons_ne_nil _ _)]
      simp [join]

theorem takeScheme_noscheme (d t : Str) (o : Option Str)
    (hd : ∀ c ∈ d, isDomainChar c = true)
    (ho : ∀ x, o = some x → x ≠ [] ∧ ∀ c ∈ x, isDigit c = true)
    (ht : HeadIn ['/', '?', '#'] t) :
    takeScheme (d ++ (capture [':'] o ++ t)) = (none, d ++ (capture [':'] o ++ t)) := by
  have hne : ((d ++ (capture [':'] o ++ t)).dropWhile isLetter).take 3 ≠ [':', '/', '/'] := by
    intro e
    by_cases hex : ∃ c ∈ d, isLetter c = false
    · obtain ⟨c, hc, hhead⟩ := head_dropWhile_append isLetter d (capture [':'] o ++ t) hex
      have h0 : ((d ++ (capture [':'] o ++ t)).dropWhile isLetter).head? = some ':' := by
        have := congrArg List.head? e
        simpa [List.head?_take] using this
      rw [hhead] at h0
      have hcc : c = ':' := by simpa using h0
      subst hcc
      have := hd _ hc
      revert this
      decide
    · have hall : ∀ c ∈ d, isLetter c = true := by
        intro c hc
        by_contra hn
        exact hex ⟨c, hc, by simpa using hn⟩
      have hstop : Stops isLetter (capture [':'] o ++ t) :=
        stops_of_headIn (headIn_capture_append ':' _ o t ht) (by decide)
      rw [dropWhile_append_stops isLetter d _ hall hstop] at e
      cases o with
      | none =>
        rw [capture_none, List.nil_append] at e
        rcases t with _ | ⟨c, r⟩
        · simp at e
        · have hc := ht c rfl
          simp only [List.take_succ_cons, List.cons.injEq] at e
          rw [e.1] at hc
          revert hc
          decide
      | some x =>
        obtain ⟨hxne, hx⟩ := ho x rfl
        rcases x with _ | ⟨x0, xs⟩
        · exact hxne rfl
        · simp only [capture_some, List.cons_append, List.nil_append, List.take_succ_cons,
            List.cons.injEq, true_and] at e
          have := hx x0 (List.mem_cons_self _ _)
          rw [e.1] at this
          revert this
          decide
  unfold takeScheme
  rw [if_neg (fun hh => hne hh.2)]

theorem normPort_nil (s : Str) : normPort s [] = [] := by
  simp [normPort]

theorem normPort_cases (o p : Option Str) :
    normPort (capture [] o) (capture [':'] p) = [] ∨
    ∃ d, p = some d ∧ d ≠ [] ∧ normPort (capture [] o) (capture [':'] p) = d := by
  cases p with
  | none => exact Or.inl (normPort_nil _)
  | some d =>
    rw [capture_some, List.singleton_append, normPort_colon]
    split
    · exact Or.inl rfl
    · by_cases hd : d = []
      · exact Or.inl hd
      · exact Or.inr ⟨d, rfl, hd, rfl⟩

theorem sorted_query_ne (q : Str) (hq : q ≠ []) :
    join '&' (sortStrings (split '&' q)) ≠ [] := by
  intro e
  have hperm : (sortStrings (split '&' q)).Perm (split '&' q) := by
    unfold sortStrings
    exact List.perm_insertionSort _ _
  rcases join_eq_nil _ _ e with h | h
  · rw [h] at hperm
    exact split_ne_nil _ _ hperm.symm.eq_nil
  · rw [h] at hperm
    exact hq (split_eq_singleton_nil '&' q (List.perm_singleton.1 hperm.symm))

theorem sorted_query_chars (q : Str) :
    ∀ c ∈ join '&' (sortStrings (split '&' q)), c = '&' ∨ c ∈ q := by
  intro c hc
  rcases mem_join '&' _ c hc with e | ⟨x, hx, hcx⟩
  · exact Or.inl e
  · rw [mem_sortStrings] at hx
    exact Or.inr (mem_of_mem_split '&' q x hx c hcx)

theorem sorted_query_idem (q : Str) :
    join '&' (sortStrings (split '&' (join '&' (sortStrings (split '&' q))))) =
      join '&' (sortStrings (split '&' q)) := by
  have hne : sortStrings (split '&' q) ≠ [] := by
    intro e
    have hperm : (sortStrings (split '&' q)).Perm (split '&' q) := by
      unfold sortStrings
      exact List.perm_insertionSort _ _
    rw [e] at hperm
    exact split_ne_nil _ _ hperm.symm.eq_nil
  rw [split_join '&' _ hne (fun x hx => split_no_sep '&' q x ((mem_sortStrings _ x).1 hx)),
    sortStrings_idem]

/-- The canonical string of parts without dot segment and without `%` is the text of
`canonParts`. -/
theorem canonical_plain (Q : Parsed) (hw : WellFormed Q)
    (hpath : ∀ t, Q.path = some t →
      '%' ∉ t ∧ ['.'] ∉ split '/' t ∧ ['.', '.'] ∉ split '/' t)
    (hquery : ∀ q, Q.query = some q → '%' ∉ q) :
    canonical Q = some (render (canonParts Q)) := by
  have hwalk : walkPath (capture ['/'] Q.path) (startOf Q) =
      some (startOf Q ++ capture ['/'] Q.path) := by
    rw [walkPath_capture]
    cases hp : Q.path with
    | none => simp [capture_none]
    | some t =>
      obtain ⟨_, h1, h2⟩ := hpath t hp
      show walkFiles (split '/' t) (startOf Q) = _
      rw [walkFiles_plain (split '/' t)
        (fun f hf => ⟨fun e => h1 (e ▸ hf), fun e => h2 (e ▸ hf)⟩) (split_ne_nil _ _),
        join_split, capture_some]
      rfl
  have hno : '%' ∉ capture ['/'] Q.path ++ withQuery [] (capture [] Q.query) := by
    intro hm
    rcases List.mem_append.1 hm with e | e
    · cases hp : Q.path with
      | none =>
        rw [hp] at e
        cases e
      | some t =>
        rw [hp, capture_some] at e
        rcases List.mem_append.1 e with e' | e'
        · revert e'
          decide
        · exact (hpath t hp).1 e'
    · rcases withQuery_chars _ _ e with e' | e' | e'
      · revert e'
        decide
      · revert e'
        decide
      · cases hq : Q.query with
        | none =>
          rw [hq] at e'
          cases e'
        | some q =>
          rw [hq] at e'
          exact hquery q hq e'
  have hloop : ∀ P : Str, '%' ∉ P → percentLoop P.length 0 P = P := by
    intro P hP
    have := percentLoop_skip P [] hP 0 P.length 0 (by omega)
    simp only [List.append_nil, Nat.zero_add] at this
    rw [this]
    rfl
  rw [canonical_eq, hwalk]
  show finish (startOf Q).length
    (withQuery (startOf Q ++ capture ['/'] Q.path) (capture [] Q.query)) = _
  rw [withQuery_append, List.append_assoc, finish_append, hloop _ hno]
  congr 1
  unfold startOf render canonParts
  rw [authority_schemeText _ _ _ (fun s hs => (hw.scheme s hs).1)]
  simp only [List.append_assoc]
  congr 2
  have e1 : (if normPort (capture [] Q.scheme) (capture [':'] Q.port) ≠ [] then
        ':' :: normPort (capture [] Q.scheme) (capture [':'] Q.port) else []) =
      capture [':'] (if normPort (capture [] Q.scheme) (capture [':'] Q.port) = [] then none
        else some (normPort (capture [] Q.scheme) (capture [':'] Q.port))) := by
    by_cases hnp : normPort (capture [] Q.scheme) (capture [':'] Q.port) = []
    · simp [hnp, capture_none]
    · simp [hnp, capture_some]
  have e2 : withQuery [] (capture [] Q.query) =
      capture ['?'] (if Q.query.getD [] ≠ [] then
        some (join '&' (sortStrings (split '&' (Q.query.getD [])))) else none) := by
    have hg : capture [] Q.query = Q.query.getD [] := by
      cases Q.query <;> rfl
    rw [hg]
    unfold withQuery
    by_cases hq : Q.query.getD [] = []
    · simp [hq, capture_none]
    · simp [hq, capture_some]
  rw [e1, e2]
  simp [capture_none]

theorem wellFormed_canonParts (Q : Parsed) (hw : WellFormed Q)
    (hd : matchDomain (trimLeft ['w', 'w', 'w', '.'] Q.domain) = true) :
    WellFormed (canonParts Q) := by
  refine ⟨hw.scheme, ?_, hd, ?_, hw.path, ?_, ?_⟩
  · intro c hc
    exact hw.domainChars c ((List.dropWhile_suffix _).subset hc)
  · intro d hd'
    simp only [canonParts] at hd'
    split at hd'
    · cases hd'
    · rename_i hnp
      simp only [Option.some.injEq] at hd'
      rcases normPort_cases Q.scheme Q.port with e | ⟨d0, hp, hne, e⟩
      · exact absurd e hnp
      · rw [e] at hd'
        subst hd'
        exact hw.port d0 hp
  · intro q hq
    simp only [canonParts] at hq
    split at hq
    · simp only [Option.some.injEq] at hq
      subst hq
      intro c hc
      rcases sorted_query_chars _ c hc with e | e
      · rw [e]
        decide
      · cases hq0 : Q.query with
        | none =>
          rw [hq0] at e
          cases e
        | some q0 =>
          rw [hq0] at e
          exact hw.query q0 hq0 c e
    · cases hq
  · intro f hf
    cases hf

theorem canonParts_idem (Q : Parsed) : canonParts (canonParts Q) = canonParts Q := by
  have hdom : trimLeft ['w', 'w', 'w', '.'] (trimLeft ['w', 'w', 'w', '.'] Q.domain) =
      trimLeft ['w', 'w', 'w', '.'] Q.domain := List.dropWhile_idempotent _ _
  have hport : normPort (capture [] Q.scheme)
      (capture [':'] (if normPort (capture [] Q.scheme) (capture [':'] Q.port) = [] then none
        else some (normPort (capture [] Q.scheme) (capture [':'] Q.port)))) =
      normPort (capture [] Q.scheme) (capture [':'] Q.port) := by
    rcases normPort_cases Q.scheme Q.port with e | ⟨d0, hp, hne, e⟩
    · rw [e, if_pos rfl, capture_none, normPort_nil]
    · rw [e, if_neg hne, ← hp, e]
  have hquery : (if (if Q.query.getD [] ≠ [] then
          some (join '&' (sortStrings (split '&' (Q.query.getD [])))) else none).getD [] ≠ []
        then some (join '&' (sortStrings (split '&'
          ((if Q.query.getD [] ≠ [] then
            some (join '&' (sortStrings (split '&' (Q.query.getD [])))) else none).getD []))))
        else none) =
      (if Q.query.getD [] ≠ [] then
        some (join '&' (sortStrings (split '&' (Q.query.getD [])))) else none) := by
    by_cases hq : Q.query.getD [] = []
    · simp [hq]
    · have hq' : Q.query.getD [] ≠ [] := hq
      simp only [if_pos hq', Option.getD_some]
      rw [if_pos (sorted_query_ne _ hq), sorted_query_idem]
  unfold canonParts
  simp only [hdom, hport, hquery]

theorem lowerParsed_eq_self (X : Parsed)
    (h1 : ∀ s, X.scheme = some s → toLower s = s) (h2 : toLower X.domain = X.domain)
    (h3 : ∀ s, X.port = some s → toLower s = s) (h4 : ∀ s, X.path = some s → toLower s = s)
    (h5 : ∀ s, X.query = some s → toLower s = s)
    (h6 : ∀ s, X.fragment = some s → toLower s = s) : lowerParsed X = X := by
  have key : ∀ o : Option Str, (∀ s, o = some s → toLower s = s) → o.map toLower = o := by
    intro o ho
    cases o with
    | none => rfl
    | some s => simp [ho s rfl]
  obtain ⟨a, b, c, d, e, f⟩ := X
  simp only [lowerParsed, key a h1, key c h3, key d h4, key e h5, key f h6]
  simp only at h2
  rw [h2]

theorem takeScheme_some (s rest : Str) (hne : s ≠ []) (hs : ∀ c ∈ s, isLetter c = true) :
    takeScheme (schemeText (some s) ++ rest) = (some s, rest) := by
  have hstop : Stops isLetter (':' :: '/' :: '/' :: rest) := stops_cons _ _ _ (by decide)
  have h1 := takeWhile_append_stops isLetter s _ hs hstop
  have h2 := dropWhile_append_stops isLetter s _ hs hstop
  have e : schemeText (some s) ++ rest = s ++ ':' :: '/' :: '/' :: rest := by
    simp [schemeText]
  rw [e]
  simp [takeScheme, h1, h2, hne]

/-- A text with the shape of a URL is accepted only if its domain part matches the domain
pattern. -/
theorem matchDomain_of_render (X : Parsed)
    (hs : ∀ s, X.scheme = some s → s ≠ [] ∧ ∀ c ∈ s, isLetter c = true)
    (hd : ∀ c ∈ X.domain, isDomainChar c = true)
    (hp : ∀ d, X.port = some d → d ≠ [] ∧ ∀ c ∈ d, isDigit c = true)
    (hm : MatchString (render X) = true) : matchDomain X.domain = true := by
  have h4 : HeadIn ['#'] (capture ['#'] X.fragment ++ []) :=
    headIn_capture_append '#' [] X.fragment [] (headIn_nil _)
  rw [List.append_nil] at h4
  have h3 := headIn_capture_append '?' _ X.query _ h4
  have h2 := headIn_capture_append '/' _ X.path _ h3
  have h1 := headIn_capture_append ':' _ X.port _ h2
  have hts : takeScheme (render X) =
      (X.scheme, X.domain ++ (capture [':'] X.port ++ (capture ['/'] X.path ++
        (capture ['?'] X.query ++ capture ['#'] X.fragment)))) := by
    unfold render
    cases hsc : X.scheme with
    | none =>
      show takeScheme ([] ++ _) = _
      rw [List.nil_append]
      exact takeScheme_noscheme _ _ _ hd hp h2
    | some s =>
      obtain ⟨hne, hl⟩ := hs s hsc
      exact takeScheme_some s _ hne hl
  have htw : (X.domain ++ (capture [':'] X.port ++ (capture ['/'] X.path ++
      (capture ['?'] X.query ++ capture ['#'] X.fragment)))).takeWhile isDomainChar =
      X.domain :=
    takeWhile_append_stops isDomainChar _ _ hd (stops_of_headIn h1 (by decide))
  unfold MatchString urlRegex at hm
  simp only [hts, htw] at hm
  by_contra hmd
  simp [hmd] at hm

theorem trimParsed_fragment (X : Parsed) : (trimParsed X).fragment = X.fragment := by
  unfold trimParsed
  split
  · rfl
  · split <;> rfl

theorem trimParsed_trimmed (X : Parsed) (hf : X.fragment = none)
    (hq : (trimParsed X).query.getD [] = []) :
    (trimParsed X).path.bind trimPath = (trimParsed X).path := by
  unfold trimParsed at hq ⊢
  simp only [hf, Option.isSome_none, Bool.false_eq_true, if_false] at hq ⊢
  by_cases hx : X.query.getD [] ≠ []
  · rw [if_pos hx] at hq
    exact absurd hq hx
  · rw [if_neg hx]
    show (X.path.bind trimPath).bind trimPath = X.path.bind trimPath
    cases X.path with
    | none => rfl
    | some t =>
      cases ht : trimPath t with
      | none => simp [ht]
      | some r => simp [ht, trimPath_idem t r ht]

theorem trimParsed_canonParts (Q : Parsed)
    (hq : Q.query.getD [] = [] → Q.path.bind trimPath = Q.path) :
    trimParsed (canonParts Q) = canonParts Q := by
  unfold trimParsed
  have hf : (canonParts Q).fragment.isSome = false := rfl
  rw [hf]
  simp only [Bool.false_eq_true, if_false]
  by_cases hq0 : Q.query.getD [] = []
  · have e : (canonParts Q).query = none := by simp [canonParts, hq0]
    rw [e]
    simp only [Option.getD_none, ne_eq, not_true_eq_false, if_false]
    have ep : (canonParts Q).path = Q.path := rfl
    rw [ep, hq hq0]
    show _ = canonParts Q
    unfold canonParts
    simp [hq0]
  · have e : (canonParts Q).query =
        some (join '&' (sortStrings (split '&' (Q.query.getD [])))) := by
      simp [canonParts, hq0]
    rw [e]
    simp only [Option.getD_some]
    rw [if_pos (sorted_query_ne _ hq0)]

theorem stable_of_mem_toLower (x : Str) (hx : IsASCII x) : ∀ c ∈ toLower x, lowerRune c = c := by
  intro c hc
  obtain ⟨y, hy, rfl⟩ := List.mem_map.1 hc
  exact (lowerRune_ascii y (hx y hy)).2

theorem noDot_normal (p : Parsed) (hw : WellFormed p)
    (h : ∀ t, p.path = some t → ['.'] ∉ split '/' t ∧ '%' ∉ t) :
    ∀ t, (trimParsed (lowerParsed p)).path = some t → ['.'] ∉ split '/' t ∧ '%' ∉ t := by
  intro t ht
  cases hp : p.path with
  | none =>
    rcases trimParsed_path (lowerParsed p) with e | e <;>
      · rw [e] at ht
        simp [lowerParsed, hp] at ht
  | some t0 =>
    have hasc : IsASCII t0 := fun c hc => (ascii_of_classes c).2.1 (hw.path t0 hp c hc)
    have h0 : ['.'] ∉ split '/' (toLower t0) := by
      rw [split_toLower '/' (Or.inl rfl) t0 hasc]
      intro hmem
      obtain ⟨l, hl, e⟩ := List.mem_map.1 hmem
      have hascl : IsASCII l := fun c hc => hasc c (mem_of_mem_split _ _ l hl c hc)
      rw [(toLower_eq_dots l hascl).2.1 e] at hl
      exact (h t0 hp).1 hl
    have h1 : '%' ∉ toLower t0 := by
      intro hm
      obtain ⟨y, hy, e⟩ := List.mem_map.1 hm
      rw [(lowerRune_eq_percent y).1 e] at hy
      exact (h t0 hp).2 hy
    have hpc : ∀ c ∈ toLower t0, isPathChar c = true := by
      intro c hc
      obtain ⟨x, hx, rfl⟩ := List.mem_map.1 hc
      rw [(lowerRune_classes x (hasc x hx)).2.2.2.2.2.1]
      exact hw.path t0 hp x hx
    rcases trimParsed_path (lowerParsed p) with e | e
    · rw [e] at ht
      simp only [lowerParsed, hp, Option.map_some', Option.some.injEq] at ht
      rw [← ht]
      exact ⟨h0, h1⟩
    · rw [e] at ht
      simp only [lowerParsed, hp, Option.map_some', Option.some_bind] at ht
      refine ⟨?_, fun hm => h1 (trimPath_chars _ _ ht _ hm)⟩
      rcases trimPath_decomp (toLower t0) t hpc ht with e' | ⟨k, e'⟩
      · rw [e']
        exact h0
      · rw [e', split_append_sep_general] at h0
        exact fun hr => h0 (List.mem_append_left _ hr)

theorem noPercent_query_normal (p : Parsed) (h : ∀ q, p.query = some q → '%' ∉ q) :
    ∀ q, (trimParsed (lowerParsed p)).query = some q → '%' ∉ q := by
  intro q hq
  rcases trimParsed_query (lowerParsed p) with e | e
  · rw [e] at hq
    cases hp : p.query with
    | none => simp [lowerParsed, hp] at hq
    | some q0 =>
      simp only [lowerParsed, hp, Option.map_some', Option.some.injEq] at hq
      rw [← hq]
      intro hm
      obtain ⟨y, hy, e'⟩ := List.mem_map.1 hm
      rw [(lowerRune_eq_percent y).1 e'] at hy
      exact h q0 hp hy
  · rw [e] at hq
    cases hq

/-- The scheme, the domain and the port that `normalize` works on are in lower case. -/
theorem normal_lower_authority (p : Parsed) (hw : WellFormed p) :
    (∀ s, (trimParsed (lowerParsed p)).scheme = some s → ∀ c ∈ s, lowerRune c = c) ∧
    (∀ c ∈ (trimParsed (lowerParsed p)).domain, lowerRune c = c) ∧
    (∀ d, (trimParsed (lowerParsed p)).port = some d → ∀ c ∈ d, lowerRune c = c) := by
  obtain ⟨e1, e2, e3⟩ := trimParsed_fields (lowerParsed p)
  rw [e1, e2, e3]
  refine ⟨?_, ?_, ?_⟩
  · intro s hs
    cases hp : p.scheme with
    | none => simp [lowerParsed, hp] at hs
    | some s0 =>
      simp only [lowerParsed, hp, Option.map_some', Option.some.injEq] at hs
      rw [← hs]
      exact stable_of_mem_toLower s0
        (fun c hc => (ascii_of_classes c).2.2.2.2.1 ((hw.scheme s0 hp).2 c hc))
  · exact stable_of_mem_toLower p.domain
      (fun c hc => (ascii_of_classes c).1 (hw.domainChars c hc))
  · intro d hd
    cases hp : p.port with
    | none => simp [lowerParsed, hp] at hd
    | some d0 =>
      simp only [lowerParsed, hp, Option.map_some', Option.some.injEq] at hd
      rw [← hd]
      exact stable_of_mem_toLower d0
        (fun c hc => (ascii_of_classes c).2.2.2.2.2 ((hw.port d0 hp).2 c hc))

/-- C15 as stated fails. The decoding comes last and its result is not looked at again:
`a.bc/x%2f` gives `a.bc/x/`, which gives `a.bc/x`; `a.bc/x%3f` gives `a.bc/x?`, which
gives `a.bc/x`; `a.bc/x%23f` gives `a.bc/x#f`, which gives `a.bc/x`; `a.bc?b%26a` gives
`a.bc?b&a`, which gives `a.bc?a&b`; `a.bc/y/%2e%2e` gives `a.bc/y/..`, which gives `a.bc`;
`a.bc/%2e%2e` gives the accepted `a.bc/..`, on which `normalize` panics; `a.bc/%%2ab` gives
`a.bc/%*b`, in which a letter is now the second character after a `%`, and which gives
`a.bc/%*B`. The trailing slash is trimmed before the dot segments are resolved:
`a.bc/x//.` gives `a.bc/x/`, which gives `a.bc/x`. -/
theorem idempotence_counterexample :
    (MatchString "a.bc/x%3f".toList = true ∧
      normalize "a.bc/x%3f".toList = some "a.bc/x?".toList ∧
      MatchString "a.bc/x?".toList = true ∧
      normalize "a.bc/x?".toList = some "a.bc/x".toList) ∧
    (MatchString "a.bc/x%23f".toList = true ∧
      normalize "a.bc/x%23f".toList = some "a.bc/x#f".toList ∧
      MatchString "a.bc/x#f".toList = true ∧
      normalize "a.bc/x#f".toList = some "a.bc/x".toList) ∧
    (MatchString "a.bc/%%2ab".toList = true ∧
      normalize "a.bc/%%2ab".toList = some "a.bc/%*b".toList ∧
      MatchString "a.bc/%*b".toList = true ∧
      normalize "a.bc/%*b".toList = some "a.bc/%*B".toList) ∧
    (MatchString "a.bc/x%2f".toList = true ∧
      normalize "a.bc/x%2f".toList = some "a.bc/x/".toList ∧
      MatchString "a.bc/x/".toList = true ∧
      normalize "a.bc/x/".toList = some "a.bc/x".toList) ∧
    (MatchString "a.bc?b%26a".toList = true ∧
      normalize "a.bc?b%26a".toList = some "a.bc?b&a".toList ∧
      MatchString "a.bc?b&a".toList = true ∧
      normalize "a.bc?b&a".toList = some "a.bc?a&b".toList) ∧
    (MatchString "a.bc/y/%2e%2e".toList = true ∧
      normalize "a.bc/y/%2e%2e".toList = some "a.bc/y/..".toList ∧
      MatchString "a.bc/y/..".toList = true ∧
      normalize "a.bc/y/..".toList = some "a.bc".toList) ∧
    (MatchString "a.bc/%2e%2e".toList = true ∧
      normalize "a.bc/%2e%2e".toList = some "a.bc/..".toList ∧
      MatchString "a.bc/..".toList = true ∧
      normalize "a.bc/..".toList = none) ∧
    (MatchString "a.bc/x//.".toList = true ∧
      normalize "a.bc/x//.".toList = some "a.bc/x/".toList) := by
  decide

/-- The case without `%` and without dot segments: for an accepted URL without fragment,
without `%` in its path and its query, and without `.` or `..` segment in its path, `normalize` returns a string `c`; if
`c` is accepted by the grammar then `normalize` of `c` is `c`. -/
theorem normalize_idempotent (u : Str) (p : Parsed)
    (h : urlRegex u = some p) (hf : p.fragment = none)
    (hpath : ∀ t, p.path = some t →
      '%' ∉ t ∧ ['.'] ∉ split '/' t ∧ ['.', '.'] ∉ split '/' t)
    (hquery : ∀ q, p.query = some q → '%' ∉ q) :
    ∃ c, normalize u = some c ∧ (MatchString c = true → normalize c = some c) := by
  obtain ⟨hn, hwQ, _⟩ := normalize_of_urlRegex u p h
  have hwp := (render_of_urlRegex u p h).2
  have hQf : (trimParsed (lowerParsed p)).fragment = none := by
    rw [trimParsed_fragment]
    simp [lowerParsed, hf]
  have hQpath : ∀ t, (trimParsed (lowerParsed p)).path = some t →
      '%' ∉ t ∧ ['.'] ∉ split '/' t ∧ ['.', '.'] ∉ split '/' t := by
    intro t ht
    obtain ⟨a, b⟩ := noDot_normal p hwp (fun t ht => ⟨(hpath t ht).2.1, (hpath t ht).1⟩) t ht
    exact ⟨b, a, noDotDot_normal p hwp (fun t ht => (hpath t ht).2.2) t ht⟩
  have hQquery := noPercent_query_normal p hquery
  have hcan := canonical_plain _ hwQ hQpath hQquery
  refine ⟨render (canonParts (trimParsed (lowerParsed p))), by rw [hn, hcan], ?_⟩
  intro hm
  have hdchars : ∀ c ∈ (canonParts (trimParsed (lowerParsed p))).domain,
      isDomainChar c = true :=
    fun c hc => hwQ.domainChars c ((List.dropWhile_suffix _).subset hc)
  have hport : ∀ d, (canonParts (trimParsed (lowerParsed p))).port = some d →
      ∃ d0, (trimParsed (lowerParsed p)).port = some d0 ∧ d = d0 := by
    intro d hd
    simp only [canonParts] at hd
    split at hd
    · cases hd
    · rename_i hnp
      simp only [Option.some.injEq] at hd
      rcases normPort_cases (trimParsed (lowerParsed p)).scheme
        (trimParsed (lowerParsed p)).port with e | ⟨d0, hp0, _, e⟩
      · exact absurd e hnp
      · exact ⟨d0, hp0, by rw [← hd, e]⟩
  have hmd := matchDomain_of_render (canonParts (trimParsed (lowerParsed p))) hwQ.scheme
    hdchars (fun d hd => by
      obtain ⟨d0, hp0, e⟩ := hport d hd
      rw [e]
      exact hwQ.port d0 hp0) hm
  have hw' := wellFormed_canonParts _ hwQ hmd
  obtain ⟨la1, la2, la3⟩ := normal_lower_authority p hwp
  obtain ⟨lp, lq⟩ := normal_lower p hwp
  have hlow : lowerParsed (canonParts (trimParsed (lowerParsed p))) =
      canonParts (trimParsed (lowerParsed p)) := by
    apply lowerParsed_eq_self
    · intro s hs
      exact toLower_of_stable s (la1 s hs)
    · exact toLower_of_stable _
        (fun c hc => la2 c ((List.dropWhile_suffix _).subset hc))
    · intro d hd
      obtain ⟨d0, hp0, e⟩ := hport d hd
      rw [e]
      exact toLower_of_stable d0 (la3 d0 hp0)
    · intro t ht
      exact toLower_of_stable t (lp t ht)
    · intro q hq
      simp only [canonParts] at hq
      split at hq
      · simp only [Option.some.injEq] at hq
        subst hq
        apply toLower_of_stable
        intro c hc
        rcases sorted_query_chars _ c hc with e | e
        · rw [e]
          decide
        · cases hq0 : (trimParsed (lowerParsed p)).query with
          | none =>
            rw [hq0] at e
            cases e
          | some q0 =>
            rw [hq0] at e
            exact lq q0 hq0 c e
      · cases hq
    · intro f hf'
      cases hf'
  have htrim : trimParsed (canonParts (trimParsed (lowerParsed p))) =
      canonParts (trimParsed (lowerParsed p)) :=
    trimParsed_canonParts _ (trimParsed_trimmed (lowerParsed p) (by simp [lowerParsed, hf]))
  have hn' := (normalize_of_urlRegex _ _ (urlRegex_render _ hw')).1
  rw [hn', hlow, htrim]
  have hq' : ∀ q, (canonParts (trimParsed (lowerParsed p))).query = some q → '%' ∉ q := by
    intro q hq
    simp only [canonParts] at hq
    split at hq
    · simp only [Option.some.injEq] at hq
      subst hq
      intro hmem
      rcases sorted_query_chars _ _ hmem with e | e
      · revert e
        decide
      · cases hq0 : (trimParsed (lowerParsed p)).query with
        | none =>
          rw [hq0] at e
          cases e
        | some q0 =>
          rw [hq0] at e
          exact hQquery q0 hq0 e
    · cases hq
  rw [canonical_plain _ hw' hQpath hq', canonParts_idem]

/-- The statement `normalize_idempotent` on `HTTP://www.Example.com:80/a//b?y=2&x=1`, whose
canonical string is `http://example.com/a//b?x=1&y=2`. -/
theorem normalize_idempotent_witness :
    normalize "HTTP://www.Example.com:80/a//b?y=2&x=1".toList =
      some "http://example.com/a//b?x=1&y=2".toList ∧
    MatchString "http://example.com/a//b?x=1&y=2".toList = true ∧
    ∃ c, normalize "HTTP://www.Example.com:80/a//b?y=2&x=1".toList = some c ∧
      (MatchString c = true → normalize c = some c) :=
  ⟨by decide, by decide,
   normalize_idempotent "HTTP://www.Example.com:80/a//b?y=2&x=1".toList
    ⟨some "HTTP".toList, "www.Example.com".toList, some "80".toList, some "a//b".toList,
      some "y=2&x=1".toList, none⟩
    (by decide) rfl (by intro t ht; cases ht; decide) (by intro q hq; cases hq; decide)⟩

/-! ### Claims that fail where `normalize` panics, and the upper-casing replacement -/

/-- C3 fails on an accepted URL on which `normalize` panics: `example.com/..?a&b` and
`example.com/..?b&a` are accepted and have the same parameters in another order; on both
the `..` segment finds no slash to cut the string at and `normalize` panics, so there is no
canonical string and `CountUniqueUrls` of the two panics instead of returning 1. -/
theorem query_order_panics_on_dotdot :
    MatchString "example.com/..?a&b".toList = true ∧
    MatchString "example.com/..?b&a".toList = true ∧
    normalize "example.com/..?a&b".toList = none ∧
    normalize "example.com/..?b&a".toList = none ∧
    CountUniqueUrls ["example.com/..?a&b".toList, "example.com/..?b&a".toList] = none := by
  decide

/-- C7 fails on an accepted URL on which `normalize` panics: the path of `example.com/../a`
is made of the non-empty segments `..` and `a`; the URL, the URL with a `.` segment
inserted in front, and the URL with the pair `s`, `..` inserted in front are accepted, and
`normalize` panics on all three, so there is no canonical string. -/
theorem dot_segment_panics_on_dotdot :
    MatchString "example.com/../a".toList = true ∧
    MatchString "example.com/./../a".toList = true ∧
    MatchString "example.com/s/../../a".toList = true ∧
    normalize "example.com/../a".toList = none ∧
    normalize "example.com/./../a".toList = none ∧
    normalize "example.com/s/../../a".toList = none := by
  decide

/-- C10 fails on an accepted URL on which `normalize` panics: `example.com/..` and
`www.example.com/..` are accepted, `normalize` panics on both, so there is no canonical
string and `CountUniqueUrls` of the two panics instead of returning 1. -/
theorem www_panics_on_dotdot :
    MatchString "example.com/..".toList = true ∧
    MatchString "www.example.com/..".toList = true ∧
    normalize "example.com/..".toList = none ∧
    normalize "www.example.com/..".toList = none ∧
    CountUniqueUrls ["example.com/..".toList, "www.example.com/..".toList] = none := by
  decide

/-- C19 fails: the loop upper-cases the first occurrence in the string of the two
characters that follow the `%`, not the two characters of the triplet. On
`https://example.com/abc3/%c3%a9` the result is `https://example.com/abC3/%c3%A9`: the
hex digits of `%c3` stay in lower case and the letter `C` of the segment `abc3` is in
upper case. On `a.bc/ab%ab` the result is `a.bc/AB%ab`. -/
theorem upper_case_hits_first_occurrence :
    MatchString "https://example.com/abc3/%c3%a9".toList = true ∧
    normalize "https://example.com/abc3/%c3%a9".toList =
      some "https://example.com/abC3/%c3%A9".toList ∧
    MatchString "a.bc/ab%ab".toList = true ∧
    normalize "a.bc/ab%ab".toList = some "a.bc/AB%ab".toList := by
  decide

/-! ### The percent pass with replacements in place -/

theorem inPlacePass_succ_cons (fuel : Nat) (c : Char) (t : Str) :
    inPlacePass (fuel + 1) (c :: t) =
      if c = '%' ∧ 2 ≤ t.length then
        match reservedCharacters (t.take 2) with
        | some val => inPlacePass fuel (val :: t.drop 2)
        | none => '%' :: inPlacePass fuel (toUpper (t.take 2) ++ t.drop 2)
      else c :: inPlacePass fuel t := rfl

theorem inPlacePass_fuel (fuel : Nat) :
    ∀ (extra : Nat) (s : Str), s.length ≤ fuel →
      inPlacePass (fuel + extra) s = inPlacePass fuel s := by
  induction fuel with
  | zero =>
    intro extra s h
    have hs : s = [] := List.length_eq_zero.1 (by omega)
    subst hs
    cases extra <;> rfl
  | succ f ih =>
    intro extra s h
    have e : f + 1 + extra = (f + extra) + 1 := by omega
    rw [e]
    cases s with
    | nil => rfl
    | cons c t =>
      have ht : t.length ≤ f := by simpa using h
      rw [inPlacePass_succ_cons, inPlacePass_succ_cons]
      split
      · rename_i hc
        split
        · rw [ih]
          simp only [List.length_cons, List.length_drop]
          omega
        · rw [ih]
          simp only [List.length_append, toUpper, List.length_map, List.length_take,
            List.length_drop]
          omega
      · rw [ih extra t ht]

theorem inPlace_nil : inPlace [] = [] := rfl

theorem inPlace_decode (a b v : Char) (t : Str) (h : reservedCharacters [a, b] = some v) :
    inPlace ('%' :: a :: b :: t) = inPlace (v :: t) := by
  unfold inPlace
  show inPlacePass (t.length + 2 + 1) ('%' :: a :: b :: t) = _
  rw [inPlacePass_succ_cons, if_pos ⟨rfl, by simp⟩]
  simp only [List.take_succ_cons, List.take_zero, List.drop_succ_cons, List.drop_zero, h]
  exact inPlacePass_fuel (t.length + 1) 1 (v :: t) (by simp)

theorem inPlace_upper (a b : Char) (t : Str) (h : reservedCharacters [a, b] = none) :
    inPlace ('%' :: a :: b :: t) = '%' :: inPlace (upperRune a :: upperRune b :: t) := by
  unfold inPlace
  show inPlacePass (t.length + 2 + 1) ('%' :: a :: b :: t) = _
  rw [inPlacePass_succ_cons, if_pos ⟨rfl, by simp⟩]
  simp only [List.take_succ_cons, List.take_zero, List.drop_succ_cons, List.drop_zero, h]
  rfl

theorem inPlace_cons (c : Char) (t : Str) (h : ¬ (c = '%' ∧ 2 ≤ t.length)) :
    inPlace (c :: t) = c :: inPlace t := by
  unfold inPlace
  show inPlacePass (t.length + 1) (c :: t) = _
  rw [inPlacePass_succ_cons, if_neg h]

theorem inPlace_ne_nil (s : Str) (h : s ≠ []) : inPlace s ≠ [] := by
  have key : ∀ n (s : Str), s.length ≤ n → s ≠ [] → inPlace s ≠ [] := by
    intro n
    induction n with
    | zero =>
      intro s hl hs
      exact absurd (List.length_eq_zero.1 (by omega)) hs
    | succ n ih =>
      intro s hl hs
      rcases s with _ | ⟨c, t⟩
      · exact absurd rfl hs
      · by_cases hc : c = '%' ∧ 2 ≤ t.length
        · obtain ⟨rfl, ht⟩ := hc
          rcases t with _ | ⟨a, _ | ⟨b, r⟩⟩
          · simp at ht
          · simp at ht
          · cases hk : reservedCharacters [a, b] with
            | some v =>
              rw [inPlace_decode a b v r hk]
              exact ih _ (by simp at hl ⊢; omega) (List.cons_ne_nil _ _)
            | none =>
              rw [inPlace_upper a b r hk]
              exact List.cons_ne_nil _ _
        · rw [inPlace_cons c t hc]
          exact List.cons_ne_nil _ _
  exact key s.length s (le_refl _) h

theorem getLast?_cons_of_some (c x : Char) (l : Str) (h : l.getLast? = some x) :
    (c :: l).getLast? = some x := by
  cases l with
  | nil => simp at h
  | cons y ys => rw [List.getLast?_cons_cons]; exact h

set_option maxRecDepth 100000 in
theorem isDigit_upperRune (c : Char) (h : isDigit (upperRune c) = true) : upperRune c = c := by
  by_cases hc : c.toNat < 128
  · revert h
    refine ascii_cases (fun c => isDigit (upperRune c) = true → upperRune c = c) ?_ c hc
    decide
  · have hl : isLower c = false := by simp [isLower]; omega
    simp [upperRune, hl]

set_option maxRecDepth 100000 in
theorem reservedTable_upper :
    ∀ e ∈ reservedTable, upperRune e.2 = e.2 ∧ ∀ e' ∈ reservedTable, e.2 ∉ e'.1 := by
  decide

/-- What the table says of a key and its character. -/
theorem reserved_pair_facts (a b v : Char) (h : reservedCharacters [a, b] = some v) :
    upperRune a = a ∧ isDigit a = true ∧ upperRune v = v ∧
    ∀ x y, reservedCharacters [x, y] ≠ none → x ≠ v ∧ y ≠ v ∧ x ≠ '%' ∧ y ≠ '%' := by
  have hm := mem_of_lookup [a, b] v reservedTable h
  have hd := reservedTable_first _ hm a (by simp)
  have hu := reservedTable_upper _ hm
  refine ⟨?_, hd, hu.1, ?_⟩
  · revert hd
    by_cases hc : a.toNat < 128
    · refine ascii_cases (fun c => isDigit c = true → upperRune c = c) ?_ a hc
      decide
    · intro hd
      exact absurd ((ascii_of_classes a).2.2.2.2.2 hd) hc
  · intro x y hxy
    cases hk : reservedCharacters [x, y] with
    | none => exact absurd hk hxy
    | some w =>
      have hm' := mem_of_lookup [x, y] w reservedTable hk
      have h1 := hu.2 _ hm'
      have h2 := (reservedTable_upper _ (mem_of_lookup ['2', '5'] '%' reservedTable
        (by decide))).2 _ hm'
      simp only [List.mem_cons, List.mem_singleton, List.not_mem_nil, or_false, not_or] at h1 h2
      exact ⟨fun e => h1.1 e.symm, fun e => h1.2 e.symm, fun e => h2.1 e.symm,
        fun e => h2.2 e.symm⟩

theorem reserved_upper_first (x y : Char) :
    reservedCharacters [upperRune x, y] = reservedCharacters [x, y] := by
  by_cases hx : upperRune x = x
  · rw [hx]
  · have h1 : reservedCharacters [x, y] = none := by
      cases hk : reservedCharacters [x, y] with
      | none => rfl
      | some w => exact absurd (reserved_pair_facts x y w hk).1 hx
    have h2 : reservedCharacters [upperRune x, y] = none := by
      cases hk : reservedCharacters [upperRune x, y] with
      | none => rfl
      | some w =>
        exact absurd (isDigit_upperRune x (reserved_pair_facts _ _ w hk).2.1) hx
    rw [h1, h2]

/-- The in-place pass gives the same string on a text with a reserved character and on the
text with that character percent-encoded, unless the pass leaves a `%` right in front of
the character and a lower-case letter follows it (for `%` itself: as the only character
after it): the pass puts the two characters after a `%` it keeps in upper case, and the
encoded form takes the place of one of the two. -/
theorem inPlace_encoded (k0 k1 v : Char) (hk : reservedCharacters [k0, k1] = some v)
    (Y : Str) :
    ∀ (n : Nat) (X : Str), X.length ≤ n →
      ((inPlace X).getLast? = some '%' →
        (v ≠ '%' → upperRune (Y.headD ' ') = Y.headD ' ') ∧
        (v = '%' → Y.length = 1 → upperRune (Y.headD ' ') = Y.headD ' ')) →
      inPlace (X ++ '%' :: k0 :: k1 :: Y) = inPlace (X ++ v :: Y) := by
  obtain ⟨hk0, _, hv, hnot⟩ := reserved_pair_facts k0 k1 v hk
  have hnone : ∀ x y, (x = '%' ∨ y = '%' ∨ x = v ∨ y = v) →
      reservedCharacters [x, y] = none := by
    intro x y hxy
    by_contra hne
    obtain ⟨h1, h2, h3, h4⟩ := hnot x y hne
    rcases hxy with e | e | e | e
    · exact h3 e
    · exact h4 e
    · exact h1 e
    · exact h2 e
  have hup : upperRune '%' = '%' := by decide
  intro n
  induction n with
  | zero =>
    intro X hX _
    have : X = [] := List.length_eq_zero.1 (by omega)
    subst this
    exact inPlace_decode k0 k1 v Y hk
  | succ n ih =>
    intro X hX hgood
    rcases X with _ | ⟨c, t⟩
    · exact inPlace_decode k0 k1 v Y hk
    · have htl : t.length ≤ n := by simpa using hX
      by_cases hc : c = '%'
      · subst hc
        rcases t with _ | ⟨a, _ | ⟨b, r⟩⟩
        · -- the `%` right in front of the character
          have hlive : (inPlace ['%']).getLast? = some '%' := by
            rw [inPlace_cons '%' [] (by simp), inPlace_nil]
            rfl
          obtain ⟨g1, g2⟩ := hgood hlive
          show inPlace ('%' :: '%' :: k0 :: k1 :: Y) = inPlace ('%' :: v :: Y)
          rw [inPlace_upper '%' k0 _ (hnone _ _ (Or.inl rfl)), hup, hk0,
            inPlace_decode k0 k1 v Y hk]
          rcases Y with _ | ⟨y0, Y'⟩
          · rw [inPlace_cons '%' [v] (by simp)]
          · rw [inPlace_upper v y0 Y' (hnone _ _ (Or.inr (Or.inr (Or.inl rfl)))), hv]
            congr 1
            by_cases hvp : v = '%'
            · subst hvp
              rcases Y' with _ | ⟨y1, Y''⟩
              · have e := g2 rfl rfl
                simp only [List.headD_cons] at e
                rw [e]
              · cases hr : reservedCharacters [y0, y1] with
                | some w =>
                  rw [inPlace_decode y0 y1 w Y'' hr,
                    inPlace_decode (upperRune y0) y1 w Y''
                      (by rw [reserved_upper_first, hr])]
                | none =>
                  rw [inPlace_upper y0 y1 Y'' hr,
                    inPlace_upper (upperRune y0) y1 Y''
                      (by rw [reserved_upper_first, hr]), upperRune_upperRune]
            · have := g1 hvp
              simp only [List.headD_cons] at this
              rw [this]
        · -- the `%` two places in front of the character
          show inPlace ('%' :: a :: '%' :: k0 :: k1 :: Y) = inPlace ('%' :: a :: v :: Y)
          rw [inPlace_upper a '%' _ (hnone _ _ (Or.inr (Or.inl rfl))), hup,
            inPlace_upper a v _ (hnone _ _ (Or.inr (Or.inr (Or.inr rfl)))), hv]
          congr 1
          refine ih [upperRune a] (by simp at hX ⊢; omega) ?_
          intro hl
          apply hgood
          have ha : a = '%' := by
            by_cases hcc : upperRune a = '%'
            · exact upperRune_eq_percent a hcc
            · rw [inPlace_cons _ [] (by simp), inPlace_nil] at hl
              simp only [List.getLast?_singleton, Option.some.injEq] at hl
              exact absurd hl hcc
          subst ha
          rw [inPlace_cons '%' ['%'] (by simp), inPlace_cons '%' [] (by simp), inPlace_nil]
          rfl
        · show inPlace ('%' :: a :: b :: (r ++ '%' :: k0 :: k1 :: Y)) =
            inPlace ('%' :: a :: b :: (r ++ v :: Y))
          cases hr : reservedCharacters [a, b] with
          | some w =>
            rw [inPlace_decode a b w _ hr, inPlace_decode a b w _ hr]
            refine ih (w :: r) (by simp at htl ⊢; omega) ?_
            intro hl
            apply hgood
            rw [inPlace_decode a b w r hr]
            exact hl
          | none =>
            rw [inPlace_upper a b _ hr, inPlace_upper a b _ hr]
            congr 1
            refine ih (upperRune a :: upperRune b :: r) (by simpa using htl) ?_
            intro hl
            apply hgood
            rw [inPlace_upper a b r hr]
            exact getLast?_cons_of_some _ _ _ hl
      · show inPlace (c :: (t ++ '%' :: k0 :: k1 :: Y)) = inPlace (c :: (t ++ v :: Y))
        rw [inPlace_cons c _ (fun hh => hc hh.1), inPlace_cons c _ (fun hh => hc hh.1)]
        congr 1
        refine ih t htl ?_
        intro hl
        apply hgood
        rw [inPlace_cons c t (fun hh => hc hh.1)]
        exact getLast?_cons_of_some _ _ _ hl

/-! ### C8, C9: an encoded character and the character itself -/

theorem canonical_built (q : Parsed) :
    canonical q = (built q).bind (finish (startOf q).length) := by
  rw [canonical_eq]
  unfold built
  cases walkPath (capture ['/'] q.path) (startOf q) <;> rfl

/-- The result of `normalize` in terms of the string built before the loop: its first
`reservedCharsCheckStartIndex` characters, then the result of the loop on the rest. -/
theorem normalize_of_built (u : Str) (p : Parsed) (S P : Str) (h : urlRegex u = some p)
    (hb : built (trimParsed (lowerParsed p)) = some (S ++ P))
    (hS : S.length = (startOf (trimParsed (lowerParsed p))).length) :
    normalize u = some (S ++ percentLoop P.length 0 P) := by
  rw [(normalize_of_urlRegex u p h).1, canonical_built, hb, ← hS]
  exact finish_append S P

theorem startOf_trimParsed (X : Parsed) : startOf (trimParsed X) = startOf X := by
  obtain ⟨e1, e2, e3⟩ := trimParsed_fields X
  unfold startOf
  rw [e1, e2, e3]

theorem wellFormed_set_path (p : Parsed) (t : Str) (hw : WellFormed p)
    (ht : ∀ c ∈ t, isPathChar c = true) : WellFormed { p with path := some t } :=
  { scheme := hw.scheme
    domainChars := hw.domainChars
    domain := hw.domain
    port := hw.port
    path := by
      intro t' ht'
      simp only [Option.some.injEq] at ht'
      subst ht'
      exact ht
    query := hw.query
    fragment := hw.fragment }

theorem wellFormed_set_query (p : Parsed) (t : Str) (hw : WellFormed p)
    (ht : ∀ c ∈ t, isQueryChar c = true) : WellFormed { p with query := some t } :=
  { scheme := hw.scheme
    domainChars := hw.domainChars
    domain := hw.domain
    port := hw.port
    path := hw.path
    query := by
      intro t' ht'
      simp only [Option.some.injEq] at ht'
      subst ht'
      exact ht
    fragment := hw.fragment }

/-- The engine of C8 and C9: a reserved character `c` of the path or the query against its
encoded form `%` `code`. -/
theorem encoded_alike (u : Str) (p p' : Parsed) (A B S X Y k code : Str) (c : Char)
    (h : urlRegex u = some p)
    (hk : reservedCharacters k = some c) (hcode : code = k ∨ code = toUpper k)
    (hp' : (p.path = some (A ++ c :: B) ∧
        p' = { p with path := some (A ++ '%' :: (code ++ B)) }) ∨
      (p.query = some (A ++ c :: B) ∧
        p' = { p with query := some (A ++ '%' :: (code ++ B)) }))
    (hb : built (trimParsed (lowerParsed p)) = some (S ++ (X ++ c :: Y)))
    (hb' : built (trimParsed (lowerParsed p')) = some (S ++ (X ++ '%' :: (k ++ Y))))
    (hS : S.length = (startOf (trimParsed (lowerParsed p))).length)
    (hin : percentLoop (X ++ c :: Y).length 0 (X ++ c :: Y) = inPlace (X ++ c :: Y))
    (hin' : percentLoop (X ++ '%' :: (k ++ Y)).length 0 (X ++ '%' :: (k ++ Y)) =
      inPlace (X ++ '%' :: (k ++ Y)))
    (hpos : (inPlace X).getLast? = some '%' →
      (c ≠ '%' → upperRune (Y.headD ' ') = Y.headD ' ') ∧
      (c = '%' → Y.length = 1 → upperRune (Y.headD ' ') = Y.headD ' ')) :
    MatchString (render p') = true ∧
    ∃ r, normalize u = some r ∧ normalize (render p') = some r ∧
      CountUniqueUrls [u, render p'] = some 1 := by
  obtain ⟨_, hw⟩ := render_of_urlRegex u p h
  have hmem := mem_of_lookup k c reservedTable hk
  obtain ⟨hlen, _, _, hkc, hKc, _, _⟩ := reservedTable_facts _ hmem
  obtain ⟨k0, k1, hk2⟩ := List.length_eq_two.1 hlen
  have hk2 : k = [k0, k1] := hk2
  have hkc : ∀ x ∈ k, isPathChar x = true ∧ isQueryChar x = true ∧ x ≠ '/' ∧ x ≠ '.' := hkc
  have hKc : ∀ x ∈ toUpper k, isPathChar x = true ∧ isQueryChar x = true ∧ x ≠ '/' ∧
      x ≠ '.' := hKc
  have hcc : ∀ x ∈ code, isPathChar x = true ∧ isQueryChar x = true := by
    intro x hx
    rcases hcode with e | e
    · rw [e] at hx
      exact ⟨(hkc x hx).1, (hkc x hx).2.1⟩
    · rw [e] at hx
      exact ⟨(hKc x hx).1, (hKc x hx).2.1⟩
  have hw' : WellFormed p' := by
    rcases hp' with ⟨hp, e⟩ | ⟨hq, e⟩
    · rw [e]
      apply wellFormed_set_path p _ hw
      intro x hx
      simp only [List.mem_append, List.mem_cons] at hx
      rcases hx with hx | hx | hx | hx
      · exact hw.path _ hp x (by simp [hx])
      · rw [hx]
        decide
      · exact (hcc x hx).1
      · exact hw.path _ hp x (by simp [hx])
    · rw [e]
      apply wellFormed_set_query p _ hw
      intro x hx
      simp only [List.mem_append, List.mem_cons] at hx
      rcases hx with hx | hx | hx | hx
      · exact hw.query _ hq x (by simp [hx])
      · rw [hx]
        decide
      · exact (hcc x hx).2
      · exact hw.query _ hq x (by simp [hx])
  have hstart : startOf (trimParsed (lowerParsed p')) =
      startOf (trimParsed (lowerParsed p)) := by
    rw [startOf_trimParsed, startOf_trimParsed]
    rcases hp' with ⟨_, e⟩ | ⟨_, e⟩ <;> rw [e] <;> rfl
  have hm' := matchString_render p' hw'
  have n1 := normalize_of_built u p S _ h hb hS
  have n2 := normalize_of_built (render p') p' S _ (urlRegex_render p' hw') hb'
    (by rw [hstart]; exact hS)
  have hloop : percentLoop (X ++ '%' :: (k ++ Y)).length 0 (X ++ '%' :: (k ++ Y)) =
      percentLoop (X ++ c :: Y).length 0 (X ++ c :: Y) := by
    rw [hin, hin']
    subst hk2
    exact inPlace_encoded k0 k1 c hk Y X.length X (le_refl _) hpos
  rw [hloop] at n2
  refine ⟨hm', _, n1, n2, ?_⟩
  exact (count_pair_same u (render p') (matchString_of_urlRegex h) hm'
    (by rw [n1, n2])).2 _ n1

/-- C9 (amended): for an accepted URL and an occurrence, in its path or its query, of a
character `c` of the table `reservedCharacters`, the URL with the occurrence replaced by
`%` and the code of `c` (lower or upper case) is accepted, and `normalize` returns the same
string on both, so that `CountUniqueUrls` counts them as one, provided that
* the strings that `normalize` has built when the percent-encoding loop starts are
  `S ++ X ++ c :: Y` and `S ++ X ++ %code ++ Y`, with `S` as long as scheme, domain and
  port: splitting the path, resolving the dot segments and sorting the parameters, which
  come first, treat the two alike;
* if what the in-place pass makes of `X` ends in a `%`, then the character after the
  occurrence is not a lower-case letter (for `c = %`: when it is the only one that follows);
* on both strings the loop gives what the replacements in place give. -/
theorem reserved_char_encoded_alike (u : Str) (p p' : Parsed) (A B S X Y k code : Str)
    (c : Char) (h : urlRegex u = some p)
    (hk : reservedCharacters k = some c) (hcode : code = k ∨ code = toUpper k)
    (hp' : (p.path = some (A ++ c :: B) ∧
        p' = { p with path := some (A ++ '%' :: (code ++ B)) }) ∨
      (p.query = some (A ++ c :: B) ∧
        p' = { p with query := some (A ++ '%' :: (code ++ B)) }))
    (hb : built (trimParsed (lowerParsed p)) = some (S ++ (X ++ c :: Y)))
    (hb' : built (trimParsed (lowerParsed p')) = some (S ++ (X ++ '%' :: (k ++ Y))))
    (hS : S.length = (startOf (trimParsed (lowerParsed p))).length)
    (hin : percentLoop (X ++ c :: Y).length 0 (X ++ c :: Y) = inPlace (X ++ c :: Y))
    (hin' : percentLoop (X ++ '%' :: (k ++ Y)).length 0 (X ++ '%' :: (k ++ Y)) =
      inPlace (X ++ '%' :: (k ++ Y)))
    (hpos : (inPlace X).getLast? = some '%' →
      (c ≠ '%' → upperRune (Y.headD ' ') = Y.headD ' ') ∧
      (c = '%' → Y.length = 1 → upperRune (Y.headD ' ') = Y.headD ' ')) :
    MatchString (render p') = true ∧
    ∃ r, normalize u = some r ∧ normalize (render p') = some r ∧
      CountUniqueUrls [u, render p'] = some 1 :=
  encoded_alike u p p' A B S X Y k code c h hk hcode hp' hb hb' hS hin hin' hpos

set_option maxRecDepth 100000 in
/-- Witness of C9 (amended): `https://example.com/%20/baz*` against `…/%20/baz%2A`, with a
decodable triplet before the occurrence; `https://example.com/file.txt` against
`…/file%2Etxt`, a dot inside a segment; `https://example.com?b=$&a=1` against
`…?b=%24&a=1`, a query that is not in sorted order. -/
theorem reserved_char_encoded_alike_witness :
    (MatchString "https://example.com/%20/baz%2A".toList = true ∧
      ∃ r, normalize "https://example.com/%20/baz*".toList = some r ∧
        normalize "https://example.com/%20/baz%2A".toList = some r ∧
        CountUniqueUrls ["https://example.com/%20/baz*".toList,
          "https://example.com/%20/baz%2A".toList] = some 1) ∧
    (MatchString "https://example.com/file%2Etxt".toList = true ∧
      ∃ r, normalize "https://example.com/file.txt".toList = some r ∧
        normalize "https://example.com/file%2Etxt".toList = some r ∧
        CountUniqueUrls ["https://example.com/file.txt".toList,
          "https://example.com/file%2Etxt".toList] = some 1) ∧
    (MatchString "https://example.com?b=%24&a=1".toList = true ∧
      ∃ r, normalize "https://example.com?b=$&a=1".toList = some r ∧
        normalize "https://example.com?b=%24&a=1".toList = some r ∧
        CountUniqueUrls ["https://example.com?b=$&a=1".toList,
          "https://example.com?b=%24&a=1".toList] = some 1) :=
  ⟨reserved_char_encoded_alike "https://example.com/%20/baz*".toList
      ⟨some "https".toList, "example.com".toList, none, some "%20/baz*".toList, none, none⟩
      ⟨some "https".toList, "example.com".toList, none, some "%20/baz%2A".toList, none, none⟩
      "%20/baz".toList [] "https://example.com".toList "/%20/baz".toList []
      "2a".toList "2A".toList '*'
      (by decide) (by decide) (Or.inr (by decide)) (Or.inl ⟨rfl, rfl⟩)
      (by decide) (by decide) (by decide) (by decide) (by decide) (by decide),
   reserved_char_encoded_alike "https://example.com/file.txt".toList
      ⟨some "https".toList, "example.com".toList, none, some "file.txt".toList, none, none⟩
      ⟨some "https".toList, "example.com".toList, none, some "file%2Etxt".toList, none, none⟩
      "file".toList "txt".toList "https://example.com".toList "/file".toList "txt".toList
      "2e".toList "2E".toList '.'
      (by decide) (by decide) (Or.inr (by decide)) (Or.inl ⟨rfl, rfl⟩)
      (by decide) (by decide) (by decide) (by decide) (by decide) (by decide),
   reserved_char_encoded_alike "https://example.com?b=$&a=1".toList
      ⟨some "https".toList, "example.com".toList, none, none, some "b=$&a=1".toList, none⟩
      ⟨some "https".toList, "example.com".toList, none, none, some "b=%24&a=1".toList, none⟩
      "b=".toList "&a=1".toList "https://example.com".toList "?a=1&b=".toList []
      "24".toList "24".toList '$'
      (by decide) (by decide) (Or.inl rfl) (Or.inr ⟨rfl, rfl⟩)
      (by decide) (by decide) (by decide) (by decide) (by decide) (by decide)⟩

/-- C8 (amended): for an accepted URL and a `%` of its path or its query, the URL with
that `%` replaced by `%25` is accepted, and `normalize` returns the same string on both, so
that `CountUniqueUrls` counts them as one, provided that
* the strings that `normalize` has built when the percent-encoding loop starts are
  `S ++ X ++ % ++ Y` and `S ++ X ++ %25 ++ Y`, with `S` as long as scheme, domain and
  port: splitting the path, resolving the dot segments and sorting the parameters, which
  come first, treat the two alike;
* if what the in-place pass makes of `X` ends in a `%` and one character only follows the
  replaced `%`, that character is not a lower-case letter;
* on both strings the loop gives what the replacements in place give. -/
theorem nested_encoding_alike (u : Str) (p p' : Parsed) (A B S X Y : Str)
    (h : urlRegex u = some p)
    (hp' : (p.path = some (A ++ '%' :: B) ∧
        p' = { p with path := some (A ++ '%' :: '2' :: '5' :: B) }) ∨
      (p.query = some (A ++ '%' :: B) ∧
        p' = { p with query := some (A ++ '%' :: '2' :: '5' :: B) }))
    (hb : built (trimParsed (lowerParsed p)) = some (S ++ (X ++ '%' :: Y)))
    (hb' : built (trimParsed (lowerParsed p')) = some (S ++ (X ++ '%' :: '2' :: '5' :: Y)))
    (hS : S.length = (startOf (trimParsed (lowerParsed p))).length)
    (hin : percentLoop (X ++ '%' :: Y).length 0 (X ++ '%' :: Y) = inPlace (X ++ '%' :: Y))
    (hin' : percentLoop (X ++ '%' :: '2' :: '5' :: Y).length 0
        (X ++ '%' :: '2' :: '5' :: Y) = inPlace (X ++ '%' :: '2' :: '5' :: Y))
    (hpos : (inPlace X).getLast? = some '%' → Y.length = 1 →
      upperRune (Y.headD ' ') = Y.headD ' ') :
    MatchString (render p') = true ∧
    ∃ r, normalize u = some r ∧ normalize (render p') = some r ∧
      CountUniqueUrls [u, render p'] = some 1 :=
  encoded_alike u p p' A B S X Y ['2', '5'] ['2', '5'] '%' h (by decide) (Or.inl rfl) hp'
    hb hb' hS hin hin' (fun hl => ⟨fun hne => absurd rfl hne, fun _ => hpos hl⟩)

set_option maxRecDepth 100000 in
/-- Witness of C8 (amended): `https://example.com/%20x%20` against `…/%20x%2520`, the
second `%` of the path; `https://example.com?b=%20&a=1` against `…?b=%2520&a=1`, a query
that is not in sorted order; `https://example.com?a=%20&b=%21` against
`…?a=%2520&b=%21`. -/
theorem nested_encoding_alike_witness :
    (MatchString "https://example.com/%20x%2520".toList = true ∧
      ∃ r, normalize "https://example.com/%20x%20".toList = some r ∧
        normalize "https://example.com/%20x%2520".toList = some r ∧
        CountUniqueUrls ["https://example.com/%20x%20".toList,
          "https://example.com/%20x%2520".toList] = some 1) ∧
    (MatchString "https://example.com?b=%2520&a=1".toList = true ∧
      ∃ r, normalize "https://example.com?b=%20&a=1".toList = some r ∧
        normalize "https://example.com?b=%2520&a=1".toList = some r ∧
        CountUniqueUrls ["https://example.com?b=%20&a=1".toList,
          "https://example.com?b=%2520&a=1".toList] = some 1) ∧
    (MatchString "https://example.com?a=%2520&b=%21".toList = true ∧
      ∃ r, normalize "https://example.com?a=%20&b=%21".toList = some r ∧
        normalize "https://example.com?a=%2520&b=%21".toList = some r ∧
        CountUniqueUrls ["https://example.com?a=%20&b=%21".toList,
          "https://example.com?a=%2520&b=%21".toList] = some 1) :=
  ⟨nested_encoding_alike "https://example.com/%20x%20".toList
      ⟨some "https".toList, "example.com".toList, none, some "%20x%20".toList, none, none⟩
      ⟨some "https".toList, "example.com".toList, none, some "%20x%2520".toList, none, none⟩
      "%20x".toList "20".toList "https://example.com".toList "/%20x".toList "20".toList
      (by decide) (Or.inl ⟨rfl, rfl⟩)
      (by decide) (by decide) (by decide) (by decide) (by decide) (by decide),
   nested_encoding_alike "https://example.com?b=%20&a=1".toList
      ⟨some "https".toList, "example.com".toList, none, none, some "b=%20&a=1".toList, none⟩
      ⟨some "https".toList, "example.com".toList, none, none,
        some "b=%2520&a=1".toList, none⟩
      "b=".toList "20&a=1".toList "https://example.com".toList "?a=1&b=".toList "20".toList
      (by decide) (Or.inr ⟨rfl, rfl⟩)
      (by decide) (by decide) (by decide) (by decide) (by decide) (by decide),
   nested_encoding_alike "https://example.com?a=%20&b=%21".toList
      ⟨some "https".toList, "example.com".toList, none, none,
        some "a=%20&b=%21".toList, none⟩
      ⟨some "https".toList, "example.com".toList, none, none,
        some "a=%2520&b=%21".toList, none⟩
      "a=".toList "20&b=%21".toList "https://example.com".toList "?a=".toList
      "20&b=%21".toList
      (by decide) (Or.inr ⟨rfl, rfl⟩)
      (by decide) (by decide) (by decide) (by decide) (by decide) (by decide)⟩

/-! ### C15: the loop on a string that went through it -/

/-- Where no `%` is followed by a key of the table, the loop changes letter case only. -/
theorem percentLoop_lower (P : Str)
    (hH : ∀ i, i < P.length → P.getD i ' ' = '%' →
      reservedCharacters ((P.drop (i + 1)).take 2) = none)
    (fuel : Nat) :
    ∀ (i : Nat) (s : Str), toLower s = P → toLower (percentLoop fuel i s) = P := by
  induction fuel with
  | zero =>
    intro i s h
    exact h
  | succ f ih =>
    intro i s htl
    rw [percentLoop_succ]
    have hlen : s.length = P.length := by
      rw [← htl]
      simp [toLower]
    by_cases hi : i < s.length
    · rw [if_pos hi]
      by_cases hc : s.getD i ' ' = '%' ∧ i + 2 < s.length
      · rw [if_pos hc]
        have hPi : P.getD i ' ' = '%' := by
          rw [← htl, getD_toLower, lowerRune_eq_percent]
          exact hc.1
        have hnone : reservedCharacters ((s.drop (i + 1)).take 2) = none := by
          cases hr : reservedCharacters ((s.drop (i + 1)).take 2) with
          | none => rfl
          | some v =>
            have hf := (reservedTable_facts _ (mem_of_lookup _ v reservedTable hr)).2.1
            have e : (P.drop (i + 1)).take 2 = (s.drop (i + 1)).take 2 := by
              rw [← htl]
              unfold toLower at hf ⊢
              rw [← List.map_drop, ← List.map_take]
              exact hf
            have := hH i (by omega) hPi
            rw [e, hr] at this
            cases this
        rw [hnone]
        dsimp only
        apply ih
        rw [toLower_replaceFirst _ _ _ (by
          unfold toLower toUpper
          rw [List.map_map]
          apply List.map_congr_left
          intro c _
          exact lowerRune_upperRune c)]
        exact htl
      · rw [if_neg hc]
        exact ih _ _ htl
    · rw [if_neg hi]
      exact htl

theorem replaceFirst_head (old new : Str) (c0 : Char) (t : Str) (hold : old ≠ [])
    (h : old.head? = some c0 → new.head? = some c0) :
    ∃ t', replaceFirst old new (c0 :: t) = c0 :: t' := by
  unfold replaceFirst
  split
  · rename_i hm
    have ho : old.head? = some c0 := by
      rcases old with _ | ⟨o, os⟩
      · exact absurd rfl hold
      · simp only [List.length_cons, List.take_succ_cons, List.cons.injEq] at hm
        rw [← hm.1]
        rfl
    rcases new with _ | ⟨x, xs⟩
    · have := h ho
      simp at this
    · have := h ho
      simp only [List.head?_cons, Option.some.injEq] at this
      subst this
      exact ⟨_, rfl⟩
  · exact ⟨_, rfl⟩

/-- The loop keeps the first character of a string that starts with `/` or `?`. -/
theorem percentLoop_head (c0 : Char) (hc0 : c0 ≠ '%') (hu : upperRune c0 = c0) (fuel : Nat) :
    ∀ (i : Nat) (t : Str), ∃ t', percentLoop fuel i (c0 :: t) = c0 :: t' := by
  induction fuel with
  | zero =>
    intro i t
    exact ⟨t, rfl⟩
  | succ f ih =>
    intro i t
    rw [percentLoop_succ]
    by_cases hi : i < (c0 :: t).length
    · rw [if_pos hi]
      by_cases hc : (c0 :: t).getD i ' ' = '%' ∧ i + 2 < (c0 :: t).length
      · rw [if_pos hc]
        have h3 : ((c0 :: t).drop i).take 3 =
            [(c0 :: t).getD i ' ', (c0 :: t).getD (i + 1) ' ', (c0 :: t).getD (i + 2) ' '] := by
          obtain ⟨L, c, x, y, R, hs, hL⟩ := index_decomp (c0 :: t) i hc.2
          rw [hs, ← hL]
          have e1 : (L ++ c :: x :: y :: R).getD L.length ' ' = c := getD_append_length _ _ _ _
          have e2 : (L ++ c :: x :: y :: R).getD (L.length + 1) ' ' = x := by
            rw [show L ++ c :: x :: y :: R = (L ++ [c]) ++ x :: y :: R by simp,
              show L.length + 1 = (L ++ [c]).length by simp, getD_append_length]
          have e3 : (L ++ c :: x :: y :: R).getD (L.length + 2) ' ' = y := by
            rw [show L ++ c :: x :: y :: R = (L ++ [c, x]) ++ y :: R by simp,
              show L.length + 2 = (L ++ [c, x]).length by simp, getD_append_length]
          rw [e1, e2, e3, List.drop_left' rfl]
          rfl
        have h2 := take_two_getD (c0 :: t) (i + 1) (by omega)
        rw [h3, h2]
        cases reservedCharacters [(c0 :: t).getD (i + 1) ' ', (c0 :: t).getD (i + 1 + 1) ' '] with
        | some val =>
          dsimp only
          obtain ⟨t1, ht1⟩ := replaceFirst_head
            [(c0 :: t).getD i ' ', (c0 :: t).getD (i + 1) ' ', (c0 :: t).getD (i + 2) ' ']
            [val] c0 t (List.cons_ne_nil _ _) (by
              intro e
              simp only [List.head?_cons, Option.some.injEq] at e
              rw [hc.1] at e
              exact absurd e.symm hc0)
          rw [ht1]
          exact ih i t1
        | none =>
          dsimp only
          obtain ⟨t1, ht1⟩ := replaceFirst_head
            [(c0 :: t).getD (i + 1) ' ', (c0 :: t).getD (i + 1 + 1) ' ']
            (toUpper [(c0 :: t).getD (i + 1) ' ', (c0 :: t).getD (i + 1 + 1) ' '])
            c0 t (List.cons_ne_nil _ _) (by
              intro e
              simp only [List.head?_cons, Option.some.injEq] at e
              simp only [toUpper, List.map_cons, List.head?_cons, e, hu])
          rw [ht1]
          exact ih (i + 1) t1
      · rw [if_neg hc]
        exact ih (i + 1) t
    · rw [if_neg hi]
      exact ⟨t, rfl⟩

theorem noTripleBelow_tail (c : Char) (t : Str) (h : NoTripleBelow (c :: t).length (c :: t)) :
    NoTripleBelow t.length t := by
  intro k hk a b rest hd
  exact h (k + 1) (by simpa using hk) a b rest (by simpa [toLower] using hd)

/-- The in-place pass gives back a string in the letter case of `caseForm` from its lower
case, when no `%` of it is followed by a key of the table. -/
theorem inPlace_caseForm (R : Str) :
    ∀ n, n ≤ 2 → caseForm n R = true → NoTripleBelow R.length R →
      inPlace (toUpper ((toLower R).take n) ++ (toLower R).drop n) = R := by
  induction R with
  | nil =>
    intro n _ _ _
    simp [toLower, toUpper, inPlace_nil]
  | cons c t ih =>
    intro n hn hcf hnt
    have hnt' := noTripleBelow_tail c t hnt
    unfold caseForm at hcf
    simp only [Bool.and_eq_true] at hcf
    obtain ⟨hhead, hrest⟩ := hcf
    have hform : toUpper ((toLower (c :: t)).take n) ++ (toLower (c :: t)).drop n =
        c :: (toUpper ((toLower t).take (n - 1)) ++ (toLower t).drop (n - 1)) := by
      rcases n with _ | m
      · simp only [if_true, beq_iff_eq] at hhead
        simp only [List.take_zero, List.drop_zero, toUpper, List.map_nil, List.nil_append,
          Nat.zero_sub]
        show lowerRune c :: toLower t = _
        rw [hhead]
      · simp only [Nat.add_one_ne_zero, if_false, beq_iff_eq] at hhead
        show upperRune (lowerRune c) :: _ = _
        rw [hhead]
        rfl
    rw [hform]
    by_cases hc : c = '%' ∧ 2 ≤ t.length
    · obtain ⟨rfl, ht⟩ := hc
      rw [if_pos ⟨rfl, ht⟩] at hrest
      rcases t with _ | ⟨a, _ | ⟨b, r⟩⟩
      · simp at ht
      · simp at ht
      · have hkey : reservedCharacters [lowerRune a, lowerRune b] = none :=
          hnt 0 (by simp) _ _ (toLower r) rfl
        have ih2 := ih 2 (le_refl _) hrest hnt'
        have e2 : toUpper ((toLower (a :: b :: r)).take 2) ++ (toLower (a :: b :: r)).drop 2 =
            upperRune (lowerRune a) :: upperRune (lowerRune b) :: toLower r := rfl
        rw [e2] at ih2
        have hn1 : n - 1 = 0 ∨ n - 1 = 1 := by omega
        rcases hn1 with e | e
        · rw [e]
          show inPlace ('%' :: lowerRune a :: lowerRune b :: toLower r) = _
          rw [inPlace_upper _ _ _ hkey, ih2]
        · rw [e]
          show inPlace ('%' :: upperRune (lowerRune a) :: lowerRune b :: toLower r) = _
          rw [inPlace_upper _ _ _ (by rw [reserved_upper_first]; exact hkey),
            upperRune_upperRune, ih2]
    · rw [if_neg hc] at hrest
      rw [inPlace_cons c _ (by
        intro hh
        apply hc
        refine ⟨hh.1, ?_⟩
        have := hh.2
        simp only [List.length_append, toUpper, toLower, List.length_map, List.length_take,
          List.length_drop] at this
        omega)]
      rw [ih (n - 1) (by omega) hrest hnt']

theorem lastIndex_under (sep : Char) (r acc : Str) (k : Nat)
    (h : lastIndex sep acc = some k) : lastIndex sep (r ++ acc) = some (r.length + k) := by
  induction r with
  | nil => simpa using h
  | cons x xs ih =>
    show lastIndex sep (x :: (xs ++ acc)) = _
    unfold lastIndex
    rw [ih]
    exact congrArg some (by simp only [List.length_cons]; omega)

/-- A walk that succeeds from a string succeeds from that string with any text in front, and
leaves the text in front alone: the `..` segments cut inside what the walk itself wrote. -/
theorem walkFiles_under (files : List Str) :
    ∀ (acc o : Str), walkFiles files acc = some o →
      ∀ r, walkFiles files (r ++ acc) = some (r ++ o) := by
  induction files with
  | nil =>
    intro acc o h r
    simp only [walkFiles, Option.some.injEq] at h ⊢
    rw [h]
  | cons f fs ih =>
    intro acc o h r
    unfold walkFiles at h ⊢
    by_cases h1 : f = ['.']
    · rw [if_pos h1] at h ⊢
      exact ih acc o h r
    · rw [if_neg h1] at h ⊢
      by_cases h2 : f = ['.', '.']
      · rw [if_pos h2] at h ⊢
        cases hl : lastIndex '/' acc with
        | none =>
          rw [hl] at h
          cases h
        | some k =>
          rw [hl] at h
          rw [lastIndex_under '/' r acc k hl]
          have e : (r ++ acc).take (r.length + k) = r ++ acc.take k := by
            rw [List.take_append_eq_append_take]
            simp
          simp only at h ⊢
          rw [e]
          exact ih _ o h r
      · rw [if_neg h2] at h ⊢
        have := ih _ o h r
        rw [← List.append_assoc] at this
        exact this

theorem walkFiles_headIn (files : List Str) :
    ∀ (acc o : Str), walkFiles files acc = some o → HeadIn ['/'] acc → HeadIn ['/'] o := by
  induction files with
  | nil =>
    intro acc o h hacc
    simp only [walkFiles, Option.some.injEq] at h
    exact h ▸ hacc
  | cons f fs ih =>
    intro acc o h hacc
    unfold walkFiles at h
    by_cases h1 : f = ['.']
    · rw [if_pos h1] at h
      exact ih acc o h hacc
    · rw [if_neg h1] at h
      by_cases h2 : f = ['.', '.']
      · rw [if_pos h2] at h
        cases hl : lastIndex '/' acc with
        | none =>
          rw [hl] at h
          cases h
        | some k =>
          rw [hl] at h
          refine ih _ o h ?_
          intro c hc
          apply hacc c
          rcases acc with _ | ⟨x, xs⟩
          · simp at hc
          · rcases k with _ | k
            · simp at hc
            · simpa using hc
      · rw [if_neg h2] at h
        refine ih _ o h ?_
        intro c hc
        rcases acc with _ | ⟨x, xs⟩
        · simp only [List.nil_append, List.head?_cons, Option.some.injEq] at hc
          rw [← hc]
          exact List.mem_singleton.2 rfl
        · exact hacc c (by simpa using hc)

/-- The walk over the path, started from the empty string: with any start in front it
gives the start followed by the same text, which is empty or starts with a slash. -/
theorem walkPath_under (dirs out : Str) (h : walkPath dirs [] = some out) :
    (∀ r, walkPath dirs r = some (r ++ out)) ∧ HeadIn ['/'] out := by
  unfold walkPath at h ⊢
  by_cases hd : dirs ≠ []
  · rw [if_pos hd] at h
    refine ⟨fun r => ?_, walkFiles_headIn _ [] out h (headIn_nil _)⟩
    rw [if_pos hd]
    have := walkFiles_under _ [] out h r
    rwa [List.append_nil] at this
  · rw [if_neg hd] at h
    simp only [Option.some.injEq] at h
    subst h
    refine ⟨fun r => ?_, headIn_nil _⟩
    rw [if_neg hd, List.append_nil]

/-- The scanner on a text that starts with a scheme, a domain and a port and goes on with
a slash, a question mark, a hash or nothing: the first three groups are these. -/
theorem urlRegex_authority (o : Option Str) (d : Str) (po : Option Str) (R : Str)
    (pc : Parsed)
    (hs : ∀ s, o = some s → s ≠ [] ∧ ∀ c ∈ s, isLetter c = true)
    (hd : ∀ c ∈ d, isDomainChar c = true)
    (hp : ∀ x, po = some x → x ≠ [] ∧ ∀ c ∈ x, isDigit c = true)
    (hR : HeadIn ['/', '?', '#'] R)
    (h : urlRegex (schemeText o ++ (d ++ (capture [':'] po ++ R))) = some pc) :
    pc.scheme = o ∧ pc.domain = d ∧ pc.port = po ∧ matchDomain d = true ∧
    R = capture ['/'] pc.path ++ (capture ['?'] pc.query ++ capture ['#'] pc.fragment) := by
  have h1 := headIn_capture_append ':' _ po R hR
  have hts : takeScheme (schemeText o ++ (d ++ (capture [':'] po ++ R))) =
      (o, d ++ (capture [':'] po ++ R)) := by
    cases ho : o with
    | none =>
      show takeScheme ([] ++ _) = _
      rw [List.nil_append]
      exact takeScheme_noscheme _ _ _ hd hp hR
    | some s =>
      obtain ⟨hne, hl⟩ := hs s ho
      exact takeScheme_some s _ hne hl
  have hstop : Stops isDomainChar (capture [':'] po ++ R) := stops_of_headIn h1 (by decide)
  have htw := takeWhile_append_stops isDomainChar d _ hd hstop
  have hdw := dropWhile_append_stops isDomainChar d _ hd hstop
  have htp := takePort_capture po R hp hR
  have hfields : pc.scheme = o ∧ pc.domain = d ∧ pc.port = po ∧ matchDomain d = true := by
    have h' := h
    unfold urlRegex at h'
    simp only [hts, htw, hdw, htp] at h'
    split at h'
    · rename_i hcond
      simp only [Option.some.injEq] at h'
      subst h'
      simp only [Bool.and_eq_true] at hcond
      exact ⟨rfl, rfl, rfl, hcond.1⟩
    · cases h'
  refine ⟨hfields.1, hfields.2.1, hfields.2.2.1, hfields.2.2.2, ?_⟩
  have hr := (render_of_urlRegex _ _ h).1
  unfold render at hr
  rw [hfields.1, hfields.2.1, hfields.2.2.1] at hr
  exact List.append_cancel_left (List.append_cancel_left (List.append_cancel_left hr))

theorem startOf_congr (X Y : Parsed) (hs : X.scheme = Y.scheme) (hd : X.domain = Y.domain)
    (hp : X.port = Y.port) : startOf X = startOf Y := by
  unfold startOf
  rw [hs, hd, hp]

theorem startOf_canonParts (Q : Parsed) : startOf (canonParts Q) = startOf Q := by
  have hdom : trimLeft ['w', 'w', 'w', '.'] (trimLeft ['w', 'w', 'w', '.'] Q.domain) =
      trimLeft ['w', 'w', 'w', '.'] Q.domain := List.dropWhile_idempotent _ _
  have hport : normPort (capture [] Q.scheme)
      (capture [':'] (if normPort (capture [] Q.scheme) (capture [':'] Q.port) = [] then none
        else some (normPort (capture [] Q.scheme) (capture [':'] Q.port)))) =
      normPort (capture [] Q.scheme) (capture [':'] Q.port) := by
    rcases normPort_cases Q.scheme Q.port with e | ⟨d0, hp, hne, e⟩
    · rw [e, if_pos rfl, capture_none, normPort_nil]
    · rw [e, if_neg hne, ← hp, e]
  unfold startOf canonParts
  simp only [hdom, hport]

/-- The text of scheme, domain and port that `normalize` writes. -/
theorem startOf_text (Q : Parsed) (hw : WellFormed Q) :
    startOf Q = schemeText (canonParts Q).scheme ++
      ((canonParts Q).domain ++ capture [':'] (canonParts Q).port) := by
  unfold startOf canonParts
  rw [authority_schemeText _ _ _ (fun s hs => (hw.scheme s hs).1)]
  simp only
  congr 2
  by_cases hnp : normPort (capture [] Q.scheme) (capture [':'] Q.port) = []
  · simp [hnp, capture_none]
  · simp [hnp, capture_some]

theorem walkPath_plain (o : Option Str)
    (h : ∀ t, o = some t → ['.'] ∉ split '/' t ∧ ['.', '.'] ∉ split '/' t) (r : Str) :
    walkPath (capture ['/'] o) r = some (r ++ capture ['/'] o) := by
  rw [walkPath_capture]
  cases o with
  | none => simp [capture_none]
  | some t =>
    obtain ⟨h1, h2⟩ := h t rfl
    show walkFiles (split '/' t) r = _
    rw [walkFiles_plain (split '/' t)
      (fun f hf => ⟨fun e => h1 (e ▸ hf), fun e => h2 (e ▸ hf)⟩) (split_ne_nil _ _),
      join_split, capture_some]
    rfl

theorem noDots_toLower (t : Str) (hasc : IsASCII t)
    (h : ['.'] ∉ split '/' t ∧ ['.', '.'] ∉ split '/' t) :
    ['.'] ∉ split '/' (toLower t) ∧ ['.', '.'] ∉ split '/' (toLower t) := by
  refine ⟨?_, noDotDot_toLower t hasc h.2⟩
  rw [split_toLower '/' (Or.inl rfl) t hasc]
  intro hmem
  obtain ⟨l, hl, e⟩ := List.mem_map.1 hmem
  have hascl : IsASCII l := fun c hc => hasc c (mem_of_mem_split _ _ l hl c hc)
  rw [(toLower_eq_dots l hascl).2.1 e] at hl
  exact h.1 hl

theorem trimRight_toLower_fixed (c : Str) (hasc : IsASCII c)
    (h : trimRight ['?', '/'] c = c) : trimRight ['?', '/'] (toLower c) = toLower c := by
  unfold trimRight at h ⊢
  rw [List.rdropWhile_eq_self_iff] at h ⊢
  intro hl
  have hc : c ≠ [] := fun e => hl (by rw [e]; rfl)
  have := h hc
  have e : (toLower c).getLast hl = lowerRune (c.getLast hc) := by
    unfold toLower
    rw [List.getLast_map]
  rw [e]
  have hx := hasc _ (List.getLast_mem hc)
  have hd := lowerRune_delims _ hx
  intro hmem
  apply this
  simp only [List.elem_eq_mem, List.mem_cons, List.mem_singleton, decide_eq_true_eq,
    List.not_mem_nil, or_false] at hmem ⊢
  rcases hmem with e1 | e1
  · exact Or.inl (hd.2.2.1.1 e1)
  · exact Or.inr (hd.2.1.1 e1)

theorem walkFiles_chars (files : List Str) :
    ∀ (acc o : Str), walkFiles files acc = some o →
      ∀ c ∈ o, c ∈ acc ∨ c = '/' ∨ ∃ f ∈ files, c ∈ f := by
  induction files with
  | nil =>
    intro acc o h c hc
    simp only [walkFiles, Option.some.injEq] at h
    exact Or.inl (h ▸ hc)
  | cons f fs ih =>
    intro acc o h c hc
    have lift : (c ∈ acc ∨ c = '/' ∨ ∃ g ∈ fs, c ∈ g) →
        c ∈ acc ∨ c = '/' ∨ ∃ g ∈ f :: fs, c ∈ g := by
      rintro (e | e | ⟨g, hg, hcg⟩)
      · exact Or.inl e
      · exact Or.inr (Or.inl e)
      · exact Or.inr (Or.inr ⟨g, List.mem_cons_of_mem _ hg, hcg⟩)
    unfold walkFiles at h
    by_cases h1 : f = ['.']
    · rw [if_pos h1] at h
      exact lift (ih acc o h c hc)
    · rw [if_neg h1] at h
      by_cases h2 : f = ['.', '.']
      · rw [if_pos h2] at h
        cases hl : lastIndex '/' acc with
        | none =>
          rw [hl] at h
          cases h
        | some k =>
          rw [hl] at h
          rcases ih _ o h c hc with e | e
          · exact Or.inl (List.mem_of_mem_take e)
          · exact lift (Or.inr e)
      · rw [if_neg h2] at h
        rcases ih _ o h c hc with e | e
        · simp only [List.mem_append, List.mem_cons] at e
          rcases e with e | e | e
          · exact Or.inl e
          · exact Or.inr (Or.inl e)
          · exact Or.inr (Or.inr ⟨f, List.mem_cons_self _ _, e⟩)
        · exact lift (Or.inr e)

theorem walkPath_chars (o : Option Str) (out : Str)
    (h : walkPath (capture ['/'] o) [] = some out) :
    ∀ c ∈ out, c = '/' ∨ ∃ t, o = some t ∧ c ∈ t := by
  rw [walkPath_capture] at h
  cases o with
  | none =>
    simp only [Option.some.injEq] at h
    subst h
    intro c hc
    cases hc
  | some t =>
    intro c hc
    rcases walkFiles_chars _ [] out h c hc with e | e | ⟨f, hf, hcf⟩
    · cases e
    · exact Or.inl e
    · exact Or.inr ⟨t, rfl, mem_of_mem_split '/' t f hf c hcf⟩

theorem map_toLower_stable (o : Option Str)
    (h : ∀ s, o = some s → ∀ c ∈ s, lowerRune c = c) : o.map toLower = o := by
  cases o with
  | none => rfl
  | some s => simp [toLower_of_stable s (h s rfl)]

theorem capture_toLower (d : Str) (hd : toLower d = d) (o : Option Str) :
    toLower (capture d o) = capture d (o.map toLower) := by
  cases o with
  | none => rfl
  | some x => simp [capture_some, toLower_append, hd]

theorem withQuery_nil (w : Str) : withQuery w [] = w := by
  simp [withQuery]

/-- C15 (amended): let `c` be the string that `normalize` returns on an accepted URL
whose `..` segments stay inside the path, and let `c` be accepted. If `c` has no fragment,
does not end in `/` or `?`, has no `.` or `..` segment in its path, has its parameters in
sorted order (in lower case), and either the percent-encoding loop found nothing to decode
in the URL, or the part of `c` after scheme, domain and port has the letter case that the
loop leaves (`caseForm`) and the loop on its lower case gives what the replacements in
place give, then `normalize` returns `c` on `c`. -/
theorem normalize_again (u c : Str) (p pc : Parsed) (out : Str)
    (h : urlRegex u = some p)
    (hwalk : walkPath (capture ['/'] (trimParsed (lowerParsed p)).path) [] = some out)
    (hc : normalize u = some c) (hpc : urlRegex c = some pc)
    (hfrag : pc.fragment = none)
    (hend : trimRight ['?', '/'] c = c)
    (hdots : ∀ t, pc.path = some t → ['.'] ∉ split '/' t ∧ ['.', '.'] ∉ split '/' t)
    (hsorted : ∀ q, pc.query = some q →
      sortStrings (split '&' (toLower q)) = split '&' (toLower q))
    (hloop : (∀ i, i < (partBefore (trimParsed (lowerParsed p))).length →
          (partBefore (trimParsed (lowerParsed p))).getD i ' ' = '%' →
          reservedCharacters
            (((partBefore (trimParsed (lowerParsed p))).drop (i + 1)).take 2) = none) ∨
      (caseForm 0 (c.drop (startOf (trimParsed (lowerParsed p))).length) = true ∧
        percentLoop (toLower (c.drop (startOf (trimParsed (lowerParsed p))).length)).length 0
            (toLower (c.drop (startOf (trimParsed (lowerParsed p))).length)) =
          inPlace (toLower (c.drop (startOf (trimParsed (lowerParsed p))).length)))) :
    normalize c = some c := by
  obtain ⟨_, hwQ, _⟩ := normalize_of_urlRegex u p h
  have hwp := (render_of_urlRegex u p h).2
  obtain ⟨hwalkAll, hout⟩ := walkPath_under _ out hwalk
  generalize hQ : trimParsed (lowerParsed p) = Q at *
  -- the string built for `u`
  have hpb : partBefore Q = out ++ withQuery [] (capture [] Q.query) := by
    unfold partBefore
    rw [hwalkAll]
    show (withQuery (startOf Q ++ out) (capture [] Q.query)).drop (startOf Q).length = _
    rw [withQuery_append, List.append_assoc, List.drop_left]
  have hbuilt : built Q = some (startOf Q ++ partBefore Q) := by
    unfold built
    rw [hwalkAll, hpb]
    show some (withQuery (startOf Q ++ out) (capture [] Q.query)) = _
    rw [withQuery_append, List.append_assoc]
  have hnu : normalize u = some (startOf Q ++
      percentLoop (partBefore Q).length 0 (partBefore Q)) :=
    normalize_of_built u p (startOf Q) _ h (by rw [hQ]; exact hbuilt) (by rw [hQ])
  have hcR : c = startOf Q ++ percentLoop (partBefore Q).length 0 (partBefore Q) := by
    rw [hc] at hnu
    exact Option.some.inj hnu
  have hdrop : c.drop (startOf Q).length =
      percentLoop (partBefore Q).length 0 (partBefore Q) := by
    rw [hcR, List.drop_left]
  rw [hdrop] at hloop
  -- the part before the loop is in lower case and starts with `/` or `?`
  obtain ⟨lp, lq⟩ : (∀ t, Q.path = some t → ∀ c ∈ t, lowerRune c = c) ∧
      (∀ q, Q.query = some q → ∀ c ∈ q, lowerRune c = c) := by
    rw [← hQ]
    exact normal_lower p hwp
  obtain ⟨la1, la2, la3⟩ : (∀ s, Q.scheme = some s → ∀ c ∈ s, lowerRune c = c) ∧
      (∀ c ∈ Q.domain, lowerRune c = c) ∧
      (∀ d, Q.port = some d → ∀ c ∈ d, lowerRune c = c) := by
    rw [← hQ]
    exact normal_lower_authority p hwp
  have hlowP : ∀ x ∈ partBefore Q, lowerRune x = x := by
    intro x hx
    rw [hpb] at hx
    rcases List.mem_append.1 hx with e | e
    · rcases walkPath_chars Q.path out hwalk x e with e' | ⟨t, ht, hxt⟩
      · rw [e']
        decide
      · exact lp t ht x hxt
    · rcases withQuery_chars _ x e with e' | e' | e'
      · rw [e']
        decide
      · rw [e']
        decide
      · cases hq : Q.query with
        | none =>
          rw [hq] at e'
          cases e'
        | some q =>
          rw [hq] at e'
          exact lq q hq x e'
  have hheadP : HeadIn ['/', '?'] (partBefore Q) := by
    rw [hpb]
    intro x hx
    rcases out with _ | ⟨o0, os⟩
    · simp only [List.nil_append] at hx
      unfold withQuery at hx
      split at hx
      · simp only [List.nil_append, List.head?_cons, Option.some.injEq] at hx
        rw [← hx]
        simp
      · simp at hx
    · have := hout o0 rfl
      simp only [List.mem_singleton] at this
      simp only [List.cons_append, List.head?_cons, Option.some.injEq] at hx
      rw [← hx, this]
      simp
  have hheadR : HeadIn ['/', '?', '#']
      (percentLoop (partBefore Q).length 0 (partBefore Q)) := by
    rcases hP : partBefore Q with _ | ⟨c0, t⟩
    · intro x hx
      simp [percentLoop] at hx
    · have hc0 := hheadP c0 (by rw [hP]; rfl)
      have hc0' : c0 ≠ '%' ∧ upperRune c0 = c0 := by
        simp only [List.mem_cons, List.mem_singleton, List.not_mem_nil, or_false] at hc0
        rcases hc0 with e | e <;> rw [e] <;> decide
      obtain ⟨t', ht'⟩ := percentLoop_head c0 hc0'.1 hc0'.2 (c0 :: t).length 0 t
      rw [ht']
      intro x hx
      simp only [List.head?_cons, Option.some.injEq] at hx
      rw [← hx]
      simp only [List.mem_cons, List.mem_singleton, List.not_mem_nil, or_false] at hc0 ⊢
      rcases hc0 with e | e
      · exact Or.inl e
      · exact Or.inr (Or.inl e)
  -- the groups of `c`
  have hdchars : ∀ x ∈ (canonParts Q).domain, isDomainChar x = true :=
    fun x hx => hwQ.domainChars x ((List.dropWhile_suffix _).subset hx)
  have hport : ∀ d, (canonParts Q).port = some d → Q.port = some d := by
    intro d hd
    simp only [canonParts] at hd
    split at hd
    · cases hd
    · rename_i hnp
      simp only [Option.some.injEq] at hd
      rcases normPort_cases Q.scheme Q.port with e | ⟨d0, hp0, _, e⟩
      · exact absurd e hnp
      · rw [hp0, ← hd, e]
  have htext : c = schemeText (canonParts Q).scheme ++ ((canonParts Q).domain ++
      (capture [':'] (canonParts Q).port ++
        percentLoop (partBefore Q).length 0 (partBefore Q))) := by
    rw [hcR, startOf_text Q hwQ]
    simp only [List.append_assoc]
  obtain ⟨f1, f2, f3, _, hR⟩ := urlRegex_authority (canonParts Q).scheme
    (canonParts Q).domain (canonParts Q).port _ pc hwQ.scheme hdchars
    (fun d hd => hwQ.port d (hport d hd)) hheadR (by rw [← htext]; exact hpc)
  rw [hfrag, capture_none, List.append_nil] at hR
  -- the second pass
  obtain ⟨hlc, hwL⟩ := wellFormed_lowerParsed c pc hpc
  have htrim : trimParsed (lowerParsed pc) = lowerParsed pc := by
    obtain ⟨e2, hw2⟩ := trimRight_render (lowerParsed pc) hwL
    have e3 := trimRight_toLower_fixed c (isASCII_of_urlRegex c pc hpc) hend
    rw [hlc, e2] at e3
    have := urlRegex_render _ hw2
    rw [e3, urlRegex_render _ hwL] at this
    exact (Option.some.inj this).symm
  have hstart : startOf (lowerParsed pc) = startOf Q := by
    rw [← startOf_canonParts Q]
    apply startOf_congr
    · show pc.scheme.map toLower = _
      rw [f1]
      exact map_toLower_stable _ la1
    · show toLower pc.domain = _
      rw [f2]
      exact toLower_of_stable _ (fun x hx => la2 x ((List.dropWhile_suffix _).subset hx))
    · show pc.port.map toLower = _
      rw [f3]
      exact map_toLower_stable _ (fun d hd => la3 d (hport d hd))
  have hpathL : ∀ t, (lowerParsed pc).path = some t →
      ['.'] ∉ split '/' t ∧ ['.', '.'] ∉ split '/' t := by
    intro t ht
    cases hp : pc.path with
    | none => simp [lowerParsed, hp] at ht
    | some t0 =>
      simp only [lowerParsed, hp, Option.map_some', Option.some.injEq] at ht
      rw [← ht]
      have hw0 := (render_of_urlRegex c pc hpc).2
      exact noDots_toLower t0 (isASCII_of_path (hw0.path t0 hp)) (hdots t0 hp)
  have hqueryL : withQuery (startOf Q ++ capture ['/'] (lowerParsed pc).path)
      (capture [] (lowerParsed pc).query) =
      startOf Q ++ (capture ['/'] (lowerParsed pc).path ++
        capture ['?'] (lowerParsed pc).query) := by
    cases hq : pc.query with
    | none =>
      have : (lowerParsed pc).query = none := by simp [lowerParsed, hq]
      rw [this, capture_none, capture_none, withQuery_nil, List.append_nil]
    | some q =>
      have e : (lowerParsed pc).query = some (toLower q) := by simp [lowerParsed, hq]
      have hne : toLower q ≠ [] := by
        intro hnil
        have hx := congrArg Parsed.query htrim
        unfold trimParsed at hx
        have hfL : (lowerParsed pc).fragment = none := by simp [lowerParsed, hfrag]
        simp only [hfL, Option.isSome_none, Bool.false_eq_true, if_false, e, Option.getD_some,
          hnil, ne_eq, not_true_eq_false] at hx
        cases hx
      rw [e, capture_some, capture_some, List.nil_append,
        withQuery_sorted _ _ hne (hsorted q hq)]
      simp
  have hbuiltL : built (lowerParsed pc) = some (startOf Q ++
      toLower (percentLoop (partBefore Q).length 0 (partBefore Q))) := by
    unfold built
    rw [hstart, walkPath_plain _ hpathL]
    show some (withQuery _ _) = _
    rw [hqueryL, hR, toLower_append, capture_toLower ['/'] rfl, capture_toLower ['?'] rfl]
    rfl
  have hn2 := normalize_of_built c pc (startOf Q) _ hpc (by rw [htrim]; exact hbuiltL)
    (by rw [htrim, hstart])
  rw [hn2]
  -- the loop on the lower case of its own result
  have hfix : percentLoop
      (toLower (percentLoop (partBefore Q).length 0 (partBefore Q))).length 0
      (toLower (percentLoop (partBefore Q).length 0 (partBefore Q))) =
      percentLoop (partBefore Q).length 0 (partBefore Q) := by
    rcases hloop with hH | ⟨hcf, hin⟩
    · have e := percentLoop_lower (partBefore Q) hH (partBefore Q).length 0 (partBefore Q)
        (toLower_of_stable _ hlowP)
      rw [e]
    · have hnt := percentLoop_no_triple (partBefore Q).length 0 (partBefore Q) (by omega)
        (fun k hk => absurd hk (Nat.not_lt_zero k))
        (fun x hx => hlowP x (List.mem_of_mem_drop hx))
      have := inPlace_caseForm _ 0 (by omega) hcf hnt
      simp only [List.take_zero, List.drop_zero, toUpper, List.map_nil, List.nil_append]
        at this
      rw [hin, this]
  rw [hfix, ← hcR]

set_option maxRecDepth 100000 in
/-- Witness of C15 (amended): `https://example.com/caf%c3%a9`, whose canonical string
`https://example.com/caf%C3%A9` has triplets that are not decoded;
`https://example.com/foo/./bar/baz/../qux`, whose dot segments are resolved to
`https://example.com/foo/bar/qux`; `HTTP://www.Example.com:80/a%2ab?y=%c3&x=1`, whose
canonical string `http://example.com/a*b?x=1&y=%C3` has a decoded character. -/
theorem normalize_again_witness :
    (normalize "https://example.com/caf%c3%a9".toList =
        some "https://example.com/caf%C3%A9".toList ∧
      normalize "https://example.com/caf%C3%A9".toList =
        some "https://example.com/caf%C3%A9".toList) ∧
    (normalize "https://example.com/foo/./bar/baz/../qux".toList =
        some "https://example.com/foo/bar/qux".toList ∧
      normalize "https://example.com/foo/bar/qux".toList =
        some "https://example.com/foo/bar/qux".toList) ∧
    (normalize "HTTP://www.Example.com:80/a%2ab?y=%c3&x=1".toList =
        some "http://example.com/a*b?x=1&y=%C3".toList ∧
      normalize "http://example.com/a*b?x=1&y=%C3".toList =
        some "http://example.com/a*b?x=1&y=%C3".toList) :=
  ⟨⟨by decide,
    normalize_again "https://example.com/caf%c3%a9".toList
      "https://example.com/caf%C3%A9".toList
      ⟨some "https".toList, "example.com".toList, none, some "caf%c3%a9".toList, none, none⟩
      ⟨some "https".toList, "example.com".toList, none, some "caf%C3%A9".toList, none, none⟩
      "/caf%c3%a9".toList
      (by decide) (by decide) (by decide) (by decide) rfl (by decide)
      (by intro t ht; cases ht; decide) (by intro q hq; cases hq)
      (Or.inl (by decide))⟩,
   ⟨by decide,
    normalize_again "https://example.com/foo/./bar/baz/../qux".toList
      "https://example.com/foo/bar/qux".toList
      ⟨some "https".toList, "example.com".toList, none,
        some "foo/./bar/baz/../qux".toList, none, none⟩
      ⟨some "https".toList, "example.com".toList, none, some "foo/bar/qux".toList,
        none, none⟩
      "/foo/bar/qux".toList
      (by decide) (by decide) (by decide) (by decide) rfl (by decide)
      (by intro t ht; cases ht; decide) (by intro q hq; cases hq)
      (Or.inl (by decide))⟩,
   ⟨by decide,
    normalize_again "HTTP://www.Example.com:80/a%2ab?y=%c3&x=1".toList
      "http://example.com/a*b?x=1&y=%C3".toList
      ⟨some "HTTP".toList, "www.Example.com".toList, some "80".toList,
        some "a%2ab".toList, some "y=%c3&x=1".toList, none⟩
      ⟨some "http".toList, "example.com".toList, none, some "a*b".toList,
        some "x=1&y=%C3".toList, none⟩
      "/a%2ab".toList
      (by decide) (by decide) (by decide) (by decide) rfl (by decide)
      (by intro t ht; cases ht; decide) (by intro q hq; cases hq; decide)
      (Or.inr ⟨by decide, by decide⟩)⟩⟩

end URLNormalizer
